import Mathlib

/-!
# Linear regression by ordinary least squares: `learn.cpp` and `learngen.cpp`

A shallow embedding of the `Matrix` class of `src/learn.cpp` (transpose, multiply,
Gauss-Jordan inversion with partial pivoting), of the regression pipeline of its `main`,
and of the grid generator of `src/learngen.cpp` and `src/learngen.hpp`.

The class is embedded twice.  `Matrix` has exact rational entries and carries the
statements of linear algebra, which hold of exact arithmetic.  `MatrixOver` has the
arithmetic of the entries as a parameter (`Arith`); it is instantiated with the exact
arithmetic `exactArith` and with `doubleArith`, a model of IEEE 754 binary64 (`Dbl`:
rounding to nearest with ties to even, signed zeros, infinities, NaN), and carries the
statements about the code as it runs on `double`.  The two embeddings are the same code:
`multiply_over` and `invert_over` show that the operations of `Matrix` are those of
`MatrixOver` at `exactArith`.

Conventions of the embedding.

* `std::vector<std::vector<double>>` is a list of rows, `List (List ℚ)`.
* `operator[]` of `std::vector` is unchecked in C++; an access outside the vector is
  undefined behaviour.  Every access is modelled by a checked read or write that yields
  `none` in that case, so `none` always means "the C++ program left defined behaviour",
  never "the program reported an error" (the class is `noexcept` throughout and has no
  error path at all).
* In `main` the data file is the list of its numbers; there `none` also stands for a
  file that ends early or whose counts are not natural numbers, which the embedding does
  not follow further.
* Loops are counted loops over the natural numbers; the loop body is a function from
  the loop index and the current state to the next state.
* Division in `Matrix` is the division of `ℚ` (total, `x / 0 = 0`); IEEE division by
  zero does not trap either, and in `Dbl` it yields an infinity or NaN.
* The loop of the generator need not end.  Its embedding takes a bound on the number of
  steps (fuel) and yields an `Outcome`: a returned value, undefined behaviour, or
  `outOfFuel` when the bound is reached.
-/

/-- Rational matrices of Mathlib with `r` rows and `c` columns, the mathematical
reference against which the list-based code is compared. -/
abbrev QMat (r c : ℕ) := Matrix (Fin r) (Fin c) ℚ

namespace Learn

/-! ## Loops -/

/-- Loop `for (int i = lo; i < hi; ++i) body` with a fallible body. -/
def forFrom {σ : Type} (lo hi : ℕ) (init : σ) (body : ℕ → σ → Option σ) : Option σ :=
  (List.range' lo (hi - lo)).foldlM (fun s i => body i s) init

/-- Loop `for (int i = 0; i < n; ++i) body` with a fallible body. -/
def forRange {σ : Type} (n : ℕ) (init : σ) (body : ℕ → σ → Option σ) : Option σ :=
  forFrom 0 n init body

/-- Loop `for (int i = n - 1; i >= 0; --i) body` with a fallible body. -/
def forDown {σ : Type} : ℕ → σ → (ℕ → σ → Option σ) → Option σ
  | 0, s, _ => some s
  | n + 1, s, body => (body n s).bind fun s' => forDown n s' body

/-! ## The `Matrix` class -/

/-- The class `Matrix`: its only member is `data`, the vector of rows. -/
structure Matrix where
  data : List (List ℚ)
deriving DecidableEq, Repr

namespace Matrix

/-- Read of the row `data[i]` (`none` outside the vector). -/
def row (m : Matrix) (i : ℕ) : Option (List ℚ) := m.data[i]?

/-- Read of the entry `data[i][j]` (`none` outside either vector). -/
def get (m : Matrix) (i j : ℕ) : Option ℚ := (m.row i).bind fun r => r[j]?

/-- Assignment `data[i] = r` of a whole row (`none` outside the vector). -/
def setRow (m : Matrix) (i : ℕ) (r : List ℚ) : Option Matrix :=
  if i < m.data.length then some ⟨m.data.set i r⟩ else none

/-- Assignment `data[i][j] = v` (`none` outside either vector). -/
def set (m : Matrix) (i j : ℕ) (v : ℚ) : Option Matrix :=
  (m.row i).bind fun r => if j < r.length then m.setRow i (r.set j v) else none

/-- Constructor `Matrix()`: no rows. -/
def empty : Matrix := ⟨[]⟩

/-- Constructor `Matrix(int rows, int columns)`: `rows` rows of `columns`
value-initialised (zero) entries. -/
def sized (rows columns : ℕ) : Matrix :=
  ⟨List.replicate rows (List.replicate columns 0)⟩

/-- Constructor `Matrix(int rows, int columns, const std::vector<double>& data)`:
entry `(i, j)` is copied from `data[i * columns + j]`. -/
def ofValues (rows columns : ℕ) (data : List ℚ) : Option Matrix :=
  forRange rows (sized rows columns) fun i m =>
    forRange columns m fun j m =>
      (data[i * columns + j]?).bind fun v => m.set i j v

/-- Method `Matrix::transpose`. -/
def transpose (self : Matrix) : Option Matrix :=
  (self.row 0).bind fun row0 =>
    forRange self.data.length (sized row0.length self.data.length) fun i t =>
      (self.row i).bind fun ri =>
        forRange ri.length t fun j t =>
          (self.get i j).bind fun v => t.set j i v

/-- Method `Matrix::multiply`. -/
def multiply (self : Matrix) (matrix : Matrix) : Option Matrix :=
  (matrix.row 0).bind fun row0 =>
    forRange self.data.length (sized self.data.length row0.length) fun i p =>
      forRange row0.length p fun j p =>
        (self.row i).bind fun ri =>
          forRange ri.length p fun k p =>
            (p.get i j).bind fun acc =>
              (self.get i k).bind fun a =>
                (matrix.get k j).bind fun b =>
                  p.set i j (acc + a * b)

/-! ### `Matrix::invert` -/

/-- The pivot search of `invert` (lines 96-103): starting from `i_max = h`, rows
`h + 1 .. n - 1` are scanned and `i_max` moves to row `i` when
`|clone[i_max][k]| < |clone[i][k]|`. -/
def findPivot (n h k : ℕ) (clone : Matrix) : Option ℕ :=
  forFrom (h + 1) n h fun i i_max =>
    (clone.get i_max k).bind fun a =>
      (clone.get i k).bind fun b =>
        some (if |a| < |b| then i else i_max)

/-- Exchange of the rows `h` and `i_max` through the temporary `temp`
(lines 108-110 and 112-114). -/
def swapRows (m : Matrix) (h i_max : ℕ) : Option Matrix :=
  (m.row h).bind fun temp =>
    (m.row i_max).bind fun r =>
      (m.setRow h r).bind fun m1 => m1.setRow i_max temp

/-- Reduction of row `i` by the pivot row `h` (lines 118-123): the factor `f` is
computed once, then both matrices are updated entry by entry. -/
def reduceRow (n h k i : ℕ) (st : Matrix × Matrix) : Option (Matrix × Matrix) :=
  (st.1.get i k).bind fun a =>
    (st.1.get h k).bind fun b =>
      let f := a / b
      forRange n st fun j st =>
        (st.1.get i j).bind fun c =>
          (st.1.get h j).bind fun ch =>
            (st.1.set i j (c - ch * f)).bind fun clone =>
              (st.2.get i j).bind fun v =>
                (st.2.get h j).bind fun vh =>
                  (st.2.set i j (v - vh * f)).bind fun inverse =>
                    some (clone, inverse)

/-- One iteration of the forward-elimination loop (lines 95-128) for column `k`.
The state is the row pointer `h`, the working copy `clone` and the accumulated
`inverse`. -/
def forwardStep (n k : ℕ) (st : ℕ × Matrix × Matrix) : Option (ℕ × Matrix × Matrix) :=
  let h := st.1
  let clone := st.2.1
  let inverse := st.2.2
  (findPivot n h k clone).bind fun i_max =>
    (clone.get i_max k).bind fun p =>
      if p ≠ 0 then
        (swapRows clone h i_max).bind fun clone =>
          (swapRows inverse h i_max).bind fun inverse =>
            (forFrom (h + 1) n (clone, inverse) fun i st => reduceRow n h k i st).bind
              fun st => some (h + 1, st.1, st.2)
      else some (h, clone, inverse)

/-- The forward-elimination loop `for (int h = 0, k = 0; h < n && k < n; ++k)`.
The row pointer `h` never decreases, so once `h < n` fails the loop has ended: the
remaining indices `k` leave the state unchanged. -/
def forwardLoop (n : ℕ) (clone inverse : Matrix) : Option (ℕ × Matrix × Matrix) :=
  forRange n (0, clone, inverse) fun k st =>
    if st.1 < n then forwardStep n k st else some st

/-- The diagonal branch of the backward pass (lines 133-139): row `i` of `inverse`,
then row `i` of `clone`, is divided entry by entry by `clone[i][j]`, which is read
again at every entry. -/
def diagStep (n i j : ℕ) (st : Matrix × Matrix) : Option (Matrix × Matrix) :=
  (forRange n st.2 fun k inverse =>
      (st.1.get i j).bind fun d =>
        (inverse.get i k).bind fun v => inverse.set i k (v / d)).bind fun inverse =>
    (forRange n st.1 fun k clone =>
        (clone.get i j).bind fun d =>
          (clone.get i k).bind fun v => clone.set i k (v / d)).bind fun clone =>
      some (clone, inverse)

/-- The off-diagonal branch of the backward pass (lines 145-151): row `j` scaled by
`clone[i][j]` is subtracted from row `i`, in `inverse` and then in `clone`; the
factor `clone[i][j]` is read again at every entry. -/
def elimStep (n i j : ℕ) (st : Matrix × Matrix) : Option (Matrix × Matrix) :=
  (forRange n st.2 fun k inverse =>
      (st.1.get i j).bind fun c =>
        (inverse.get j k).bind fun w =>
          (inverse.get i k).bind fun v => inverse.set i k (v - c * w)).bind fun inverse =>
    (forRange n st.1 fun k clone =>
        (clone.get i j).bind fun c =>
          (clone.get j k).bind fun w =>
            (clone.get i k).bind fun v => clone.set i k (v - c * w)).bind fun clone =>
      some (clone, inverse)

/-- The inner loop `for (int j = n - 1; j >= 0; --j)` of the backward pass for row
`i`; the first argument counts the columns still to visit, the next one being
`j = count - 1`.  The diagonal branch ends the loop (`break`). -/
def backRow (n i : ℕ) : ℕ → Matrix × Matrix → Option (Matrix × Matrix)
  | 0, st => some st
  | j + 1, st =>
      if j = i then diagStep n i j st
      else (elimStep n i j st).bind fun st' => backRow n i j st'

/-- The backward pass (lines 130-154). -/
def backwardLoop (n : ℕ) (st : Matrix × Matrix) : Option (Matrix × Matrix) :=
  forDown n st fun i st => backRow n i n st

/-- The identity initialisation of `inverse` (lines 87-92). -/
def identityInit (n : ℕ) : Option Matrix :=
  forRange n (sized n n) fun i inverse => inverse.set i i 1

/-- Method `Matrix::invert`. -/
def invert (self : Matrix) : Option Matrix :=
  let n := self.data.length
  (identityInit n).bind fun inverse =>
    (forwardLoop n self inverse).bind fun st =>
      (backwardLoop n (st.2.1, st.2.2)).bind fun st' => some st'.2

end Matrix

/-! ## The regression pipeline of `main` -/

/-- The estimator of line 252:
`x.transpose().multiply(x).invert().multiply(x.transpose()).multiply(y)`. -/
def fit (x y : Matrix) : Option Matrix :=
  x.transpose.bind fun xt =>
    (xt.multiply x).bind fun g =>
      g.invert.bind fun gi =>
        x.transpose.bind fun xt' =>
          (gi.multiply xt').bind fun m => m.multiply y

/-- The prediction of line 272: `px.multiply(b)`. -/
def predict (px b : Matrix) : Option Matrix := px.multiply b

/-! ### The data file and the buffers of `main` -/

/-- Extraction `file >> x` of a `double`: the next number of the file (`none` when the
file has ended, which the embedding does not follow further). -/
def readDouble (file : List ℚ) : Option (ℚ × List ℚ) :=
  match file with
  | [] => none
  | q :: rest => some (q, rest)

/-- Extraction `file >> n` of an `int` used as a count: the next number of the file,
which has to be a non-negative integer. -/
def readInt (file : List ℚ) : Option (ℕ × List ℚ) :=
  match file with
  | [] => none
  | q :: rest => if q.den = 1 ∧ 0 ≤ q.num then some (q.num.toNat, rest) else none

/-- Assignment `v[i] = x` on a `std::vector<double>` (`none` outside the vector). -/
def vecSet (v : List ℚ) (i : ℕ) (x : ℚ) : Option (List ℚ) :=
  if i < v.length then some (v.set i x) else none

/-- Loop `for (int j = lo; j < hi; ++j) file >> buffer[base + j]`; the state is the rest
of the file and the buffer. -/
def readInto (lo hi base : ℕ) (st : List ℚ × List ℚ) : Option (List ℚ × List ℚ) :=
  forFrom lo hi st fun j st =>
    (readDouble st.1).bind fun r =>
      (vecSet st.2 (base + j) r.1).bind fun buffer => some (r.2, buffer)

/-- The training loop of `main` (lines 230-243); the state is the rest of the file, the
buffer `inputs` and the buffer `outputs`. -/
def readTraining (entry_count input_count output_count : ℕ)
    (st : List ℚ × List ℚ × List ℚ) : Option (List ℚ × List ℚ × List ℚ) :=
  forRange entry_count st fun i st =>
    (vecSet st.2.1 (i * input_count) 1).bind fun inputs =>
      (readInto 1 input_count (i * input_count) (st.1, inputs)).bind fun s1 =>
        (readInto 0 output_count (i * output_count) (s1.1, st.2.2)).bind fun s2 =>
          some (s2.1, s1.2, s2.2)

/-- The prediction loop of `main` (lines 259-266); the state is the rest of the file and
the buffer `inputs`, reused from the training phase. -/
def readPredictions (entry_count input_count : ℕ)
    (st : List ℚ × List ℚ) : Option (List ℚ × List ℚ) :=
  forRange entry_count st fun i st =>
    (vecSet st.2 (i * input_count) 1).bind fun inputs =>
      readInto 1 input_count (i * input_count) (st.1, inputs)

/-- The matrices built by a run of `main`: the design matrix `x`, the targets `y`, the
estimator `b`, the prediction inputs `px` and the printed predictions `py`. -/
structure Run where
  x : Matrix
  y : Matrix
  b : Matrix
  px : Matrix
  py : Matrix
deriving DecidableEq, Repr

/-- The function `main` of `learn.cpp` on the numbers of the data file (lines 220-273);
the result holds the matrices it builds, `py` being the one it prints. -/
def main (file : List ℚ) : Option Run :=
  (readInt file).bind fun r1 =>
    (readInt r1.2).bind fun r2 =>
      (readInt r2.2).bind fun r3 =>
        let entry_count := r1.1
        let input_count := r2.1 + 1
        let output_count := r3.1
        let inputs := List.replicate (entry_count * input_count) (0 : ℚ)
        let outputs := List.replicate (entry_count * output_count) (0 : ℚ)
        (readTraining entry_count input_count output_count (r3.2, inputs, outputs)).bind
          fun t =>
            (Matrix.ofValues entry_count input_count t.2.1).bind fun x =>
              (Matrix.ofValues entry_count output_count t.2.2).bind fun y =>
                (fit x y).bind fun b =>
                  (readInt t.1).bind fun r4 =>
                    (readPredictions r4.1 input_count (r4.2, t.2.1)).bind fun p =>
                      (Matrix.ofValues r4.1 input_count p.2).bind fun px =>
                        (predict px b).bind fun py => some ⟨x, y, b, px, py⟩

/-! ## The grid generator of `learngen.cpp` -/

/-- How a run of code that may loop for ever ends within a given number of steps: it
returns a value, it leaves defined behaviour (an access outside a vector), or the steps
allowed are used up. -/
inductive Outcome (α : Type) where
  | done (a : α)
  | undefinedBehaviour
  | outOfFuel
deriving DecidableEq, Repr

/-- Sequencing of two runs. -/
def Outcome.bind {α β : Type} (o : Outcome α) (f : α → Outcome β) : Outcome β :=
  match o with
  | .done a => f a
  | .undefinedBehaviour => .undefinedBehaviour
  | .outOfFuel => .outOfFuel

/-- A checked access as a run: `none` is undefined behaviour. -/
def Outcome.ofOption {α : Type} (o : Option α) : Outcome α :=
  match o with
  | some a => .done a
  | none => .undefinedBehaviour

/-- Loop `for (...; cond; incr) body` whose number of iterations is not known in
advance; the first argument bounds the number of evaluations of `cond`. -/
def forWhile {σ : Type} (cond : σ → Option Bool) (body : σ → Outcome σ)
    (incr : σ → Option σ) : ℕ → σ → Outcome σ
  | 0, _ => .outOfFuel
  | fuel + 1, s =>
      match cond s with
      | none => .undefinedBehaviour
      | some false => .done s
      | some true =>
          (body s).bind fun s1 =>
            (Outcome.ofOption (incr s1)).bind fun s2 => forWhile cond body incr fuel s2

/-- The function `function` of `learngen.hpp`: the `switch` over the index, with the
`return 0` after it for every other index. -/
def function (index : ℤ) (inputs : List ℚ) : Option ℚ :=
  match index with
  | 0 => inputs[0]?
  | 1 => (inputs[0]?).bind fun a => some (a + 1)
  | 2 => (inputs[0]?).bind fun a => some (2 * a)
  | 3 => (inputs[0]?).bind fun a => some (a * a)
  | 4 => (inputs[0]?).bind fun a => (inputs[1]?).bind fun b => some (a + b)
  | 5 => (inputs[0]?).bind fun a => (inputs[1]?).bind fun b => some (a * b)
  | 6 => (inputs[0]?).bind fun a => (inputs[1]?).bind fun b =>
      (inputs[2]?).bind fun c => some (a + b + c)
  | 7 => (inputs[0]?).bind fun a => (inputs[1]?).bind fun b =>
      (inputs[2]?).bind fun c => (inputs[3]?).bind fun d =>
        (inputs[4]?).bind fun e => some (a + 2 * b + 3 * c + 4 * d + 5 * e)
  | _ => some 0

/-- The function `output` of `learngen.cpp`: one line is written, the inputs followed by
the value of each requested function.  The file is the list of its lines, a line the
list of its numbers. -/
def output (file : List (List ℚ)) (indices : List ℤ) (inputs : List ℚ) :
    Option (List (List ℚ)) :=
  (forRange inputs.length ([] : List ℚ) fun i line =>
      (inputs[i]?).bind fun v => some (line ++ [v])).bind fun line =>
    (forRange indices.length line fun i line =>
        (indices[i]?).bind fun index =>
          (function index inputs).bind fun v => some (line ++ [v])).bind fun line =>
      some (file ++ [line])

/-- The loop condition `inputs[index] <= max` of `variable_loop`. -/
def coordinateInRange (index : ℕ) (max : ℚ) (s : List (List ℚ) × List ℚ) : Option Bool :=
  (s.2[index]?).bind fun v => some (decide (v ≤ max))

/-- The loop increment `inputs[index] += step` of `variable_loop`. -/
def coordinateAdvance (index : ℕ) (step : ℚ) (s : List (List ℚ) × List ℚ) :
    Option (List (List ℚ) × List ℚ) :=
  (s.2[index]?).bind fun v => (vecSet s.2 index (v + step)).bind fun inputs => some (s.1, inputs)

/-- The function `variable_loop` of `learngen.cpp`.  The state is the file written so
far and the vector `inputs`; the first argument bounds the depth of the recursion and
the number of iterations of each loop. -/
def variable_loop (input_count : ℕ) (min max step : ℚ) (indices : List ℤ) :
    ℕ → ℕ → List (List ℚ) × List ℚ → Outcome (List (List ℚ) × List ℚ)
  | 0, _, _ => .outOfFuel
  | fuel + 1, index, st =>
      if index = input_count then
        (Outcome.ofOption (output st.1 indices st.2)).bind fun file => .done (file, st.2)
      else
        (Outcome.ofOption (vecSet st.2 index min)).bind fun inputs =>
          forWhile (coordinateInRange index max)
            (fun s => variable_loop input_count min max step indices fuel (index + 1) s)
            (coordinateAdvance index step) fuel (st.1, inputs)

/-- The call of `variable_loop` in `main` of `learngen.cpp` (lines 78-84): an empty
file, `inputs` of `input_count` zeros, `index = 0`. -/
def generate (input_count : ℕ) (min max step : ℚ) (indices : List ℤ) (fuel : ℕ) :
    Outcome (List (List ℚ) × List ℚ) :=
  variable_loop input_count min max step indices fuel 0 ([], List.replicate input_count 0)

/-! ## Specification vocabulary -/

/-- The matrix `m` is rectangular with `r` rows and `c` columns. -/
def HasShape (r c : ℕ) (m : Matrix) : Prop :=
  m.data.length = r ∧ ∀ row ∈ m.data, row.length = c

instance HasShape.decidable (r c : ℕ) (m : Matrix) : Decidable (HasShape r c m) :=
  inferInstanceAs (Decidable (m.data.length = r ∧ ∀ row ∈ m.data, row.length = c))

/-- The entry `(i, j)` of `m`, and `0` outside the matrix. -/
def entry (m : Matrix) (i j : ℕ) : ℚ := (m.get i j).getD 0

/-- The sum `Σ_{k < c} a[i][k] * b[k][j]` that `multiply` accumulates. -/
def dot (a b : Matrix) (c i j : ℕ) : ℚ :=
  ∑ k in Finset.range c, entry a i k * entry b k j

/-- The `r × c` Mathlib matrix with the entries of `m`. -/
def toQ (r c : ℕ) (m : Matrix) : QMat r c := fun i j => entry m i j

/-- Working pair of `invert` on `M`: `clone` and `inverse` are square of size `n` and
`inverse * M = clone`. -/
def Linked (n : ℕ) (M cl iv : Matrix) : Prop :=
  HasShape n n cl ∧ HasShape n n iv ∧ toQ n n iv * toQ n n M = toQ n n cl

/-- Invariant of the forward elimination of a non-singular matrix before column `k`:
the row pointer equals `k`, the pair is linked, the working copy is non-singular and
its columns before `k` vanish below the diagonal. -/
def FwdInv (n : ℕ) (M : Matrix) (k : ℕ) (st : ℕ × Matrix × Matrix) : Prop :=
  st.1 = k ∧ Linked n M st.2.1 st.2.2 ∧ (toQ n n st.2.1).det ≠ 0 ∧
    ∀ i j, j < k → j < i → i < n → entry st.2.1 i j = 0

/-- Invariant of the backward pass for row `i` when the columns `c .. n - 1` have been
visited: the pair is linked, the rows after `i` are rows of the identity, the rows up
to `i` vanish left of the diagonal and have a non-zero diagonal entry, and row `i`
vanishes in the visited columns. -/
def RowInv (n : ℕ) (M : Matrix) (i c : ℕ) (st : Matrix × Matrix) : Prop :=
  Linked n M st.1 st.2 ∧
    (∀ a b, i < a → a < n → b < n → entry st.1 a b = if a = b then 1 else 0) ∧
    (∀ a b, a ≤ i → b < a → entry st.1 a b = 0) ∧
    (∀ a, a ≤ i → entry st.1 a a ≠ 0) ∧
    ∀ b, c ≤ b → b < n → entry st.1 i b = 0

/-- Invariant of the backward pass when the rows `i .. n - 1` have been processed: the
pair is linked, the processed rows are rows of the identity, the other rows vanish left
of the diagonal and have a non-zero diagonal entry. -/
def BwdInv (n : ℕ) (M : Matrix) (i : ℕ) (st : Matrix × Matrix) : Prop :=
  Linked n M st.1 st.2 ∧
    (∀ a b, i ≤ a → a < n → b < n → entry st.1 a b = if a = b then 1 else 0) ∧
    (∀ a b, a < i → b < a → entry st.1 a b = 0) ∧
    ∀ a, a < i → entry st.1 a a ≠ 0

/-- The `n × n` identity matrix as a value of the class. -/
def identity (n : ℕ) : Matrix :=
  ⟨(List.range n).map fun i => (List.range n).map fun j => if i = j then 1 else 0⟩

/-- The square matrix `m` of size `n` is non-singular: its determinant is not zero. -/
def Nonsingular (n : ℕ) (m : Matrix) : Prop := (toQ n n m).det ≠ 0

/-- The squared residual error `Σ_{i < n} Σ_{j < q} (p[i][j] - y[i][j])²` of the
prediction `p` against the targets `y`. -/
def sqError (n q : ℕ) (p y : Matrix) : ℚ :=
  ∑ i in Finset.range n, ∑ j in Finset.range q, (entry p i j - entry y i j) ^ 2

/-- Invariant of the forward elimination of an arbitrary square matrix before column
`k`: the row pointer is at most `k`, the pair is linked, and in every column before `k`
the working copy vanishes from the row pointer on and below the diagonal. -/
def EchelonInv (n : ℕ) (M : Matrix) (k : ℕ) (st : ℕ × Matrix × Matrix) : Prop :=
  st.1 ≤ k ∧ Linked n M st.2.1 st.2.2 ∧
    ∀ i j, j < k → i < n → (st.1 ≤ i ∨ j < i) → entry st.2.1 i j = 0

/-- The first `iters` iterations of the forward-elimination loop of `invert`
(`forwardLoop` is the case `iters = n`). -/
def forwardIters (n iters : ℕ) (clone inverse : Matrix) : Option (ℕ × Matrix × Matrix) :=
  forRange iters (0, clone, inverse) fun k st =>
    if st.1 < n then Matrix.forwardStep n k st else some st

/-- The number of inputs that the function with the given index reads. -/
def arity (index : ℤ) : ℕ :=
  match index with
  | 0 => 1
  | 1 => 1
  | 2 => 1
  | 3 => 1
  | 4 => 2
  | 5 => 2
  | 6 => 3
  | 7 => 5
  | _ => 0

/-- The number of points `min + i * step` with `i ≥ 0` that are at most `max`, for a
positive step. -/
def axisCount (min max step : ℚ) : ℕ :=
  if min ≤ max then ⌊(max - min) / step⌋₊ + 1 else 0

/-- The points `min, min + step, min + 2 * step, ...` that are at most `max`, in
increasing order, for a positive step. -/
def axisValues (min max step : ℚ) : List ℚ :=
  (List.range (axisCount min max step)).map fun i : ℕ => min + (i : ℚ) * step

/-- The vectors of the `d`-fold Cartesian power of the list `axis`, in lexicographic
order, coordinate `0` varying slowest. -/
def grid (axis : List ℚ) : ℕ → List (List ℚ)
  | 0 => [[]]
  | d + 1 => axis.flatMap fun x => (grid axis d).map fun w => x :: w

/-- The line of the file for the vector `v`: its coordinates followed by the value of
each requested function. -/
def rowOf (indices : List ℤ) (v : List ℚ) : List ℚ :=
  v ++ indices.map fun index => (function index v).getD 0

/-- What the proofs show of a run `o` of the generator on vectors of length `d`: either
it leaves defined behaviour, which needs `ok` (every requested function finds its
inputs) to fail, or it returns with the coordinates before `index` equal to `p`, and with
the file `expected` when `ok` holds. -/
def RunsTo (d index : ℕ) (ok : Prop) (p : List ℚ) (expected : List (List ℚ))
    (o : Outcome (List (List ℚ) × List ℚ)) : Prop :=
  (o = .undefinedBehaviour ∧ ¬ ok) ∨
    ∃ file inputs, o = .done (file, inputs) ∧ inputs.length = d ∧
      inputs.take index = p ∧ (ok → file = expected)

/-! ## The arithmetic of the entries

The definitions above compute with exact rationals.  The class is embedded a second
time below with the arithmetic of the entries as a parameter, so that statements hold
for every arithmetic, that of C++ `double` included, and `double` itself is modelled as
IEEE 754 binary64 with rounding to nearest, ties to even: an operation returns the
`double` nearest to the exact result, an infinity on overflow, and NaN where IEEE 754
says so (`∞ - ∞`, `0 * ∞`, `0 / 0`, `∞ / ∞`, any operand NaN). -/

/-- The operations on entries that `learn.cpp` uses: the constants `0` and `1`, the four
operations, `std::abs`, the comparison `<` and the conversion to `bool` in `if (x)`. -/
structure Arith (D : Type) where
  zero : D
  one : D
  add : D → D → D
  sub : D → D → D
  mul : D → D → D
  div : D → D → D
  abs : D → D
  lt : D → D → Bool
  truthy : D → Bool

/-- Exact arithmetic on the rationals. -/
def exactArith : Arith ℚ where
  zero := 0
  one := 1
  add := fun a b => a + b
  sub := fun a b => a - b
  mul := fun a b => a * b
  div := fun a b => a / b
  abs := fun a => |a|
  lt := fun a b => decide (a < b)
  truthy := fun a => decide (a ≠ 0)

/-- The values of a `double`: the finite numbers (`num 0` is the zero `+0`), the zero
`-0`, the two infinities, and NaN.  Every `double` is one of these values; a rational
that is not representable in binary64 arises from no operation below, all of which round
their result. -/
inductive Dbl where
  | num (q : ℚ)
  | negZero
  | inf (neg : Bool)
  | nan
deriving DecidableEq, Repr

/-- The power `2 ^ e` for an integer exponent. -/
def pow2 (e : ℤ) : ℚ :=
  if 0 ≤ e then ((2 ^ e.toNat : ℕ) : ℚ) else 1 / ((2 ^ (-e).toNat : ℕ) : ℚ)

/-- The number of halvings that bring `n` below `2`, at most `fuel` of them. -/
def halvings : ℕ → ℕ → ℕ
  | 0, _ => 0
  | fuel + 1, n => if 2 ≤ n then halvings fuel (n / 2) + 1 else 0

/-- The integer `⌊log₂ n⌋` for a natural number `n > 0`. -/
def natLog2 (n : ℕ) : ℕ := halvings n n

/-- The integer `⌊log₂ q⌋` for a rational `q > 0`. -/
def floorLog2 (q : ℚ) : ℤ :=
  let e0 : ℤ := (natLog2 q.num.natAbs : ℤ) - (natLog2 q.den : ℤ)
  if pow2 e0 ≤ q then e0 else e0 - 1

/-- Rounding of a rational `x ≥ 0` to the nearest natural number, ties to even. -/
def roundHalfEven (x : ℚ) : ℕ :=
  let f : ℕ := (x.num / x.den).toNat
  let r : ℚ := x - f
  if r < 1 / 2 then f else if 1 / 2 < r then f + 1 else if f % 2 = 0 then f else f + 1

/-- Rounding of a magnitude `q ≥ 0` to binary64: 53 significant bits, least exponent
`-1074` (subnormal numbers), to nearest with ties to even; `none` is overflow. -/
def roundMag (q : ℚ) : Option ℚ :=
  if q = 0 then some 0
  else
    let e : ℤ := max (floorLog2 q - 52) (-1074)
    let r : ℚ := (roundHalfEven (q / pow2 e) : ℚ) * pow2 e
    if pow2 1024 ≤ r then none else some r

namespace Dbl

/-- The sign bit. -/
def sign : Dbl → Bool
  | num q => decide (q < 0)
  | negZero => true
  | inf s => s
  | nan => false

/-- The rational value of a finite `double` (both zeros have the value `0`). -/
def val : Dbl → ℚ
  | num q => q
  | _ => 0

/-- The finite `double` with sign bit `neg` and magnitude `m ≥ 0`. -/
def finite (neg : Bool) (m : ℚ) : Dbl :=
  if m = 0 then (if neg then negZero else num 0) else num (if neg then -m else m)

/-- The `double` nearest to `(-1)^neg * q` for `q ≥ 0`; overflow gives an infinity. -/
def round (neg : Bool) (q : ℚ) : Dbl :=
  match roundMag q with
  | some r => finite neg r
  | none => inf neg

/-- The `double` written as the decimal literal `q`. -/
def ofRat (q : ℚ) : Dbl := round (decide (q < 0)) |q|

/-- Unary minus. -/
def neg : Dbl → Dbl
  | num q => if q = 0 then negZero else num (-q)
  | negZero => num 0
  | inf s => inf (!s)
  | nan => nan

/-- The function `std::abs`. -/
def abs : Dbl → Dbl
  | num q => num |q|
  | negZero => num 0
  | inf _ => inf false
  | nan => nan

/-- Addition: the exact sum, rounded; `∞ + (-∞)` is NaN; an exact zero sum is `+0`
unless both operands are negative. -/
def add : Dbl → Dbl → Dbl
  | nan, _ => nan
  | _, nan => nan
  | inf s, inf t => if s = t then inf s else nan
  | inf s, _ => inf s
  | _, inf t => inf t
  | a, b =>
      let q := a.val + b.val
      if q = 0 then (if a.sign && b.sign then negZero else num 0)
      else round (decide (q < 0)) |q|

/-- Subtraction `a - b = a + (-b)`. -/
def sub (a b : Dbl) : Dbl := add a (neg b)

/-- Multiplication: the exact product, rounded; `∞ * 0` is NaN. -/
def mul : Dbl → Dbl → Dbl
  | nan, _ => nan
  | _, nan => nan
  | inf s, inf t => inf (xor s t)
  | inf s, b => if b.val = 0 then nan else inf (xor s b.sign)
  | a, inf t => if a.val = 0 then nan else inf (xor a.sign t)
  | a, b => round (xor a.sign b.sign) (|a.val| * |b.val|)

/-- Division: the exact quotient, rounded; `0 / 0` and `∞ / ∞` are NaN, `x / 0` is an
infinity for `x ≠ 0`, `x / ∞` is a zero for finite `x`. -/
def div : Dbl → Dbl → Dbl
  | nan, _ => nan
  | _, nan => nan
  | inf _, inf _ => nan
  | inf s, b => inf (xor s b.sign)
  | a, inf t => finite (xor a.sign t) 0
  | a, b =>
      if b.val = 0 then (if a.val = 0 then nan else inf (xor a.sign b.sign))
      else round (xor a.sign b.sign) (|a.val| / |b.val|)

/-- The comparison `a < b`, false when an operand is NaN. -/
def lt : Dbl → Dbl → Bool
  | nan, _ => false
  | _, nan => false
  | inf s, inf t => s && !t
  | inf s, _ => s
  | _, inf t => !t
  | a, b => decide (a.val < b.val)

/-- The comparison `a <= b`, false when an operand is NaN. -/
def le : Dbl → Dbl → Bool
  | nan, _ => false
  | _, nan => false
  | inf s, inf t => s || !t
  | inf s, _ => s
  | _, inf t => !t
  | a, b => decide (a.val ≤ b.val)

/-- The comparison `x == 0`: true of the two zeros only. -/
def isZero : Dbl → Bool
  | num q => decide (q = 0)
  | negZero => true
  | _ => false

/-- The test `std::isnan`. -/
def isNaN : Dbl → Bool
  | nan => true
  | _ => false

/-- The conversion to `bool` in `if (x)`, which is `x != 0`: false of the two zeros
only, so true of NaN and of the infinities. -/
def truthy (x : Dbl) : Bool := !x.isZero

/-- The absolute value of a `double` other than NaN as an extended rational. -/
def mag : Dbl → WithTop ℚ
  | num q => ((|q| : ℚ) : WithTop ℚ)
  | negZero => ((0 : ℚ) : WithTop ℚ)
  | _ => ⊤

end Dbl

/-- The arithmetic of C++ `double`. -/
def doubleArith : Arith Dbl where
  zero := Dbl.num 0
  one := Dbl.num 1
  add := Dbl.add
  sub := Dbl.sub
  mul := Dbl.mul
  div := Dbl.div
  abs := Dbl.abs
  lt := Dbl.lt
  truthy := Dbl.truthy

/-! ## The `Matrix` class over an arbitrary arithmetic -/

/-- The class `Matrix` with entries of type `D`. -/
structure MatrixOver (D : Type) where
  data : List (List D)
deriving DecidableEq, Repr

namespace MatrixOver

variable {D : Type}

/-- Read of the row `data[i]` (`none` outside the vector). -/
def row (m : MatrixOver D) (i : ℕ) : Option (List D) := m.data[i]?

/-- Read of the entry `data[i][j]` (`none` outside either vector). -/
def get (m : MatrixOver D) (i j : ℕ) : Option D := (m.row i).bind fun r => r[j]?

/-- Assignment `data[i] = r` of a whole row (`none` outside the vector). -/
def setRow (m : MatrixOver D) (i : ℕ) (r : List D) : Option (MatrixOver D) :=
  if i < m.data.length then some ⟨m.data.set i r⟩ else none

/-- Assignment `data[i][j] = v` (`none` outside either vector). -/
def set (m : MatrixOver D) (i j : ℕ) (v : D) : Option (MatrixOver D) :=
  (m.row i).bind fun r => if j < r.length then m.setRow i (r.set j v) else none

/-- Constructor `Matrix(int rows, int columns)`: zero entries. -/
def sized (ar : Arith D) (rows columns : ℕ) : MatrixOver D :=
  ⟨List.replicate rows (List.replicate columns ar.zero)⟩

/-- Method `Matrix::multiply` (lines 62-77). -/
def multiply (ar : Arith D) (self matrix : MatrixOver D) : Option (MatrixOver D) :=
  (matrix.row 0).bind fun row0 =>
    forRange self.data.length (sized ar self.data.length row0.length) fun i p =>
      forRange row0.length p fun j p =>
        (self.row i).bind fun ri =>
          forRange ri.length p fun k p =>
            (p.get i j).bind fun acc =>
              (self.get i k).bind fun a =>
                (matrix.get k j).bind fun b =>
                  p.set i j (ar.add acc (ar.mul a b))

/-- The pivot search of `invert` (lines 96-103). -/
def findPivot (ar : Arith D) (n h k : ℕ) (clone : MatrixOver D) : Option ℕ :=
  forFrom (h + 1) n h fun i i_max =>
    (clone.get i_max k).bind fun a =>
      (clone.get i k).bind fun b =>
        some (if ar.lt (ar.abs a) (ar.abs b) = true then i else i_max)

/-- Exchange of the rows `h` and `i_max` (lines 108-110 and 112-114). -/
def swapRows (m : MatrixOver D) (h i_max : ℕ) : Option (MatrixOver D) :=
  (m.row h).bind fun temp =>
    (m.row i_max).bind fun r =>
      (m.setRow h r).bind fun m1 => m1.setRow i_max temp

/-- Reduction of row `i` by the pivot row `h` (lines 118-123). -/
def reduceRow (ar : Arith D) (n h k i : ℕ) (st : MatrixOver D × MatrixOver D) :
    Option (MatrixOver D × MatrixOver D) :=
  (st.1.get i k).bind fun a =>
    (st.1.get h k).bind fun b =>
      let f := ar.div a b
      forRange n st fun j st =>
        (st.1.get i j).bind fun c =>
          (st.1.get h j).bind fun ch =>
            (st.1.set i j (ar.sub c (ar.mul ch f))).bind fun clone =>
              (st.2.get i j).bind fun v =>
                (st.2.get h j).bind fun vh =>
                  (st.2.set i j (ar.sub v (ar.mul vh f))).bind fun inverse =>
                    some (clone, inverse)

/-- One iteration of the forward-elimination loop (lines 95-128) for column `k`. -/
def forwardStep (ar : Arith D) (n k : ℕ) (st : ℕ × MatrixOver D × MatrixOver D) :
    Option (ℕ × MatrixOver D × MatrixOver D) :=
  let h := st.1
  let clone := st.2.1
  let inverse := st.2.2
  (findPivot ar n h k clone).bind fun i_max =>
    (clone.get i_max k).bind fun p =>
      if ar.truthy p = true then
        (swapRows clone h i_max).bind fun clone =>
          (swapRows inverse h i_max).bind fun inverse =>
            (forFrom (h + 1) n (clone, inverse) fun i st => reduceRow ar n h k i st).bind
              fun st => some (h + 1, st.1, st.2)
      else some (h, clone, inverse)

/-- The first `iters` iterations of the forward-elimination loop
`for (int h = 0, k = 0; h < n && k < n; ++k)`. -/
def forwardIters (ar : Arith D) (n iters : ℕ) (clone inverse : MatrixOver D) :
    Option (ℕ × MatrixOver D × MatrixOver D) :=
  forRange iters (0, clone, inverse) fun k st =>
    if st.1 < n then forwardStep ar n k st else some st

/-- The diagonal branch of the backward pass (lines 133-139). -/
def diagStep (ar : Arith D) (n i j : ℕ) (st : MatrixOver D × MatrixOver D) :
    Option (MatrixOver D × MatrixOver D) :=
  (forRange n st.2 fun k inverse =>
      (st.1.get i j).bind fun d =>
        (inverse.get i k).bind fun v => inverse.set i k (ar.div v d)).bind fun inverse =>
    (forRange n st.1 fun k clone =>
        (clone.get i j).bind fun d =>
          (clone.get i k).bind fun v => clone.set i k (ar.div v d)).bind fun clone =>
      some (clone, inverse)

/-- The off-diagonal branch of the backward pass (lines 145-151). -/
def elimStep (ar : Arith D) (n i j : ℕ) (st : MatrixOver D × MatrixOver D) :
    Option (MatrixOver D × MatrixOver D) :=
  (forRange n st.2 fun k inverse =>
      (st.1.get i j).bind fun c =>
        (inverse.get j k).bind fun w =>
          (inverse.get i k).bind fun v =>
            inverse.set i k (ar.sub v (ar.mul c w))).bind fun inverse =>
    (forRange n st.1 fun k clone =>
        (clone.get i j).bind fun c =>
          (clone.get j k).bind fun w =>
            (clone.get i k).bind fun v =>
              clone.set i k (ar.sub v (ar.mul c w))).bind fun clone =>
      some (clone, inverse)

/-- The iterations of the inner loop of the backward pass for row `i` that come before
the diagonal branch: the columns `count - 1, ..., i + 1`. -/
def elimColumns (ar : Arith D) (n i : ℕ) :
    ℕ → MatrixOver D × MatrixOver D → Option (MatrixOver D × MatrixOver D)
  | 0, st => some st
  | j + 1, st =>
      if j ≤ i then some st
      else (elimStep ar n i j st).bind fun st' => elimColumns ar n i j st'

/-- The inner loop `for (int j = n - 1; j >= 0; --j)` of the backward pass for row `i`;
the diagonal branch ends it (`break`). -/
def backRow (ar : Arith D) (n i : ℕ) :
    ℕ → MatrixOver D × MatrixOver D → Option (MatrixOver D × MatrixOver D)
  | 0, st => some st
  | j + 1, st =>
      if j = i then diagStep ar n i j st
      else (elimStep ar n i j st).bind fun st' => backRow ar n i j st'

/-- The rows `count - 1, ..., lo` of the backward pass (lines 130-154); the whole pass
is the case `count = n`, `lo = 0`. -/
def backwardRows (ar : Arith D) (n lo : ℕ) :
    ℕ → MatrixOver D × MatrixOver D → Option (MatrixOver D × MatrixOver D)
  | 0, st => some st
  | i + 1, st =>
      if i < lo then some st
      else (backRow ar n i n st).bind fun st' => backwardRows ar n lo i st'

/-- The identity initialisation of `inverse` (lines 87-92). -/
def identityInit (ar : Arith D) (n : ℕ) : Option (MatrixOver D) :=
  forRange n (sized ar n n) fun i inverse => inverse.set i i ar.one

/-- The state `(h, clone, inverse)` of `invert` after the identity initialisation and
the first `iters` iterations of the forward-elimination loop. -/
def forwardState (ar : Arith D) (self : MatrixOver D) (iters : ℕ) :
    Option (ℕ × MatrixOver D × MatrixOver D) :=
  (identityInit ar self.data.length).bind fun inverse =>
    forwardIters ar self.data.length iters self inverse

/-- Method `Matrix::invert` (lines 82-158). -/
def invert (ar : Arith D) (self : MatrixOver D) : Option (MatrixOver D) :=
  let n := self.data.length
  (forwardState ar self n).bind fun st =>
    (backwardRows ar n 0 n (st.2.1, st.2.2)).bind fun st' => some st'.2

/-- The working pair `(clone, inverse)` with which `invert` enters the diagonal branch
for row `i`: after the forward elimination, the rows `n - 1, ..., i + 1` of the backward
pass and the columns `n - 1, ..., i + 1` of row `i`. -/
def diagEntry (ar : Arith D) (self : MatrixOver D) (i : ℕ) :
    Option (MatrixOver D × MatrixOver D) :=
  let n := self.data.length
  (forwardState ar self n).bind fun st =>
    (backwardRows ar n (i + 1) n (st.2.1, st.2.2)).bind fun st' => elimColumns ar n i n st'

/-- The matrix of `double` entries written with the decimal literals of `rows`. -/
def ofRats (rows : List (List ℚ)) : MatrixOver Dbl :=
  ⟨rows.map fun r => r.map Dbl.ofRat⟩

/-! ### Specification vocabulary -/

/-- The matrix is rectangular with `r` rows and `c` columns. -/
def HasShape (r c : ℕ) (m : MatrixOver D) : Prop :=
  m.data.length = r ∧ ∀ row ∈ m.data, row.length = c

instance HasShape.decidable (r c : ℕ) (m : MatrixOver D) : Decidable (HasShape r c m) :=
  inferInstanceAs (Decidable (_ ∧ _))

/-- The entry `data[i][j]`, the zero of the arithmetic outside the matrix. -/
def entry (ar : Arith D) (m : MatrixOver D) (i j : ℕ) : D := (m.get i j).getD ar.zero

/-- The value that the statement `acc += a[i][k] * b[k][j]`, run for `k = 0, ..., c - 1`
in this order, accumulates from zero. -/
def accumulate (ar : Arith D) (a b : MatrixOver D) (c i j : ℕ) : D :=
  (List.range c).foldl (fun acc k => ar.add acc (ar.mul (entry ar a i k) (entry ar b k j)))
    ar.zero

end MatrixOver

/-- A matrix of rationals as a matrix over the exact arithmetic. -/
def Matrix.over (m : Matrix) : MatrixOver ℚ := ⟨m.data⟩

/-- A working pair of `invert` over the exact arithmetic. -/
def Matrix.overPair (st : Matrix × Matrix) : MatrixOver ℚ × MatrixOver ℚ :=
  (st.1.over, st.2.over)

/-- A state of the forward elimination over the exact arithmetic. -/
def Matrix.overState (st : ℕ × Matrix × Matrix) : ℕ × MatrixOver ℚ × MatrixOver ℚ :=
  (st.1, st.2.1.over, st.2.2.over)

/-! ## Loop rules -/

theorem forFrom_step {σ : Type} (len lo : ℕ) (init : σ) (body : ℕ → σ → Option σ) :
    forFrom lo (lo + (len + 1)) init body
      = (body lo init).bind fun s => forFrom (lo + 1) (lo + 1 + len) s body := by
  unfold forFrom
  have h1 : lo + (len + 1) - lo = len + 1 := by omega
  have h2 : lo + 1 + len - (lo + 1) = len := by omega
  rw [h1, h2, List.range'_succ]
  simp [List.foldlM_cons]

theorem forFrom_inv_aux {σ : Type} (Inv : ℕ → σ → Prop) (body : ℕ → σ → Option σ) (hi : ℕ) :
    ∀ (len lo : ℕ) (init : σ), lo + len = hi → Inv lo init →
      (∀ i s, lo ≤ i → i < hi → Inv i s → ∃ s', body i s = some s' ∧ Inv (i + 1) s') →
      ∃ s, forFrom lo hi init body = some s ∧ Inv hi s := by
  intro len
  induction len with
  | zero =>
    intro lo init hlen h0 _
    have : hi = lo := by omega
    subst this
    exact ⟨init, by simp [forFrom], h0⟩
  | succ len ih =>
    intro lo init hlen h0 hstep
    obtain ⟨s1, hs1, hinv1⟩ := hstep lo init (le_refl _) (by omega) h0
    obtain ⟨s, hs, hinv⟩ := ih (lo + 1) s1 (by omega) hinv1
      (fun i s hle hlt hi => hstep i s (by omega) hlt hi)
    refine ⟨s, ?_, hinv⟩
    have : hi = lo + (len + 1) := by omega
    subst this
    rw [forFrom_step, hs1]
    have h2 : lo + 1 + len = lo + (len + 1) := by omega
    simpa [h2] using hs

/-- Invariant rule for an upward loop from `lo` to `hi`. -/
theorem forFrom_inv {σ : Type} (Inv : ℕ → σ → Prop) (body : ℕ → σ → Option σ)
    (lo hi : ℕ) (init : σ) (hle : lo ≤ hi) (h0 : Inv lo init)
    (hstep : ∀ i s, lo ≤ i → i < hi → Inv i s → ∃ s', body i s = some s' ∧ Inv (i + 1) s') :
    ∃ s, forFrom lo hi init body = some s ∧ Inv hi s :=
  forFrom_inv_aux Inv body hi (hi - lo) lo init (by omega) h0 hstep

/-- Invariant rule for an upward loop from `0` to `n`. -/
theorem forRange_inv {σ : Type} (Inv : ℕ → σ → Prop) (body : ℕ → σ → Option σ)
    (n : ℕ) (init : σ) (h0 : Inv 0 init)
    (hstep : ∀ i s, i < n → Inv i s → ∃ s', body i s = some s' ∧ Inv (i + 1) s') :
    ∃ s, forRange n init body = some s ∧ Inv n s :=
  forFrom_inv Inv body 0 n init (Nat.zero_le _) h0 (fun i s _ hlt hi => hstep i s hlt hi)

/-- Invariant rule for a downward loop from `n - 1` to `0`; the invariant is indexed by
the number of indices still to visit. -/
theorem forDown_inv {σ : Type} (Inv : ℕ → σ → Prop) (body : ℕ → σ → Option σ) :
    ∀ (n : ℕ) (init : σ), Inv n init →
      (∀ i s, i < n → Inv (i + 1) s → ∃ s', body i s = some s' ∧ Inv i s') →
      ∃ s, forDown n init body = some s ∧ Inv 0 s := by
  intro n
  induction n with
  | zero => intro init h0 _; exact ⟨init, rfl, h0⟩
  | succ n ih =>
    intro init h0 hstep
    obtain ⟨s1, hs1, hinv1⟩ := hstep n init (by omega) h0
    obtain ⟨s, hs, hinv⟩ := ih s1 hinv1 (fun i s hlt hi => hstep i s (by omega) hi)
    exact ⟨s, by simp [forDown, hs1, hs], hinv⟩

/-! ## Shapes and entries -/

theorem HasShape.row_eq {r c : ℕ} {m : Matrix} (hm : HasShape r c m) {i : ℕ} (hi : i < r) :
    ∃ ri, m.row i = some ri ∧ ri.length = c := by
  obtain ⟨h1, h2⟩ := hm
  have hlt : i < m.data.length := by omega
  refine ⟨m.data[i], ?_, h2 _ (List.getElem_mem _)⟩
  simp [Matrix.row, List.getElem?_eq_getElem hlt]

theorem HasShape.get_eq {r c : ℕ} {m : Matrix} (hm : HasShape r c m) {i j : ℕ}
    (hi : i < r) (hj : j < c) : m.get i j = some (entry m i j) := by
  obtain ⟨ri, hri, hlen⟩ := hm.row_eq hi
  have hlt : j < ri.length := by omega
  simp [entry, Matrix.get, hri, List.getElem?_eq_getElem hlt]

theorem entry_of_row {m : Matrix} {i : ℕ} {ri : List ℚ} (h : m.row i = some ri) (j : ℕ) :
    entry m i j = ri.getD j 0 := by
  simp [entry, Matrix.get, h, List.getD_eq_getElem?_getD]

theorem HasShape.setRow_eq {r c : ℕ} {m : Matrix} (hm : HasShape r c m) {i : ℕ} (hi : i < r)
    (row : List ℚ) (hrow : row.length = c) :
    ∃ m', m.setRow i row = some m' ∧ HasShape r c m' ∧ m'.row i = some row ∧
      ∀ a, a ≠ i → m'.row a = m.row a := by
  obtain ⟨h1, h2⟩ := hm
  have hlt : i < m.data.length := by omega
  refine ⟨⟨m.data.set i row⟩, by simp [Matrix.setRow, hlt], ⟨by simp [h1], ?_⟩, ?_, ?_⟩
  · intro x hx
    rcases List.mem_or_eq_of_mem_set hx with h | h
    · exact h2 x h
    · rw [h]; exact hrow
  · simp [Matrix.row, hlt]
  · intro a ha
    simp [Matrix.row, List.getElem?_set_ne (Ne.symm ha)]

theorem HasShape.set_eq {r c : ℕ} {m : Matrix} (hm : HasShape r c m) {i j : ℕ}
    (hi : i < r) (hj : j < c) (v : ℚ) :
    ∃ m', m.set i j v = some m' ∧ HasShape r c m' ∧
      ∀ a b, entry m' a b = if a = i ∧ b = j then v else entry m a b := by
  obtain ⟨ri, hri, hlen⟩ := hm.row_eq hi
  have hlt : j < ri.length := by omega
  obtain ⟨m', hm', hs, hrow, hoth⟩ := hm.setRow_eq hi (ri.set j v) (by simp [hlen])
  refine ⟨m', by simp [Matrix.set, hri, hlt, hm'], hs, ?_⟩
  intro a b
  by_cases ha : a = i
  · subst ha
    rw [entry_of_row hrow, entry_of_row hri]
    by_cases hb : b = j
    · subst hb; simp [List.getD_eq_getElem?_getD, hlt]
    · simp [List.getD_eq_getElem?_getD, hb, List.getElem?_set_ne (Ne.symm hb)]
  · simp only [ha, false_and, if_false]
    simp [entry, Matrix.get, hoth a ha]

theorem hasShape_sized (r c : ℕ) : HasShape r c (Matrix.sized r c) := by
  refine ⟨by simp [Matrix.sized], ?_⟩
  intro x hx
  simp [Matrix.sized] at hx
  rw [hx.2]; simp

theorem entry_sized (r c i j : ℕ) : entry (Matrix.sized r c) i j = 0 := by
  simp only [entry, Matrix.get, Matrix.row, Matrix.sized]
  by_cases hi : i < r
  · by_cases hj : j < c
    · simp [List.getElem?_replicate, hi, hj]
    · simp [List.getElem?_replicate, hi, hj]
  · simp [List.getElem?_replicate, hi]

/-- Two matrices of one shape with the same entries are equal. -/
theorem HasShape.ext {r c : ℕ} {a b : Matrix} (ha : HasShape r c a) (hb : HasShape r c b)
    (h : ∀ i j, i < r → j < c → entry a i j = entry b i j) : a = b := by
  obtain ⟨a⟩ := a
  obtain ⟨b⟩ := b
  congr 1
  apply List.ext_getElem
  · rw [ha.1, hb.1]
  · intro i h1 h2
    have hi : i < r := by rw [← ha.1]; exact h1
    apply List.ext_getElem
    · rw [ha.2 _ (List.getElem_mem _), hb.2 _ (List.getElem_mem _)]
    · intro j h3 h4
      have hj : j < c := by rw [← ha.2 _ (List.getElem_mem h1)]; exact h3
      have := h i j hi hj
      simpa [entry, Matrix.get, Matrix.row, List.getElem?_eq_getElem h1,
        List.getElem?_eq_getElem h2, List.getElem?_eq_getElem h3,
        List.getElem?_eq_getElem h4] using this

/-! ## Transposition and multiplication -/

theorem transpose_spec {r c : ℕ} {m : Matrix} (hm : HasShape r c m) (hr : 0 < r) :
    ∃ t, m.transpose = some t ∧ HasShape c r t ∧
      ∀ i j, i < r → j < c → entry t j i = entry m i j := by
  obtain ⟨row0, hrow0, hlen0⟩ := hm.row_eq hr
  have hlen : m.data.length = r := hm.1
  obtain ⟨t, ht, hsh, hent⟩ := forRange_inv
    (fun i t => HasShape c r t ∧ ∀ a b, a < i → b < c → entry t b a = entry m a b)
    (fun i t => (m.row i).bind fun ri => forRange ri.length t fun j t =>
      (m.get i j).bind fun v => t.set j i v)
    r (Matrix.sized c r) ⟨hasShape_sized c r, fun a b ha _ => absurd ha (Nat.not_lt_zero _)⟩
    (by
      intro i t hi ⟨hsh, hent⟩
      obtain ⟨ri, hri, hleni⟩ := hm.row_eq hi
      obtain ⟨t', ht', hsh', hent'⟩ := forRange_inv
        (fun j t => HasShape c r t ∧ (∀ a b, a < i → b < c → entry t b a = entry m a b) ∧
          ∀ b, b < j → entry t b i = entry m i b)
        (fun j t => (m.get i j).bind fun v => t.set j i v)
        c t ⟨hsh, hent, fun b hb => absurd hb (Nat.not_lt_zero _)⟩
        (by
          intro j t1 hj ⟨hsh1, hent1, hrow1⟩
          obtain ⟨t2, ht2, hsh2, hent2⟩ := hsh1.set_eq hj hi (entry m i j)
          refine ⟨t2, by simp [hm.get_eq hi hj, ht2], hsh2, ?_, ?_⟩
          · intro a b ha hb
            have hne : a ≠ i := by omega
            rw [hent2]; simp [hne, hent1 a b ha hb]
          · intro b hb
            rw [hent2]
            by_cases hbj : b = j
            · simp [hbj]
            · simp [hbj]; exact hrow1 b (by omega))
      refine ⟨t', by simp [hri, hleni, ht'], hsh', ?_⟩
      intro a b ha hb
      by_cases hai : a = i
      · subst hai; exact hent'.2 b hb
      · exact hent'.1 a b (by omega) hb)
  exact ⟨t, by simp [Matrix.transpose, hrow0, hlen0, hlen, ht], hsh, hent⟩

theorem multiply_spec {r c c' p : ℕ} {a b : Matrix} (ha : HasShape r c a)
    (hb : HasShape c' p b) (hcc : c ≤ c') (hc : 0 < c') :
    ∃ m, a.multiply b = some m ∧ HasShape r p m ∧
      ∀ i j, i < r → j < p → entry m i j = dot a b c i j := by
  obtain ⟨row0, hrow0, hlen0⟩ := hb.row_eq hc
  have hlen : a.data.length = r := ha.1
  obtain ⟨m, hm, hsh, hent⟩ := forRange_inv
    (fun i m => HasShape r p m ∧ (∀ x y, x < i → y < p → entry m x y = dot a b c x y) ∧
      ∀ x y, i ≤ x → entry m x y = 0)
    (fun i m => forRange p m fun j m => (a.row i).bind fun ri =>
      forRange ri.length m fun k m => (m.get i j).bind fun acc =>
        (a.get i k).bind fun u => (b.get k j).bind fun v => m.set i j (acc + u * v))
    r (Matrix.sized r p)
    ⟨hasShape_sized r p, fun x y hx _ => absurd hx (Nat.not_lt_zero _),
      fun x y _ => entry_sized r p x y⟩
    (by
      intro i m hi ⟨hsh, hdone, hzero⟩
      obtain ⟨ri, hri, hleni⟩ := ha.row_eq hi
      obtain ⟨m', hm', hsh', hdone', hrow', hzero'⟩ := forRange_inv
        (fun j m => HasShape r p m ∧ (∀ x y, x < i → y < p → entry m x y = dot a b c x y) ∧
          (∀ y, y < j → entry m i y = dot a b c i y) ∧
          ∀ x y, (i < x ∨ (x = i ∧ j ≤ y)) → entry m x y = 0)
        (fun j m => (a.row i).bind fun ri =>
          forRange ri.length m fun k m => (m.get i j).bind fun acc =>
            (a.get i k).bind fun u => (b.get k j).bind fun v => m.set i j (acc + u * v))
        p m ⟨hsh, hdone, fun y hy => absurd hy (Nat.not_lt_zero _),
          fun x y hxy => hzero x y (by omega)⟩
        (by
          intro j m1 hj ⟨hsh1, hdone1, hrow1, hzero1⟩
          obtain ⟨m2, hm2, hsh2, hacc2, hoth2⟩ := forRange_inv
            (fun k m => HasShape r p m ∧
              entry m i j = (∑ t in Finset.range k, entry a i t * entry b t j) ∧
              ∀ x y, ¬ (x = i ∧ y = j) → entry m x y = entry m1 x y)
            (fun k m => (m.get i j).bind fun acc =>
              (a.get i k).bind fun u => (b.get k j).bind fun v => m.set i j (acc + u * v))
            c m1 ⟨hsh1, by simpa using hzero1 i j (Or.inr ⟨rfl, le_refl _⟩), fun _ _ _ => rfl⟩
            (by
              intro k m3 hk ⟨hsh3, hacc3, hoth3⟩
              obtain ⟨m4, hm4, hsh4, hent4⟩ := hsh3.set_eq hi hj
                (entry m3 i j + entry a i k * entry b k j)
              refine ⟨m4, by simp [hsh3.get_eq hi hj, ha.get_eq hi hk,
                hb.get_eq (lt_of_lt_of_le hk hcc) hj, hm4],
                hsh4, ?_, ?_⟩
              · rw [hent4, Finset.sum_range_succ, hacc3]; simp
              · intro x y hxy
                rw [hent4, if_neg hxy]; exact hoth3 x y hxy)
          refine ⟨m2, by simp [hri, hleni, hm2], hsh2, ?_, ?_, ?_⟩
          · intro x y hx hy
            rw [hoth2 x y (by omega)]; exact hdone1 x y hx hy
          · intro y hy
            by_cases hyj : y = j
            · subst hyj; exact hacc2
            · rw [hoth2 i y (by simp [hyj])]; exact hrow1 y (by omega)
          · intro x y hxy
            rw [hoth2 x y (by omega)]; exact hzero1 x y (by omega))
      refine ⟨m', hm', hsh', ?_, ?_⟩
      · intro x y hx hy
        by_cases hxi : x = i
        · subst hxi; exact hrow' y hy
        · exact hdone' x y (by omega) hy
      · intro x y hx
        exact hzero' x y (by omega))
  exact ⟨m, by simp [Matrix.multiply, hrow0, hlen0, hlen, hm], hsh, hent.1⟩

/-! ## The pieces of `invert` -/

theorem identityInit_spec (n : ℕ) :
    ∃ m, Matrix.identityInit n = some m ∧ HasShape n n m ∧
      ∀ a b, a < n → entry m a b = if a = b then 1 else 0 := by
  obtain ⟨m, hm, hsh, hent⟩ := forRange_inv
    (fun i m => HasShape n n m ∧ ∀ a b, entry m a b = if a = b ∧ a < i then 1 else 0)
    (fun i m => m.set i i 1) n (Matrix.sized n n)
    ⟨hasShape_sized n n, fun a b => by simp [entry_sized]⟩
    (by
      intro i m hi ⟨hsh, hent⟩
      obtain ⟨m', hm', hsh', hent'⟩ := hsh.set_eq hi hi 1
      refine ⟨m', hm', hsh', ?_⟩
      intro a b
      rw [hent', hent]
      split_ifs <;> first | rfl | (exfalso; omega))
  refine ⟨m, hm, hsh, ?_⟩
  intro a b ha
  rw [hent]; simp [ha]

theorem findPivot_spec {r c : ℕ} {m : Matrix} (hm : HasShape r c m) {h k : ℕ}
    (hh : h < r) (hk : k < c) :
    ∃ i_max, Matrix.findPivot r h k m = some i_max ∧ h ≤ i_max ∧ i_max < r ∧
      (∀ t, h ≤ t → t < r → |entry m t k| ≤ |entry m i_max k|) ∧
      (∀ t, h ≤ t → t < i_max → |entry m t k| < |entry m i_max k|) := by
  obtain ⟨x, hx, h1, h2, h3, h4⟩ := forFrom_inv
    (fun i x => h ≤ x ∧ x < i ∧ (∀ t, h ≤ t → t < i → |entry m t k| ≤ |entry m x k|) ∧
      (∀ t, h ≤ t → t < x → |entry m t k| < |entry m x k|))
    (fun i i_max => (m.get i_max k).bind fun a => (m.get i k).bind fun b =>
      some (if |a| < |b| then i else i_max))
    (h + 1) r h (by omega)
    ⟨le_refl _, by omega, fun t h1 h2 => by
      have : t = h := by omega
      rw [this], fun t h1 h2 => by omega⟩
    (by
      intro i x hlo hhi ⟨h1, h2, h3, h4⟩
      have hxr : x < r := by omega
      refine ⟨if |entry m x k| < |entry m i k| then i else x,
        by simp [hm.get_eq hxr hk, hm.get_eq hhi hk], ?_⟩
      by_cases hlt : |entry m x k| < |entry m i k|
      · simp only [hlt, if_true]
        refine ⟨by omega, by omega, ?_, ?_⟩
        · intro t ht1 ht2
          by_cases hti : t = i
          · rw [hti]
          · exact le_trans (h3 t ht1 (by omega)) (le_of_lt hlt)
        · intro t ht1 ht2
          exact lt_of_le_of_lt (h3 t ht1 ht2) hlt
      · simp only [hlt, if_false]
        refine ⟨h1, by omega, ?_, h4⟩
        intro t ht1 ht2
        by_cases hti : t = i
        · rw [hti]; exact not_lt.mp hlt
        · exact h3 t ht1 (by omega))
  exact ⟨x, hx, h1, h2, h3, h4⟩

theorem swapRows_spec {r c : ℕ} {m : Matrix} (hm : HasShape r c m) {h i : ℕ}
    (hh : h < r) (hi : i < r) :
    ∃ m', Matrix.swapRows m h i = some m' ∧ HasShape r c m' ∧
      ∀ a b, entry m' a b = entry m (if a = h then i else if a = i then h else a) b := by
  obtain ⟨temp, htemp, hlt⟩ := hm.row_eq hh
  obtain ⟨ri, hri, hli⟩ := hm.row_eq hi
  obtain ⟨m1, hm1, hsh1, hrow1, hoth1⟩ := hm.setRow_eq hh ri hli
  obtain ⟨m2, hm2, hsh2, hrow2, hoth2⟩ := hsh1.setRow_eq hi temp hlt
  refine ⟨m2, by simp [Matrix.swapRows, htemp, hri, hm1, hm2], hsh2, ?_⟩
  intro a b
  by_cases hai : a = i
  · subst hai
    rw [entry_of_row hrow2]
    by_cases hah : a = h
    · subst hah; simp [entry_of_row htemp]
    · simp [hah, entry_of_row htemp]
  · by_cases hah : a = h
    · subst hah
      have : m2.row a = some ri := by rw [hoth2 a hai, hrow1]
      simp [entry_of_row this, entry_of_row hri]
    · have : m2.row a = m.row a := by rw [hoth2 a hai, hoth1 a hah]
      simp [hai, hah, entry, Matrix.get, this]

theorem reduceRow_spec {n : ℕ} {cl iv : Matrix} (hcl : HasShape n n cl) (hiv : HasShape n n iv)
    {h k i : ℕ} (hh : h < n) (hk : k < n) (hi : i < n) (hne : i ≠ h) :
    ∃ cl' iv', Matrix.reduceRow n h k i (cl, iv) = some (cl', iv') ∧
      HasShape n n cl' ∧ HasShape n n iv' ∧
      (∀ a b, b < n → entry cl' a b =
        if a = i then entry cl i b - entry cl h b * (entry cl i k / entry cl h k)
        else entry cl a b) ∧
      (∀ a b, b < n → entry iv' a b =
        if a = i then entry iv i b - entry iv h b * (entry cl i k / entry cl h k)
        else entry iv a b) := by
  obtain ⟨st, hst, hs1, hs2, he1, he2⟩ := forRange_inv
    (fun j (st : Matrix × Matrix) => HasShape n n st.1 ∧ HasShape n n st.2 ∧
      (∀ a b, entry st.1 a b =
        if a = i ∧ b < j then entry cl i b - entry cl h b * (entry cl i k / entry cl h k)
        else entry cl a b) ∧
      (∀ a b, entry st.2 a b =
        if a = i ∧ b < j then entry iv i b - entry iv h b * (entry cl i k / entry cl h k)
        else entry iv a b))
    (fun j (st : Matrix × Matrix) =>
      (st.1.get i j).bind fun c => (st.1.get h j).bind fun ch =>
        (st.1.set i j (c - ch * (entry cl i k / entry cl h k))).bind fun clone =>
          (st.2.get i j).bind fun v => (st.2.get h j).bind fun vh =>
            (st.2.set i j (v - vh * (entry cl i k / entry cl h k))).bind fun inverse =>
              some (clone, inverse))
    n (cl, iv) ⟨hcl, hiv, fun a b => by simp, fun a b => by simp⟩
    (by
      intro j st hj ⟨hs1, hs2, he1, he2⟩
      have e1 : entry st.1 i j = entry cl i j := by rw [he1]; simp
      have e2 : entry st.1 h j = entry cl h j := by rw [he1]; simp [Ne.symm hne]
      have e3 : entry st.2 i j = entry iv i j := by rw [he2]; simp
      have e4 : entry st.2 h j = entry iv h j := by rw [he2]; simp [Ne.symm hne]
      obtain ⟨c1, hc1, hsc1, hec1⟩ := hs1.set_eq hi hj
        (entry cl i j - entry cl h j * (entry cl i k / entry cl h k))
      obtain ⟨v1, hv1, hsv1, hev1⟩ := hs2.set_eq hi hj
        (entry iv i j - entry iv h j * (entry cl i k / entry cl h k))
      refine ⟨(c1, v1), ?_, hsc1, hsv1, ?_, ?_⟩
      · simp [hs1.get_eq hi hj, hs1.get_eq hh hj, hs2.get_eq hi hj, hs2.get_eq hh hj,
          e1, e2, e3, e4, hc1, hv1]
      · intro a b
        rw [hec1, he1]
        by_cases hai : a = i
        · by_cases hbj : b = j
          · subst hai; subst hbj; simp
          · have : b < j + 1 ↔ b < j := by omega
            simp [hai, hbj, this]
        · simp [hai]
      · intro a b
        rw [hev1, he2]
        by_cases hai : a = i
        · by_cases hbj : b = j
          · subst hai; subst hbj; simp
          · have : b < j + 1 ↔ b < j := by omega
            simp [hai, hbj, this]
        · simp [hai])
  refine ⟨st.1, st.2, ?_, hs1, hs2, ?_, ?_⟩
  · simp [Matrix.reduceRow, hcl.get_eq hi hk, hcl.get_eq hh hk, hst]
  · intro a b hb; rw [he1]; simp [hb]
  · intro a b hb; rw [he2]; simp [hb]

/-! ## Comparison with the matrices of Mathlib -/

theorem toQ_apply (r c : ℕ) (m : Matrix) (i : Fin r) (j : Fin c) :
    toQ r c m i j = entry m i j := rfl

theorem toQ_injective {r c : ℕ} {a b : Matrix} (ha : HasShape r c a) (hb : HasShape r c b)
    (h : toQ r c a = toQ r c b) : a = b :=
  ha.ext hb fun i j hi hj => by
    have := congrFun (congrFun h ⟨i, hi⟩) ⟨j, hj⟩
    simpa [toQ_apply] using this

theorem dot_eq_mul {r c p : ℕ} (a b : Matrix) (i : Fin r) (j : Fin p) :
    dot a b c i j = (toQ r c a * toQ c p b) i j := by
  rw [Matrix.mul_apply, dot, ← Fin.sum_univ_eq_sum_range (fun k => entry a i k * entry b k j) c]
  rfl

/-- Row operations applied to both factors keep the product relation: if every row of
`I'` and of `C'` is the same combination of two rows of `I` and of `C`. -/
theorem mul_row_combine {n : ℕ} {I C I' C' M : QMat n n} (hinv : I * M = C)
    (hrow : ∀ a, ∃ (x y : ℚ) (s t : Fin n), (∀ b, I' a b = x * I s b + y * I t b) ∧
      (∀ b, C' a b = x * C s b + y * C t b)) : I' * M = C' := by
  ext a b
  obtain ⟨x, y, s, t, hI, hC⟩ := hrow a
  rw [hC, ← hinv, Matrix.mul_apply, Matrix.mul_apply, Matrix.mul_apply]
  simp only [hI, add_mul, Finset.sum_add_distrib, Finset.mul_sum, mul_assoc]

/-- A square matrix whose columns before `k` vanish below the diagonal and whose column
`k` vanishes from the diagonal on is singular. -/
theorem det_eq_zero_of_no_pivot {n : ℕ} (C : QMat n n) (k : Fin n)
    (hlow : ∀ i j : Fin n, j < k → j < i → C i j = 0)
    (hcol : ∀ i : Fin n, k ≤ i → C i k = 0) : C.det = 0 := by
  rw [Matrix.twoBlockTriangular_det C (fun i => i < k)
    (fun i hi j hj => hlow i j hj (lt_of_lt_of_le hj (not_lt.mp hi)))]
  have : (C.toSquareBlockProp fun i => ¬ i < k).det = 0 := by
    apply Matrix.det_eq_zero_of_column_eq_zero ⟨k, lt_irrefl k⟩
    intro i
    exact hcol i.1 (not_lt.mp i.2)
  rw [this, mul_zero]

theorem det_swap_ne_zero {n : ℕ} {C C' : QMat n n} (h i : Fin n) (hdet : C.det ≠ 0)
    (hent : ∀ a b, C' a b = C (if a = h then i else if a = i then h else a) b) :
    C'.det ≠ 0 := by
  have : C' = C.submatrix (Equiv.swap h i) id := by
    ext a b
    rw [hent, Matrix.submatrix_apply, Equiv.swap_apply_def]; rfl
  rw [this, Matrix.det_permute]
  have hs : ((Equiv.Perm.sign (Equiv.swap h i) : ℤˣ) : ℚ) ≠ 0 := by
    rcases Int.units_eq_one_or (Equiv.Perm.sign (Equiv.swap h i)) with h1 | h1 <;> simp [h1]
  exact mul_ne_zero hs hdet

theorem det_axpy_ne_zero {n : ℕ} {C C' : QMat n n} (i h : Fin n) (hne : i ≠ h) (f : ℚ)
    (hdet : C.det ≠ 0)
    (hent : ∀ a b, C' a b = if a = i then C i b - C h b * f else C a b) :
    C'.det ≠ 0 := by
  have : C' = C.updateRow i (C i + (-f) • C h) := by
    ext a b
    rw [hent, Matrix.updateRow_apply]
    split_ifs
    · simp; ring
    · rfl
  rw [this, Matrix.det_updateRow_add_smul_self C hne]
  exact hdet

theorem swap_val {n : ℕ} (a h i : Fin n) :
    ((if a = h then i else if a = i then h else a : Fin n) : ℕ)
      = if (a : ℕ) = h then (i : ℕ) else if (a : ℕ) = i then (h : ℕ) else a := by
  split_ifs with h1 h2 h3 h4 h5 h6 <;> simp_all [Fin.ext_iff]

theorem linked_swap {n : ℕ} {M cl iv cl' iv' : Matrix} (hL : Linked n M cl iv)
    {h i : ℕ} (hh : h < n) (hi : i < n) (hs1 : HasShape n n cl') (hs2 : HasShape n n iv')
    (he1 : ∀ a b, entry cl' a b = entry cl (if a = h then i else if a = i then h else a) b)
    (he2 : ∀ a b, entry iv' a b = entry iv (if a = h then i else if a = i then h else a) b) :
    Linked n M cl' iv' := by
  refine ⟨hs1, hs2, mul_row_combine hL.2.2 ?_⟩
  intro a
  refine ⟨1, 0, if a = ⟨h, hh⟩ then ⟨i, hi⟩ else if a = ⟨i, hi⟩ then ⟨h, hh⟩ else a, a, ?_, ?_⟩
  · intro b
    rw [toQ_apply, toQ_apply, he2, swap_val]; simp
  · intro b
    rw [toQ_apply, toQ_apply, he1, swap_val]; simp

theorem linked_axpy {n : ℕ} {M cl iv cl' iv' : Matrix} (hL : Linked n M cl iv)
    {h i : ℕ} (hh : h < n) (f : ℚ) (hs1 : HasShape n n cl') (hs2 : HasShape n n iv')
    (he1 : ∀ a b, b < n → entry cl' a b =
      if a = i then entry cl i b - entry cl h b * f else entry cl a b)
    (he2 : ∀ a b, b < n → entry iv' a b =
      if a = i then entry iv i b - entry iv h b * f else entry iv a b) :
    Linked n M cl' iv' := by
  refine ⟨hs1, hs2, mul_row_combine hL.2.2 ?_⟩
  intro a
  refine ⟨1, if (a : ℕ) = i then -f else 0, a, ⟨h, hh⟩, ?_, ?_⟩
  · intro b
    simp only [toQ_apply]
    rw [he2 a b b.2]
    split_ifs with h1
    · rw [h1]; ring
    · ring
  · intro b
    simp only [toQ_apply]
    rw [he1 a b b.2]
    split_ifs with h1
    · rw [h1]; ring
    · ring

theorem forwardStep_spec {n k : ℕ} {M : Matrix} {st : ℕ × Matrix × Matrix} (hk : k < n)
    (hinv : FwdInv n M k st) :
    ∃ st', Matrix.forwardStep n k st = some st' ∧ FwdInv n M (k + 1) st' := by
  obtain ⟨h, cl, iv⟩ := st
  obtain ⟨hh, hL, hdet, hlow⟩ := hinv
  simp only at hh hL hdet hlow
  subst hh
  obtain ⟨hcl, hiv, hmul⟩ := hL
  obtain ⟨i_max, hpiv, hle, hlt, hmax, _⟩ := findPivot_spec hcl hk hk
  -- the pivot is not zero, the working copy being non-singular
  have hp : entry cl i_max h ≠ 0 := by
    intro h0
    apply hdet
    apply det_eq_zero_of_no_pivot (toQ n n cl) ⟨h, hk⟩
    · intro i j hj hij
      exact hlow i j hj hij i.2
    · intro i hi
      have := hmax i hi i.2
      rw [h0, abs_zero] at this
      exact abs_eq_zero.mp (le_antisymm this (abs_nonneg _))
  obtain ⟨c1, hc1, hsc1, hec1⟩ := swapRows_spec hcl hk hlt
  obtain ⟨v1, hv1, hsv1, hev1⟩ := swapRows_spec hiv hk hlt
  have hL1 : Linked n M c1 v1 := linked_swap ⟨hcl, hiv, hmul⟩ hk hlt hsc1 hsv1 hec1 hev1
  have hdet1 : (toQ n n c1).det ≠ 0 := by
    apply det_swap_ne_zero (C := toQ n n cl) ⟨h, hk⟩ ⟨i_max, hlt⟩ hdet
    intro a b
    rw [toQ_apply, toQ_apply, hec1, swap_val]
  have hlow1 : ∀ i j, j < h → j < i → i < n → entry c1 i j = 0 := by
    intro i j hj hij hi
    rw [hec1]
    apply hlow _ j hj
    · split_ifs <;> omega
    · split_ifs <;> omega
  have hpiv1 : entry c1 h h ≠ 0 := by rw [hec1]; simpa using hp
  -- the rows below the pivot row are reduced
  obtain ⟨st2, hst2, hL2, hdet2, hlow2, hpiv2, hcol2⟩ := forFrom_inv
    (fun i (s : Matrix × Matrix) => Linked n M s.1 s.2 ∧ (toQ n n s.1).det ≠ 0 ∧
      (∀ a b, b < h → b < a → a < n → entry s.1 a b = 0) ∧ entry s.1 h h ≠ 0 ∧
      ∀ a, h < a → a < i → entry s.1 a h = 0)
    (fun i s => Matrix.reduceRow n h h i s) (h + 1) n (c1, v1) (by omega)
    ⟨hL1, hdet1, hlow1, hpiv1, fun a h1 h2 => by omega⟩
    (by
      intro i s hlo hhi ⟨hLs, hdets, hlows, hpivs, hcols⟩
      obtain ⟨c2, v2⟩ := s
      simp only at hLs hdets hlows hpivs hcols
      have hne : i ≠ h := by omega
      obtain ⟨c3, v3, hred, hsc3, hsv3, hec3, hev3⟩ :=
        reduceRow_spec hLs.1 hLs.2.1 hk hk hhi hne
      refine ⟨(c3, v3), hred, linked_axpy hLs hk _ hsc3 hsv3 hec3 hev3, ?_, ?_, ?_, ?_⟩
      · apply det_axpy_ne_zero (C := toQ n n c2) ⟨i, hhi⟩ ⟨h, hk⟩
          (by simpa [Fin.ext_iff] using hne) (entry c2 i h / entry c2 h h) hdets
        intro a b
        simp only [toQ_apply, Fin.ext_iff]
        exact hec3 a b b.2
      · intro a b hb hba ha
        show entry c3 a b = 0
        rw [hec3 a b (by omega)]
        split_ifs with hai
        · rw [hlows i b hb (by omega) hhi, hlows h b hb hb hk]; ring
        · exact hlows a b hb hba ha
      · show entry c3 h h ≠ 0
        rw [hec3 h h hk, if_neg (Ne.symm hne)]; exact hpivs
      · intro a ha1 ha2
        show entry c3 a h = 0
        rw [hec3 a h hk]
        split_ifs with hai
        · field_simp
        · exact hcols a ha1 (by omega))
  refine ⟨(h + 1, st2.1, st2.2), ?_, rfl, hL2, hdet2, ?_⟩
  · simp [Matrix.forwardStep, hpiv, hcl.get_eq hlt hk, hp, hc1, hv1, hst2]
  · intro i j hj hij hi
    by_cases hjh : j = h
    · subst hjh; exact hcol2 i hij hi
    · exact hlow2 i j (by omega) hij hi

theorem forwardLoop_spec {n : ℕ} {M iv : Matrix} (hM : HasShape n n M)
    (hdet : (toQ n n M).det ≠ 0) (hiv : HasShape n n iv) (hid : toQ n n iv = 1) :
    ∃ st, Matrix.forwardLoop n M iv = some st ∧ FwdInv n M n st := by
  apply forRange_inv (fun k st => FwdInv n M k st)
  · exact ⟨rfl, ⟨hM, hiv, by rw [hid, one_mul]⟩, hdet, fun i j hj => absurd hj (Nat.not_lt_zero _)⟩
  · intro k st hk hinv
    have : st.1 < n := by rw [hinv.1]; exact hk
    simp only [this, if_true]
    exact forwardStep_spec hk hinv

/-! ## The backward pass -/

/-- A loop over the columns `k < n` that stores `g k` in entry `(i, k)`. -/
theorem rowLoop_spec {r c : ℕ} {m : Matrix} (hm : HasShape r c m) {i : ℕ} (hi : i < r)
    {n : ℕ} (hn : n ≤ c) (g : ℕ → ℚ) (body : ℕ → Matrix → Option Matrix)
    (hbody : ∀ k m', k < n → HasShape r c m' →
      (∀ a b, entry m' a b = if a = i ∧ b < k then g b else entry m a b) →
      body k m' = m'.set i k (g k)) :
    ∃ m', forRange n m body = some m' ∧ HasShape r c m' ∧
      ∀ a b, entry m' a b = if a = i ∧ b < n then g b else entry m a b := by
  apply forRange_inv
    (fun k m' => HasShape r c m' ∧
      ∀ a b, entry m' a b = if a = i ∧ b < k then g b else entry m a b)
  · exact ⟨hm, fun a b => by simp⟩
  · intro k m1 hk ⟨hs1, he1⟩
    obtain ⟨m2, hm2, hs2, he2⟩ := hs1.set_eq hi (show k < c by omega) (g k)
    refine ⟨m2, by rw [hbody k m1 hk hs1 he1, hm2], hs2, ?_⟩
    intro a b
    rw [he2, he1]
    by_cases hai : a = i
    · by_cases hbk : b = k
      · subst hai; subst hbk; simp
      · have : b < k + 1 ↔ b < k := by omega
        simp [hai, hbk, this]
    · simp [hai]

theorem elimStep_spec {n i j : ℕ} {M : Matrix} {st : Matrix × Matrix} (hij : i < j)
    (hj : j < n) (hinv : RowInv n M i (j + 1) st) :
    ∃ st', Matrix.elimStep n i j st = some st' ∧ RowInv n M i j st' := by
  obtain ⟨cl, iv⟩ := st
  obtain ⟨⟨hcl, hiv, hmul⟩, hdone, hlow, hdiag, hzero⟩ := hinv
  simp only at hcl hiv hmul hdone hlow hdiag hzero
  have hi : i < n := by omega
  have hne : j ≠ i := by omega
  obtain ⟨iv', hiv', hsiv', heiv'⟩ := rowLoop_spec hiv hi (le_refl n)
    (fun b => entry iv i b - entry cl i j * entry iv j b)
    (fun k inverse => (cl.get i j).bind fun c => (inverse.get j k).bind fun w =>
      (inverse.get i k).bind fun v => inverse.set i k (v - c * w))
    (by
      intro k m' hk hs he
      have e1 : entry m' j k = entry iv j k := by rw [he]; simp [hne]
      have e2 : entry m' i k = entry iv i k := by rw [he]; simp
      simp [hcl.get_eq hi hj, hs.get_eq hj hk, hs.get_eq hi hk, e1, e2])
  obtain ⟨cl', hcl', hscl', hecl'⟩ := rowLoop_spec hcl hi (le_refl n)
    (fun b => if b = j then 0 else entry cl i b)
    (fun k clone => (clone.get i j).bind fun c => (clone.get j k).bind fun w =>
      (clone.get i k).bind fun v => clone.set i k (v - c * w))
    (by
      intro k m' hk hs he
      have e1 : entry m' j k = if j = k then 1 else 0 := by
        rw [he]; simp only [hne, false_and, if_false]
        exact hdone j k hij hj hk
      have e2 : entry m' i k = entry cl i k := by rw [he]; simp
      have e3 : k ≤ j → entry m' i j = entry cl i j := by
        intro hkj; rw [he]; simp; intro h; omega
      simp only [hs.get_eq hi hj, hs.get_eq hj hk, hs.get_eq hi hk, e1, e2, Option.some_bind]
      congr 1
      by_cases hkj : k = j
      · subst hkj; simp [e3 (le_refl _)]
      · have : ¬ j = k := fun h => hkj h.symm
        simp [hkj, this])
  refine ⟨(cl', iv'), by simp [Matrix.elimStep, hiv', hcl'], ⟨hscl', hsiv', ?_⟩, ?_, ?_, ?_, ?_⟩
  · apply mul_row_combine hmul
    intro a
    refine ⟨1, if (a : ℕ) = i then -entry cl i j else 0, a, ⟨j, hj⟩, ?_, ?_⟩
    · intro b
      simp only [toQ_apply]
      rw [heiv']
      by_cases hai : (a : ℕ) = i
      · simp [hai, b.2]; ring
      · simp [hai]
    · intro b
      simp only [toQ_apply]
      rw [hecl', hdone j b hij hj b.2]
      by_cases hai : (a : ℕ) = i
      · by_cases hbj : (b : ℕ) = j
        · simp [hai, hbj, hj]
        · have : ¬ j = (b : ℕ) := fun h => hbj h.symm
          simp [hai, hbj, this, b.2]
      · simp [hai]
  · intro a b ha han hb
    show entry cl' a b = _
    rw [hecl', if_neg (by omega)]
    exact hdone a b ha han hb
  · intro a b ha hb
    show entry cl' a b = 0
    rw [hecl']
    split_ifs with h1 h2
    · rfl
    · exact hlow i b (le_refl _) (by omega)
    · exact hlow a b ha hb
  · intro a ha
    show entry cl' a a ≠ 0
    rw [hecl']
    split_ifs with h1 h2
    · omega
    · obtain ⟨h3, _⟩ := h1
      subst h3; exact hdiag _ (le_refl _)
    · exact hdiag a ha
  · intro b hb hbn
    show entry cl' i b = 0
    rw [hecl']
    simp only [hbn, and_self, if_true]
    split_ifs with h2
    · rfl
    · exact hzero b (by omega) hbn

theorem diagStep_spec {n i : ℕ} {M : Matrix} {st : Matrix × Matrix} (hi : i < n)
    (hinv : RowInv n M i (i + 1) st) :
    ∃ st', Matrix.diagStep n i i st = some st' ∧ BwdInv n M i st' := by
  obtain ⟨cl, iv⟩ := st
  obtain ⟨⟨hcl, hiv, hmul⟩, hdone, hlow, hdiag, hzero⟩ := hinv
  simp only at hcl hiv hmul hdone hlow hdiag hzero
  have hd : entry cl i i ≠ 0 := hdiag i (le_refl _)
  have hrow : ∀ b, b < n → b ≠ i → entry cl i b = 0 := by
    intro b hb hbi
    rcases Nat.lt_or_gt_of_ne hbi with h | h
    · exact hlow i b (le_refl _) h
    · exact hzero b (by omega) hb
  obtain ⟨iv', hiv', hsiv', heiv'⟩ := rowLoop_spec hiv hi (le_refl n)
    (fun b => entry iv i b / entry cl i i)
    (fun k inverse => (cl.get i i).bind fun d =>
      (inverse.get i k).bind fun v => inverse.set i k (v / d))
    (by
      intro k m' hk hs he
      have e2 : entry m' i k = entry iv i k := by rw [he]; simp
      simp [hcl.get_eq hi hi, hs.get_eq hi hk, e2])
  obtain ⟨cl', hcl', hscl', hecl'⟩ := rowLoop_spec hcl hi (le_refl n)
    (fun b => if b = i then 1 else 0)
    (fun k clone => (clone.get i i).bind fun d =>
      (clone.get i k).bind fun v => clone.set i k (v / d))
    (by
      intro k m' hk hs he
      have e1 : entry m' i i = if i < k then 1 else entry cl i i := by
        rw [he]; simp
      have e2 : entry m' i k = entry cl i k := by rw [he]; simp
      simp only [hs.get_eq hi hi, hs.get_eq hi hk, e1, e2, Option.some_bind]
      congr 1
      by_cases hki : k = i
      · subst hki; simp [hd]
      · rw [hrow k hk hki]; simp [hki])
  refine ⟨(cl', iv'), by simp [Matrix.diagStep, hiv', hcl'], ⟨hscl', hsiv', ?_⟩, ?_, ?_, ?_⟩
  · apply mul_row_combine hmul
    intro a
    refine ⟨if (a : ℕ) = i then 1 / entry cl i i else 1, 0, a, a, ?_, ?_⟩
    · intro b
      simp only [toQ_apply]
      rw [heiv']
      by_cases hai : (a : ℕ) = i
      · simp [hai, b.2]; ring
      · simp [hai]
    · intro b
      simp only [toQ_apply]
      rw [hecl']
      by_cases hai : (a : ℕ) = i
      · by_cases hbi : (b : ℕ) = i
        · simp [hai, hbi, hi, hd]
        · simp [hai, hbi, b.2, hrow b b.2 hbi]
      · simp [hai]
  · intro a b ha han hb
    show entry cl' a b = _
    rw [hecl']
    by_cases hai : a = i
    · subst hai
      by_cases hba : b = a
      · subst hba; simp [hb]
      · have : ¬ a = b := fun h => hba h.symm
        simp [hb, hba, this]
    · simp only [hai, false_and, if_false]
      exact hdone a b (by omega) han hb
  · intro a b ha hb
    show entry cl' a b = 0
    rw [hecl', if_neg (by omega)]
    exact hlow a b (by omega) hb
  · intro a ha
    show entry cl' a a ≠ 0
    rw [hecl', if_neg (by omega)]
    exact hdiag a (by omega)

theorem backRow_spec {n i : ℕ} {M : Matrix} (hi : i < n) :
    ∀ (c : ℕ) (st : Matrix × Matrix), i < c → c ≤ n → RowInv n M i c st →
      ∃ st', Matrix.backRow n i c st = some st' ∧ BwdInv n M i st' := by
  intro c
  induction c with
  | zero => intro st h; omega
  | succ j ih =>
    intro st hij hjn hinv
    by_cases hji : j = i
    · subst hji
      simpa [Matrix.backRow] using diagStep_spec hi hinv
    · obtain ⟨st1, hst1, hinv1⟩ := elimStep_spec (show i < j by omega) (show j < n by omega) hinv
      obtain ⟨st2, hst2, hinv2⟩ := ih st1 (by omega) (by omega) hinv1
      exact ⟨st2, by simp [Matrix.backRow, hji, hst1, hst2], hinv2⟩

theorem backwardLoop_spec {n : ℕ} {M : Matrix} (st : Matrix × Matrix)
    (hinv : BwdInv n M n st) :
    ∃ st', Matrix.backwardLoop n st = some st' ∧ BwdInv n M 0 st' := by
  apply forDown_inv (fun i st => BwdInv n M i st) _ n st hinv
  intro i s hi hs
  apply backRow_spec hi n s hi (le_refl n)
  obtain ⟨hL, hdone, hlow, hdiag⟩ := hs
  exact ⟨hL, fun a b ha => hdone a b (by omega), fun a b ha hb => hlow a b (by omega) hb,
    fun a ha => hdiag a (by omega), fun b h1 h2 => by omega⟩

/-! ## Correctness of `invert` on non-singular matrices -/

theorem hasShape_identity (n : ℕ) : HasShape n n (identity n) := by
  refine ⟨by simp [identity], ?_⟩
  intro x hx
  simp only [identity, List.mem_map] at hx
  obtain ⟨i, _, rfl⟩ := hx
  simp

theorem entry_identity {n i j : ℕ} (hi : i < n) (hj : j < n) :
    entry (identity n) i j = if i = j then 1 else 0 := by
  simp [entry, Matrix.get, Matrix.row, identity, hi, hj]

theorem toQ_identity (n : ℕ) : toQ n n (identity n) = 1 := by
  ext i j
  rw [toQ_apply, entry_identity i.2 j.2, Matrix.one_apply]; simp only [Fin.ext_iff]

theorem diag_ne_zero_of_det {n : ℕ} (C : QMat n n)
    (hlow : ∀ i j : Fin n, j < i → C i j = 0) (hdet : C.det ≠ 0) (i : Fin n) : C i i ≠ 0 := by
  have htri : C.BlockTriangular id := fun i j hij => hlow i j hij
  rw [Matrix.det_of_upperTriangular htri] at hdet
  exact (Finset.prod_ne_zero_iff.mp hdet) i (Finset.mem_univ i)

/-- On a non-singular square matrix `invert` returns a left inverse. -/
theorem invert_spec {n : ℕ} {M : Matrix} (hM : HasShape n n M) (hdet : Nonsingular n M) :
    ∃ iv, M.invert = some iv ∧ HasShape n n iv ∧ toQ n n iv * toQ n n M = 1 := by
  obtain ⟨i0, hi0, hsi0, hei0⟩ := identityInit_spec n
  have hid : toQ n n i0 = 1 := by
    ext a b
    rw [toQ_apply, hei0 a b a.2, Matrix.one_apply]; simp only [Fin.ext_iff]
  obtain ⟨st, hst, _, hL, hdetc, hlow⟩ := forwardLoop_spec hM hdet hsi0 hid
  have hdiag : ∀ a, a < n → entry st.2.1 a a ≠ 0 := fun a ha =>
    diag_ne_zero_of_det (toQ n n st.2.1) (fun i j hij => hlow i j j.2 hij i.2) hdetc ⟨a, ha⟩
  obtain ⟨st', hst', hL', hdone, _, _⟩ := backwardLoop_spec (M := M) (st.2.1, st.2.2)
    ⟨hL, fun a b h1 h2 => by omega, fun a b ha hb => hlow a b (by omega) hb ha, hdiag⟩
  refine ⟨st'.2, ?_, hL'.2.1, ?_⟩
  · simp [Matrix.invert, hM.1, hi0, hst, hst']
  · rw [hL'.2.2]
    ext a b
    rw [toQ_apply, hdone a b (Nat.zero_le _) a.2 b.2, Matrix.one_apply]; simp only [Fin.ext_iff]

/-! ## Loops that leave defined behaviour -/

theorem forFrom_split {σ : Type} (lo t hi : ℕ) (h1 : lo ≤ t) (h2 : t ≤ hi) (init : σ)
    (body : ℕ → σ → Option σ) :
    forFrom lo hi init body = (forFrom lo t init body).bind fun s => forFrom t hi s body := by
  unfold forFrom
  have e : hi - lo = (hi - t) + (t - lo) := by omega
  have e2 : lo + (t - lo) = t := by omega
  rw [e, ← List.range'_append_1, List.foldlM_append, e2]
  rfl

/-- A loop whose body fails at index `t`, reached with the invariant, fails. -/
theorem forFrom_fail {σ : Type} (Inv : ℕ → σ → Prop) (body : ℕ → σ → Option σ)
    (lo hi t : ℕ) (init : σ) (h1 : lo ≤ t) (h2 : t < hi) (h0 : Inv lo init)
    (hstep : ∀ i s, lo ≤ i → i < t → Inv i s → ∃ s', body i s = some s' ∧ Inv (i + 1) s')
    (hfail : ∀ s, Inv t s → body t s = none) :
    forFrom lo hi init body = none := by
  obtain ⟨s, hs, hinv⟩ := forFrom_inv Inv body lo t init h1 h0 hstep
  rw [forFrom_split lo t hi h1 (le_of_lt h2), hs]
  obtain ⟨len, rfl⟩ : ∃ len, hi = t + (len + 1) := ⟨hi - t - 1, by omega⟩
  simp only [Option.some_bind]
  rw [forFrom_step, hfail s hinv]
  rfl

/-- With more columns on the left than rows on the right, `multiply` reads outside the
right operand. -/
theorem multiply_out_of_bounds {r c c' p : ℕ} {a b : Matrix} (ha : HasShape r c a)
    (hb : HasShape c' p b) (hcc : c' < c) (hr : 0 < r) (hp : 0 < p) :
    a.multiply b = none := by
  rcases Nat.eq_zero_or_pos c' with h0 | hc'
  · have hlen : b.data.length = 0 := by rw [hb.1, h0]
    have : b.data = [] := List.length_eq_zero.mp hlen
    simp [Matrix.multiply, Matrix.row, this]
  obtain ⟨row0, hrow0, hlen0⟩ := hb.row_eq hc'
  obtain ⟨r0, hr0, hlenr0⟩ := ha.row_eq hr
  have hnone : b.get c' 0 = none := by
    have : b.data[c']? = none := List.getElem?_eq_none (by rw [hb.1])
    simp [Matrix.get, Matrix.row, this]
  have hk : ∀ s, HasShape r p s →
      (forRange c s fun k m => (m.get 0 0).bind fun acc =>
        (a.get 0 k).bind fun u => (b.get k 0).bind fun v => m.set 0 0 (acc + u * v)) = none := by
    intro s hs
    apply forFrom_fail (fun _ m => HasShape r p m) _ 0 c c' s (Nat.zero_le _) hcc hs
    · intro k m _ hk hm
      obtain ⟨m', hm', hs', _⟩ := hm.set_eq hr hp (entry m 0 0 + entry a 0 k * entry b k 0)
      exact ⟨m', by simp [hm.get_eq hr hp, ha.get_eq hr (show k < c by omega),
        hb.get_eq hk hp, hm'], hs'⟩
    · intro m hm
      simp [hm.get_eq hr hp, ha.get_eq hr hcc, hnone]
  have hj : ∀ s, HasShape r p s →
      (forRange p s fun j m => (a.row 0).bind fun ri =>
        forRange ri.length m fun k m => (m.get 0 j).bind fun acc =>
          (a.get 0 k).bind fun u => (b.get k j).bind fun v => m.set 0 j (acc + u * v)) = none := by
    intro s hs
    apply forFrom_fail (fun _ m => HasShape r p m) _ 0 p 0 s (le_refl _) hp hs
    · intro k m _ hk; omega
    · intro m hm
      simp only [hr0, Option.some_bind, hlenr0]
      exact hk m hm
  have hi : (forRange r (Matrix.sized r p) fun i m => forRange p m fun j m =>
      (a.row i).bind fun ri => forRange ri.length m fun k m => (m.get i j).bind fun acc =>
        (a.get i k).bind fun u => (b.get k j).bind fun v => m.set i j (acc + u * v)) = none := by
    apply forFrom_fail (fun _ m => HasShape r p m) _ 0 r 0 _ (le_refl _) hr (hasShape_sized r p)
    · intro k m _ hk; omega
    · intro m hm
      exact hj m hm
  simp [Matrix.multiply, hrow0, hlen0, ha.1, hi]

/-! ## `invert` on arbitrary square matrices -/

theorem forwardStep_echelon {n k : ℕ} {M : Matrix} {st : ℕ × Matrix × Matrix} (hk : k < n)
    (hinv : EchelonInv n M k st) :
    ∃ st', Matrix.forwardStep n k st = some st' ∧ EchelonInv n M (k + 1) st' := by
  obtain ⟨h, cl, iv⟩ := st
  obtain ⟨hhk, hL, hlow⟩ := hinv
  simp only at hhk hL hlow
  have hh : h < n := by omega
  obtain ⟨hcl, hiv, hmul⟩ := hL
  obtain ⟨i_max, hpiv, hle, hlt, hmax, _⟩ := findPivot_spec hcl hh hk
  by_cases hp : entry cl i_max k = 0
  · -- no pivot in this column: the state is kept
    refine ⟨(h, cl, iv), ?_, by simp only; omega, ⟨hcl, hiv, hmul⟩, ?_⟩
    · simp [Matrix.forwardStep, hpiv, hcl.get_eq hlt hk, hp]
    · intro i j hj hi hor
      by_cases hjk : j = k
      · subst hjk
        have hhi : h ≤ i := by omega
        have := hmax i hhi hi
        rw [hp, abs_zero] at this
        exact abs_eq_zero.mp (le_antisymm this (abs_nonneg _))
      · exact hlow i j (by omega) hi hor
  obtain ⟨c1, hc1, hsc1, hec1⟩ := swapRows_spec hcl hh hlt
  obtain ⟨v1, hv1, hsv1, hev1⟩ := swapRows_spec hiv hh hlt
  have hL1 : Linked n M c1 v1 := linked_swap ⟨hcl, hiv, hmul⟩ hh hlt hsc1 hsv1 hec1 hev1
  have hlow1 : ∀ i j, j < k → i < n → (h ≤ i ∨ j < i) → entry c1 i j = 0 := by
    intro i j hj hi hor
    rw [hec1]
    split_ifs with h1 h2
    · exact hlow i_max j hj hlt (Or.inl hle)
    · exact hlow h j hj hh (Or.inl (le_refl _))
    · exact hlow i j hj hi hor
  have hpiv1 : entry c1 h k ≠ 0 := by rw [hec1]; simpa using hp
  obtain ⟨st2, hst2, hL2, hlow2, hpiv2, hcol2⟩ := forFrom_inv
    (fun i (s : Matrix × Matrix) => Linked n M s.1 s.2 ∧
      (∀ a b, b < k → a < n → (h ≤ a ∨ b < a) → entry s.1 a b = 0) ∧ entry s.1 h k ≠ 0 ∧
      ∀ a, h < a → a < i → entry s.1 a k = 0)
    (fun i s => Matrix.reduceRow n h k i s) (h + 1) n (c1, v1) (by omega)
    ⟨hL1, hlow1, hpiv1, fun a h1 h2 => by omega⟩
    (by
      intro i s hlo hhi ⟨hLs, hlows, hpivs, hcols⟩
      obtain ⟨c2, v2⟩ := s
      simp only at hLs hlows hpivs hcols
      have hne : i ≠ h := by omega
      obtain ⟨c3, v3, hred, hsc3, hsv3, hec3, hev3⟩ :=
        reduceRow_spec hLs.1 hLs.2.1 hh hk hhi hne
      refine ⟨(c3, v3), hred, linked_axpy hLs hh _ hsc3 hsv3 hec3 hev3, ?_, ?_, ?_⟩
      · intro a b hb ha hor
        show entry c3 a b = 0
        rw [hec3 a b (by omega)]
        split_ifs with hai
        · rw [hlows i b hb hhi (Or.inl (by omega)), hlows h b hb hh (Or.inl (le_refl _))]
          ring
        · exact hlows a b hb ha hor
      · show entry c3 h k ≠ 0
        rw [hec3 h k hk, if_neg (Ne.symm hne)]; exact hpivs
      · intro a ha1 ha2
        show entry c3 a k = 0
        rw [hec3 a k hk]
        split_ifs with hai
        · field_simp
        · exact hcols a ha1 (by omega))
  refine ⟨(h + 1, st2.1, st2.2), ?_, by simp only; omega, hL2, ?_⟩
  · simp [Matrix.forwardStep, hpiv, hcl.get_eq hlt hk, hp, hc1, hv1, hst2]
  · intro i j hj hi hor
    by_cases hjk : j = k
    · subst hjk
      exact hcol2 i (by simp only at hor; omega) hi
    · exact hlow2 i j (by omega) hi (by simp only at hor; omega)

theorem forwardIters_echelon {n : ℕ} {M iv : Matrix} (hM : HasShape n n M)
    (hiv : HasShape n n iv) (hid : toQ n n iv = 1) (k : ℕ) (hk : k ≤ n) :
    ∃ st, forwardIters n k M iv = some st ∧ EchelonInv n M k st := by
  apply forRange_inv (fun k st => EchelonInv n M k st)
  · exact ⟨le_refl _, ⟨hM, hiv, by rw [hid, one_mul]⟩, fun i j hj => absurd hj (Nat.not_lt_zero _)⟩
  · intro i st hi hinv
    have : st.1 < n := lt_of_le_of_lt hinv.1 (by omega)
    simp only [this, if_true]
    exact forwardStep_echelon (by omega) hinv

theorem forwardLoop_eq_iters (n : ℕ) (clone inverse : Matrix) :
    Matrix.forwardLoop n clone inverse = forwardIters n n clone inverse := rfl

/-- A loop over the columns `k < n` that stores some value in entry `(i, k)` keeps the
shape. -/
theorem rowLoop_shape {r c : ℕ} {m : Matrix} (hm : HasShape r c m) {i : ℕ} (hi : i < r)
    {n : ℕ} (hn : n ≤ c) (body : ℕ → Matrix → Option Matrix)
    (hbody : ∀ k m', k < n → HasShape r c m' → ∃ v, body k m' = m'.set i k v) :
    ∃ m', forRange n m body = some m' ∧ HasShape r c m' := by
  apply forRange_inv (fun _ m' => HasShape r c m')
  · exact hm
  · intro k m1 hk hs1
    obtain ⟨v, hv⟩ := hbody k m1 hk hs1
    obtain ⟨m2, hm2, hs2, _⟩ := hs1.set_eq hi (show k < c by omega) v
    exact ⟨m2, by rw [hv, hm2], hs2⟩

theorem diagStep_shape {n i j : ℕ} {st : Matrix × Matrix} (hi : i < n) (hj : j < n)
    (h1 : HasShape n n st.1) (h2 : HasShape n n st.2) :
    ∃ st', Matrix.diagStep n i j st = some st' ∧ HasShape n n st'.1 ∧ HasShape n n st'.2 := by
  obtain ⟨iv', hiv', hsiv'⟩ := rowLoop_shape h2 hi (le_refl n)
    (fun k inverse => (st.1.get i j).bind fun d =>
      (inverse.get i k).bind fun v => inverse.set i k (v / d))
    (by
      intro k m' hk hs
      exact ⟨entry m' i k / entry st.1 i j, by simp [h1.get_eq hi hj, hs.get_eq hi hk]⟩)
  obtain ⟨cl', hcl', hscl'⟩ := rowLoop_shape h1 hi (le_refl n)
    (fun k clone => (clone.get i j).bind fun d =>
      (clone.get i k).bind fun v => clone.set i k (v / d))
    (by
      intro k m' hk hs
      exact ⟨entry m' i k / entry m' i j, by simp [hs.get_eq hi hj, hs.get_eq hi hk]⟩)
  exact ⟨(cl', iv'), by simp [Matrix.diagStep, hiv', hcl'], hscl', hsiv'⟩

theorem elimStep_shape {n i j : ℕ} {st : Matrix × Matrix} (hi : i < n) (hj : j < n)
    (h1 : HasShape n n st.1) (h2 : HasShape n n st.2) :
    ∃ st', Matrix.elimStep n i j st = some st' ∧ HasShape n n st'.1 ∧ HasShape n n st'.2 := by
  obtain ⟨iv', hiv', hsiv'⟩ := rowLoop_shape h2 hi (le_refl n)
    (fun k inverse => (st.1.get i j).bind fun c => (inverse.get j k).bind fun w =>
      (inverse.get i k).bind fun v => inverse.set i k (v - c * w))
    (by
      intro k m' hk hs
      exact ⟨entry m' i k - entry st.1 i j * entry m' j k,
        by simp [h1.get_eq hi hj, hs.get_eq hj hk, hs.get_eq hi hk]⟩)
  obtain ⟨cl', hcl', hscl'⟩ := rowLoop_shape h1 hi (le_refl n)
    (fun k clone => (clone.get i j).bind fun c => (clone.get j k).bind fun w =>
      (clone.get i k).bind fun v => clone.set i k (v - c * w))
    (by
      intro k m' hk hs
      exact ⟨entry m' i k - entry m' i j * entry m' j k,
        by simp [hs.get_eq hi hj, hs.get_eq hj hk, hs.get_eq hi hk]⟩)
  exact ⟨(cl', iv'), by simp [Matrix.elimStep, hiv', hcl'], hscl', hsiv'⟩

theorem backRow_shape {n i : ℕ} (hi : i < n) :
    ∀ (c : ℕ) (st : Matrix × Matrix), c ≤ n → HasShape n n st.1 → HasShape n n st.2 →
      ∃ st', Matrix.backRow n i c st = some st' ∧ HasShape n n st'.1 ∧ HasShape n n st'.2 := by
  intro c
  induction c with
  | zero => intro st _ h1 h2; exact ⟨st, rfl, h1, h2⟩
  | succ j ih =>
    intro st hjn h1 h2
    by_cases hji : j = i
    · subst hji
      simpa [Matrix.backRow] using diagStep_shape hi hi h1 h2
    · obtain ⟨st1, hst1, h11, h12⟩ := elimStep_shape hi (show j < n by omega) h1 h2
      obtain ⟨st2, hst2, h21, h22⟩ := ih st1 (by omega) h11 h12
      exact ⟨st2, by simp [Matrix.backRow, hji, hst1, hst2], h21, h22⟩

theorem backwardLoop_shape {n : ℕ} (st : Matrix × Matrix) (h1 : HasShape n n st.1)
    (h2 : HasShape n n st.2) :
    ∃ st', Matrix.backwardLoop n st = some st' ∧ HasShape n n st'.1 ∧ HasShape n n st'.2 := by
  apply forDown_inv (fun _ s => HasShape n n s.1 ∧ HasShape n n s.2) _ n st ⟨h1, h2⟩
  intro i s hi hs
  exact backRow_shape hi n s (le_refl n) hs.1 hs.2

/-- On every square matrix `invert` runs inside its vectors and returns a square matrix
of the same size. -/
theorem invert_total {n : ℕ} {M : Matrix} (hM : HasShape n n M) :
    ∃ iv, M.invert = some iv ∧ HasShape n n iv := by
  obtain ⟨i0, hi0, hsi0, hei0⟩ := identityInit_spec n
  have hid : toQ n n i0 = 1 := by
    ext a b
    rw [toQ_apply, hei0 a b a.2, Matrix.one_apply]; simp only [Fin.ext_iff]
  obtain ⟨st, hst, _, hL, _⟩ := forwardIters_echelon hM hsi0 hid n (le_refl n)
  obtain ⟨st', hst', _, hs2⟩ := backwardLoop_shape (st.2.1, st.2.2) hL.1 hL.2.1
  refine ⟨st'.2, ?_, hs2⟩
  rw [← forwardLoop_eq_iters] at hst
  simp [Matrix.invert, hM.1, hi0, hst, hst']

/-- The diagonal branch of the backward pass, entry by entry: row `i` of `inverse` is
divided by `d = clone[i][i]`; row `i` of `clone` is divided by `d` up to column `i`, and
by the new diagonal entry `d / d = 1` after it. -/
theorem diagStep_exact {n i : ℕ} {cl iv : Matrix} (hcl : HasShape n n cl)
    (hiv : HasShape n n iv) (hi : i < n) (hd : entry cl i i ≠ 0) :
    ∃ cl' iv', Matrix.diagStep n i i (cl, iv) = some (cl', iv') ∧
      HasShape n n cl' ∧ HasShape n n iv' ∧
      (∀ a b, b < n → entry iv' a b =
        if a = i then entry iv i b / entry cl i i else entry iv a b) ∧
      (∀ a b, b < n → entry cl' a b =
        if a = i then (if b ≤ i then entry cl i b / entry cl i i else entry cl i b)
        else entry cl a b) := by
  obtain ⟨iv', hiv', hsiv', heiv'⟩ := rowLoop_spec hiv hi (le_refl n)
    (fun b => entry iv i b / entry cl i i)
    (fun k inverse => (cl.get i i).bind fun d =>
      (inverse.get i k).bind fun v => inverse.set i k (v / d))
    (by
      intro k m' hk hs he
      have e2 : entry m' i k = entry iv i k := by rw [he]; simp
      simp [hcl.get_eq hi hi, hs.get_eq hi hk, e2])
  obtain ⟨cl', hcl', hscl', hecl'⟩ := rowLoop_spec hcl hi (le_refl n)
    (fun b => if b ≤ i then entry cl i b / entry cl i i else entry cl i b)
    (fun k clone => (clone.get i i).bind fun d =>
      (clone.get i k).bind fun v => clone.set i k (v / d))
    (by
      intro k m' hk hs he
      have e1 : entry m' i i = if i < k then 1 else entry cl i i := by
        rw [he]; simp [hd]
      have e2 : entry m' i k = entry cl i k := by rw [he]; simp
      simp only [hs.get_eq hi hi, hs.get_eq hi hk, e1, e2, Option.some_bind]
      congr 1
      by_cases hki : k ≤ i
      · have : ¬ i < k := by omega
        simp [hki, this]
      · have : i < k := by omega
        simp [hki, this])
  refine ⟨cl', iv', by simp [Matrix.diagStep, hiv', hcl'], hscl', hsiv', ?_, ?_⟩
  · intro a b hb
    rw [heiv']; simp [hb]
  · intro a b hb
    rw [hecl']; simp [hb]

/-! ## The buffers of `main` -/

/-- A property kept by every successful step holds after a loop that succeeds. -/
theorem forFrom_some_inv {σ : Type} (P : σ → Prop) (body : ℕ → σ → Option σ) (hi : ℕ)
    (hstep : ∀ i s s', P s → body i s = some s' → P s') :
    ∀ (len lo : ℕ) (init s : σ), lo + len = hi → P init →
      forFrom lo hi init body = some s → P s := by
  intro len
  induction len with
  | zero =>
    intro lo init s hlen h0 hs
    have : hi = lo := by omega
    subst this
    simp [forFrom] at hs
    rw [← hs]; exact h0
  | succ len ih =>
    intro lo init s hlen h0 hs
    have : hi = lo + (len + 1) := by omega
    subst this
    rw [forFrom_step] at hs
    cases hb : body lo init with
    | none => simp [hb] at hs
    | some s1 =>
      rw [hb, Option.some_bind] at hs
      have h2 : lo + 1 + len = lo + (len + 1) := by omega
      rw [h2] at hs
      exact ih (lo + 1) s1 s (by omega) (hstep lo init s1 h0 hb) hs

/-- A loop fails when its body fails at index `t` on every state with the property `P`,
which the successful steps keep. -/
theorem forFrom_fail_keep {σ : Type} (P : σ → Prop) (body : ℕ → σ → Option σ) (hi t : ℕ)
    (hstep : ∀ i s s', P s → body i s = some s' → P s')
    (hfail : ∀ s, P s → body t s = none) (ht : t < hi) :
    ∀ (len lo : ℕ) (init : σ), lo + len = t → P init →
      forFrom lo hi init body = none := by
  intro len
  induction len with
  | zero =>
    intro lo init hlen h0
    have : lo = t := by omega
    subst this
    obtain ⟨r, rfl⟩ : ∃ r, hi = lo + (r + 1) := ⟨hi - lo - 1, by omega⟩
    rw [forFrom_step, hfail init h0]; rfl
  | succ len ih =>
    intro lo init hlen h0
    obtain ⟨r, rfl⟩ : ∃ r, hi = lo + (r + 1) := ⟨hi - lo - 1, by omega⟩
    rw [forFrom_step]
    cases hb : body lo init with
    | none => rfl
    | some s1 =>
      rw [Option.some_bind]
      have h2 : lo + 1 + r = lo + (r + 1) := by omega
      rw [h2]
      exact ih (lo + 1) s1 (by omega) (hstep lo init s1 h0 hb)

theorem index_lt_of_lt {i j columns rows : ℕ} (hi : i < rows) (hj : j < columns) :
    i * columns + j < rows * columns :=
  calc i * columns + j < i * columns + columns := by omega
    _ = (i + 1) * columns := by ring
    _ ≤ rows * columns := Nat.mul_le_mul_right columns hi

theorem vecSet_length {v v' : List ℚ} {i : ℕ} {x : ℚ} (h : vecSet v i x = some v') :
    v'.length = v.length := by
  unfold vecSet at h
  split_ifs at h
  rw [← Option.some.inj h]; simp

theorem vecSet_some {v : List ℚ} {i : ℕ} (x : ℚ) (h : i < v.length) :
    vecSet v i x = some (v.set i x) := by
  simp [vecSet, h]

theorem readInto_length {lo hi base : ℕ} {st st' : List ℚ × List ℚ}
    (h : readInto lo hi base st = some st') : st'.2.length = st.2.length := by
  have := forFrom_some_inv (fun s : List ℚ × List ℚ => s.2.length = st.2.length)
    (fun j s => (readDouble s.1).bind fun r =>
      (vecSet s.2 (base + j) r.1).bind fun buffer => some (r.2, buffer)) hi
    (by
      intro j s s' hs hb
      cases hr : readDouble s.1 with
      | none => simp [hr] at hb
      | some r =>
        cases hv : vecSet s.2 (base + j) r.1 with
        | none => simp [hr, hv] at hb
        | some b =>
          simp [hr, hv] at hb
          rw [← hb]; simp only
          rw [vecSet_length hv, hs])
    (hi - lo) lo st st'
  by_cases hle : lo ≤ hi
  · exact this (by omega) rfl h
  · have h0 : hi - lo = 0 := by omega
    simp [readInto, forFrom, h0] at h
    rw [← h]

theorem readInto_spec (lo hi base : ℕ) (file buffer : List ℚ) (hle : lo ≤ hi)
    (hfile : hi - lo ≤ file.length)
    (hbuf : ∀ j, lo ≤ j → j < hi → base + j < buffer.length) :
    ∃ st', readInto lo hi base (file, buffer) = some st' ∧
      st'.2.length = buffer.length ∧ st'.1.length + (hi - lo) = file.length := by
  obtain ⟨s, hs, h1, h2⟩ := forFrom_inv
    (fun j (s : List ℚ × List ℚ) => s.2.length = buffer.length ∧
      s.1.length + (j - lo) = file.length)
    (fun j s => (readDouble s.1).bind fun r =>
      (vecSet s.2 (base + j) r.1).bind fun b => some (r.2, b))
    lo hi (file, buffer) hle ⟨rfl, by simp⟩
    (by
      intro j s hj1 hj2 ⟨hs1, hs2⟩
      obtain ⟨f, b⟩ := s
      simp only at hs1 hs2
      have hpos : 0 < f.length := by omega
      obtain ⟨q, rest, rfl⟩ : ∃ q rest, f = q :: rest := by
        cases f with
        | nil => simp at hpos
        | cons q rest => exact ⟨q, rest, rfl⟩
      have hb : base + j < b.length := by rw [hs1]; exact hbuf j hj1 hj2
      refine ⟨(rest, b.set (base + j) q), by simp [readDouble, vecSet_some q hb], ?_, ?_⟩
      · simp [hs1]
      · simp only [List.length_cons] at hs2 ⊢
        omega)
  exact ⟨s, hs, h1, h2⟩

theorem readPredictions_spec {entry_count input_count prediction_count : ℕ}
    {file inputs : List ℚ} (hic : 1 ≤ input_count)
    (hlen : inputs.length = entry_count * input_count)
    (hpc : prediction_count ≤ entry_count)
    (hfile : prediction_count * (input_count - 1) ≤ file.length) :
    ∃ st, readPredictions prediction_count input_count (file, inputs) = some st ∧
      st.2.length = entry_count * input_count := by
  obtain ⟨s, hs, h1, _⟩ := forRange_inv
    (fun i (s : List ℚ × List ℚ) => s.2.length = entry_count * input_count ∧
      (prediction_count - i) * (input_count - 1) ≤ s.1.length)
    (fun i s => (vecSet s.2 (i * input_count) 1).bind fun b =>
      readInto 1 input_count (i * input_count) (s.1, b))
    prediction_count (file, inputs) ⟨hlen, by simpa using hfile⟩
    (by
      intro i s hi ⟨hs1, hs2⟩
      obtain ⟨f, b⟩ := s
      simp only at hs1 hs2
      have hidx : ∀ j, j < input_count → i * input_count + j < b.length := by
        intro j hj
        rw [hs1]; exact index_lt_of_lt (by omega) hj
      have h0 : i * input_count < b.length := by simpa using hidx 0 (by omega)
      have hsplit : (prediction_count - i) * (input_count - 1)
          = (prediction_count - (i + 1)) * (input_count - 1) + (input_count - 1) := by
        have : prediction_count - i = (prediction_count - (i + 1)) + 1 := by omega
        rw [this]; ring
      obtain ⟨st', hst', hl1, hl2⟩ := readInto_spec 1 input_count (i * input_count) f
        (b.set (i * input_count) 1) hic (by omega) (by intro j _ hj; simpa using hidx j hj)
      refine ⟨st', by simp [vecSet_some 1 h0, hst'], ?_, ?_⟩
      · rw [hl1]; simpa using hs1
      · omega)
  exact ⟨s, hs, h1⟩

theorem readPredictions_overflow {entry_count input_count prediction_count : ℕ}
    {file inputs : List ℚ} (hlen : inputs.length = entry_count * input_count)
    (hpc : entry_count < prediction_count) :
    readPredictions prediction_count input_count (file, inputs) = none := by
  apply forFrom_fail_keep (fun s : List ℚ × List ℚ => s.2.length = entry_count * input_count)
    _ prediction_count entry_count _ _ hpc entry_count 0 (file, inputs) (by omega) hlen
  · intro i s s' hs hb
    cases hv : vecSet s.2 (i * input_count) 1 with
    | none => simp [hv] at hb
    | some b =>
      simp only [hv, Option.some_bind] at hb
      rw [readInto_length hb]; simp only
      rw [vecSet_length hv, hs]
  · intro s hs
    have : ¬ entry_count * input_count < s.2.length := by omega
    simp [vecSet, this]

theorem ofValues_spec (rows columns : ℕ) (data : List ℚ)
    (hlen : rows * columns ≤ data.length) :
    ∃ m, Matrix.ofValues rows columns data = some m ∧ HasShape rows columns m ∧
      ∀ i j, i < rows → j < columns → entry m i j = data.getD (i * columns + j) 0 := by
  apply forRange_inv
    (fun i m => HasShape rows columns m ∧
      ∀ a b, a < i → b < columns → entry m a b = data.getD (a * columns + b) 0)
  · exact ⟨hasShape_sized rows columns, fun a b ha => absurd ha (Nat.not_lt_zero _)⟩
  · intro i m hi ⟨hs, he⟩
    obtain ⟨m', hm', hs', hdone, hrow⟩ := forRange_inv
      (fun j m' => HasShape rows columns m' ∧
        (∀ a b, a < i → b < columns → entry m' a b = data.getD (a * columns + b) 0) ∧
        ∀ b, b < j → entry m' i b = data.getD (i * columns + b) 0)
      (fun j m' => (data[i * columns + j]?).bind fun v => m'.set i j v)
      columns m ⟨hs, he, fun b hb => absurd hb (Nat.not_lt_zero _)⟩
      (by
        intro j m1 hj ⟨hs1, he1, hr1⟩
        have hidx : i * columns + j < data.length :=
          lt_of_lt_of_le (index_lt_of_lt hi hj) hlen
        obtain ⟨m2, hm2, hs2, he2⟩ := hs1.set_eq hi hj (data[i * columns + j])
        refine ⟨m2, by simp [List.getElem?_eq_getElem hidx, hm2], hs2, ?_, ?_⟩
        · intro a b ha hb
          have hne : a ≠ i := by omega
          rw [he2]; simp [hne, he1 a b ha hb]
        · intro b hb
          rw [he2]
          by_cases hbj : b = j
          · subst hbj
            simp [List.getD_eq_getElem?_getD, List.getElem?_eq_getElem hidx]
          · rw [if_neg (fun h => hbj h.2)]; exact hr1 b (by omega))
    refine ⟨m', hm', hs', ?_⟩
    intro a b ha hb
    by_cases hai : a = i
    · subst hai; exact hrow b hb
    · exact hdone a b (by omega) hb

/-! ## The grid generator -/

theorem forWhile_false {σ : Type} {cond : σ → Option Bool} {body : σ → Outcome σ}
    {incr : σ → Option σ} {s : σ} (h : cond s = some false) (c : ℕ) :
    forWhile cond body incr (c + 1) s = .done s := by
  simp [forWhile, h]

theorem forWhile_true {σ : Type} {cond : σ → Option Bool} {body : σ → Outcome σ}
    {incr : σ → Option σ} {s : σ} (h : cond s = some true) (c : ℕ) :
    forWhile cond body incr (c + 1) s
      = (body s).bind fun s1 => (Outcome.ofOption (incr s1)).bind fun s2 =>
          forWhile cond body incr c s2 := by
  simp [forWhile, h]

theorem variable_loop_leaf (d : ℕ) (m M s : ℚ) (indices : List ℤ) (fuel : ℕ)
    (st : List (List ℚ) × List ℚ) :
    variable_loop d m M s indices (fuel + 1) d st
      = (Outcome.ofOption (output st.1 indices st.2)).bind fun file => .done (file, st.2) := by
  simp [variable_loop]

theorem variable_loop_node (d : ℕ) (m M s : ℚ) (indices : List ℤ) (fuel : ℕ) {index : ℕ}
    (hne : index ≠ d) (st : List (List ℚ) × List ℚ) :
    variable_loop d m M s indices (fuel + 1) index st
      = (Outcome.ofOption (vecSet st.2 index m)).bind fun inputs =>
          forWhile (coordinateInRange index M)
            (fun s1 => variable_loop d m M s indices fuel (index + 1) s1)
            (coordinateAdvance index s) fuel (st.1, inputs) := by
  simp [variable_loop, hne]

theorem getElem?_of_lt {v : List ℚ} {k : ℕ} (h : k < v.length) :
    v[k]? = some (v.getD k 0) := by
  simp [List.getD_eq_getElem?_getD, List.getElem?_eq_getElem h]

theorem function_defined {index : ℤ} {v : List ℚ} (h : arity index ≤ v.length) :
    function index v = some ((function index v).getD 0) := by
  by_cases h0 : index = 0
  · subst h0
    have h' : 1 ≤ v.length := h
    have e : function 0 v = v[0]? := rfl
    rw [e, List.getElem?_eq_getElem (show 0 < v.length by omega)]; rfl
  by_cases h1 : index = 1
  · subst h1
    have h' : 1 ≤ v.length := h
    have e : function 1 v = (v[0]?).bind fun a => some (a + 1) := rfl
    rw [e, List.getElem?_eq_getElem (show 0 < v.length by omega)]; rfl
  by_cases h2 : index = 2
  · subst h2
    have h' : 1 ≤ v.length := h
    have e : function 2 v = (v[0]?).bind fun a => some (2 * a) := rfl
    rw [e, List.getElem?_eq_getElem (show 0 < v.length by omega)]; rfl
  by_cases h3 : index = 3
  · subst h3
    have h' : 1 ≤ v.length := h
    have e : function 3 v = (v[0]?).bind fun a => some (a * a) := rfl
    rw [e, List.getElem?_eq_getElem (show 0 < v.length by omega)]; rfl
  by_cases h4 : index = 4
  · subst h4
    have h' : 2 ≤ v.length := h
    have e : function 4 v = (v[0]?).bind fun a => (v[1]?).bind fun b => some (a + b) := rfl
    rw [e, List.getElem?_eq_getElem (show 0 < v.length by omega),
      List.getElem?_eq_getElem (show 1 < v.length by omega)]; rfl
  by_cases h5 : index = 5
  · subst h5
    have h' : 2 ≤ v.length := h
    have e : function 5 v = (v[0]?).bind fun a => (v[1]?).bind fun b => some (a * b) := rfl
    rw [e, List.getElem?_eq_getElem (show 0 < v.length by omega),
      List.getElem?_eq_getElem (show 1 < v.length by omega)]; rfl
  by_cases h6 : index = 6
  · subst h6
    have h' : 3 ≤ v.length := h
    have e : function 6 v = (v[0]?).bind fun a => (v[1]?).bind fun b =>
        (v[2]?).bind fun c => some (a + b + c) := rfl
    rw [e, List.getElem?_eq_getElem (show 0 < v.length by omega),
      List.getElem?_eq_getElem (show 1 < v.length by omega),
      List.getElem?_eq_getElem (show 2 < v.length by omega)]; rfl
  by_cases h7 : index = 7
  · subst h7
    have h' : 5 ≤ v.length := h
    have e : function 7 v = (v[0]?).bind fun a => (v[1]?).bind fun b =>
        (v[2]?).bind fun c => (v[3]?).bind fun d =>
          (v[4]?).bind fun e => some (a + 2 * b + 3 * c + 4 * d + 5 * e) := rfl
    rw [e, List.getElem?_eq_getElem (show 0 < v.length by omega),
      List.getElem?_eq_getElem (show 1 < v.length by omega),
      List.getElem?_eq_getElem (show 2 < v.length by omega),
      List.getElem?_eq_getElem (show 3 < v.length by omega),
      List.getElem?_eq_getElem (show 4 < v.length by omega)]; rfl
  unfold function
  split <;> first | rfl | contradiction

/-- The line written by `output` when every requested function finds its inputs. -/
theorem output_spec (file : List (List ℚ)) (indices : List ℤ) (inputs : List ℚ)
    (h : ∀ index ∈ indices, arity index ≤ inputs.length) :
    output file indices inputs = some (file ++ [rowOf indices inputs]) := by
  obtain ⟨l1, hl1, he1⟩ := forRange_inv (fun i (line : List ℚ) => line = inputs.take i)
    (fun i line => (inputs[i]?).bind fun v => some (line ++ [v]))
    inputs.length [] (by simp)
    (by
      intro i line hi hline
      refine ⟨line ++ [inputs[i]], by simp [List.getElem?_eq_getElem hi], ?_⟩
      beta_reduce
      rw [hline, List.take_succ, List.getElem?_eq_getElem hi]; rfl)
  rw [List.take_length] at he1
  subst he1
  obtain ⟨l2, hl2, he2⟩ := forRange_inv
    (fun i (line : List ℚ) =>
      line = l1 ++ (indices.take i).map fun index => (function index l1).getD 0)
    (fun i line => (indices[i]?).bind fun index =>
      (function index l1).bind fun v => some (line ++ [v]))
    indices.length l1 (by simp)
    (by
      intro i line hi hline
      have hmem : indices[i] ∈ indices := List.getElem_mem hi
      refine ⟨line ++ [(function indices[i] l1).getD 0], ?_, ?_⟩
      · simp only [List.getElem?_eq_getElem hi, Option.some_bind]
        rw [function_defined (h _ hmem)]; rfl
      · beta_reduce
        rw [hline, List.take_succ, List.getElem?_eq_getElem hi]
        simp only [Option.toList, List.map_append, List.map_cons, List.map_nil,
          List.append_assoc])
  rw [List.take_length] at he2
  simp [output, hl1, hl2, he2, rowOf]

theorem axis_le_iff {m M s : ℚ} (hs : 0 < s) (t : ℕ) :
    m + t * s ≤ M ↔ t < axisCount m M s := by
  unfold axisCount
  by_cases hmM : m ≤ M
  · have h0 : 0 ≤ (M - m) / s := div_nonneg (by linarith) (le_of_lt hs)
    rw [if_pos hmM, Nat.lt_succ_iff, Nat.le_floor_iff h0, le_div_iff₀ hs]
    constructor <;> intro h <;> linarith
  · rw [if_neg hmM]
    have : (0 : ℚ) ≤ t * s := mul_nonneg (Nat.cast_nonneg t) (le_of_lt hs)
    constructor
    · intro h; exact absurd (by linarith : m ≤ M) hmM
    · intro h; exact absurd h (Nat.not_lt_zero t)

theorem axisValues_length (m M s : ℚ) : (axisValues m M s).length = axisCount m M s := by
  simp [axisValues]

theorem axisValues_getElem? {m M s : ℚ} {t : ℕ} (ht : t < axisCount m M s) :
    (axisValues m M s)[t]? = some (m + t * s) := by
  simp [axisValues, List.getElem?_map, List.getElem?_range ht]

theorem mem_axisValues {m M s : ℚ} (hs : 0 < s) (x : ℚ) :
    x ∈ axisValues m M s ↔ ∃ i : ℕ, x = m + i * s ∧ x ≤ M := by
  unfold axisValues
  rw [List.mem_map]
  constructor
  · rintro ⟨i, hi, rfl⟩
    exact ⟨i, rfl, (axis_le_iff hs i).mpr (List.mem_range.mp hi)⟩
  · rintro ⟨i, rfl, hle⟩
    exact ⟨i, List.mem_range.mpr ((axis_le_iff hs i).mp hle), rfl⟩

theorem axisValues_increasing {m M s : ℚ} (hs : 0 < s) :
    (axisValues m M s).Pairwise (· < ·) := by
  unfold axisValues
  rw [List.pairwise_map]
  apply List.Pairwise.imp _ (List.pairwise_lt_range _)
  intro a b hab
  have : (a : ℚ) < b := by exact_mod_cast hab
  nlinarith

theorem mem_grid (axis : List ℚ) :
    ∀ (d : ℕ) (v : List ℚ), v ∈ grid axis d ↔ v.length = d ∧ ∀ x ∈ v, x ∈ axis := by
  intro d
  induction d with
  | zero =>
    intro v
    simp only [grid, List.mem_singleton]
    constructor
    · rintro rfl; simp
    · rintro ⟨h, _⟩; exact List.length_eq_zero.mp h
  | succ d ih =>
    intro v
    simp only [grid, List.mem_flatMap, List.mem_map]
    constructor
    · rintro ⟨x, hx, w, hw, rfl⟩
      obtain ⟨h1, h2⟩ := (ih w).mp hw
      refine ⟨by simp [h1], ?_⟩
      intro y hy
      rcases List.mem_cons.mp hy with rfl | hy
      · exact hx
      · exact h2 y hy
    · rintro ⟨hlen, hall⟩
      cases v with
      | nil => simp at hlen
      | cons x w =>
        refine ⟨x, hall x (List.mem_cons_self _ _), w, (ih w).mpr ⟨by simpa using hlen, ?_⟩, rfl⟩
        intro y hy
        exact hall y (List.mem_cons_of_mem _ hy)

theorem grid_lex_increasing {axis : List ℚ} (h : axis.Pairwise (· < ·)) :
    ∀ d : ℕ, 0 < d → (grid axis d).Pairwise (List.Lex (· < ·)) := by
  intro d
  induction d with
  | zero => intro h0; omega
  | succ d ih =>
    intro _
    simp only [grid]
    rw [List.pairwise_flatMap]
    constructor
    · intro x _
      rw [List.pairwise_map]
      rcases Nat.eq_zero_or_pos d with h0 | hpos
      · subst h0; simp [grid]
      · exact List.Pairwise.imp (fun hab => List.Lex.cons hab) (ih hpos)
    · apply List.Pairwise.imp _ h
      intro a b hab v hv w hw
      obtain ⟨v', _, rfl⟩ := List.mem_map.mp hv
      obtain ⟨w', _, rfl⟩ := List.mem_map.mp hw
      exact List.Lex.rel hab

theorem take_set_self (l : List ℚ) (i : ℕ) (a : ℚ) : (l.set i a).take i = l.take i := by
  rw [List.set_take]
  exact List.set_eq_of_length_le (by simp)

theorem take_succ_of_getElem? {l : List ℚ} {i : ℕ} {x : ℚ} (h : l[i]? = some x) :
    l.take (i + 1) = l.take i ++ [x] := by
  rw [List.take_succ, h]; rfl

theorem drop_of_getElem? {l : List ℚ} {t : ℕ} {x : ℚ} (h : l[t]? = some x) :
    l.drop t = x :: l.drop (t + 1) := by
  obtain ⟨hlt, hx⟩ := List.getElem?_eq_some.mp h
  rw [List.drop_eq_getElem_cons hlt, hx]

theorem lt_length_of_getElem? {l : List ℚ} {i : ℕ} {x : ℚ} (h : l[i]? = some x) :
    i < l.length := by
  obtain ⟨hlt, _⟩ := List.getElem?_eq_some.mp h
  exact hlt

theorem coordinateInRange_eq {index : ℕ} {M v : ℚ} {s : List (List ℚ) × List ℚ}
    (h : s.2[index]? = some v) : coordinateInRange index M s = some (decide (v ≤ M)) := by
  simp [coordinateInRange, h]

theorem coordinateAdvance_eq (step : ℚ) {index : ℕ} {v : ℚ} {s : List (List ℚ) × List ℚ}
    (h : s.2[index]? = some v) :
    coordinateAdvance index step s = some (s.1, s.2.set index (v + step)) := by
  simp [coordinateAdvance, h, vecSet_some _ (lt_length_of_getElem? h)]

theorem grid_rows_succ (axis : List ℚ) (indices : List ℤ) (r : ℕ) (p : List ℚ) :
    (grid axis (r + 1)).map (fun w => rowOf indices (p ++ w))
      = axis.flatMap fun x => (grid axis r).map fun w => rowOf indices ((p ++ [x]) ++ w) := by
  simp [grid, List.map_flatMap, List.map_map, Function.comp_def, List.append_assoc]

/-- The run of `variable_loop` from coordinate `index` on, for a positive step and enough
fuel: the lines of the grid over the remaining coordinates are appended to the file. -/
theorem variable_loop_spec (d : ℕ) (m M s : ℚ) (indices : List ℤ) (hs : 0 < s) :
    ∀ (r index : ℕ), index + r = d → ∀ fuel, axisCount m M s + 1 + r ≤ fuel →
      ∀ (file : List (List ℚ)) (inputs : List ℚ), inputs.length = d →
        RunsTo d index (∀ ix ∈ indices, arity ix ≤ d) (inputs.take index)
          (file ++ (grid (axisValues m M s) r).map
            fun w => rowOf indices (inputs.take index ++ w))
          (variable_loop d m M s indices fuel index (file, inputs)) := by
  intro r
  induction r with
  | zero =>
    intro index hidx fuel hfuel file inputs hlen
    have hid : d = index := by omega
    subst hid
    obtain ⟨f, rfl⟩ : ∃ f, fuel = f + 1 := ⟨fuel - 1, by omega⟩
    rw [variable_loop_leaf]
    have htake : inputs.take d = inputs := List.take_of_length_le (le_of_eq hlen)
    by_cases hA : ∀ ix ∈ indices, arity ix ≤ d
    · right
      refine ⟨file ++ [rowOf indices inputs], inputs, ?_, hlen, rfl, ?_⟩
      · have hA' : ∀ ix ∈ indices, arity ix ≤ inputs.length := by rw [hlen]; exact hA
        simp [output_spec file indices inputs hA', Outcome.ofOption, Outcome.bind]
      · intro _
        simp [grid, htake]
    · cases ho : output file indices inputs with
      | none =>
        left
        exact ⟨by simp [Outcome.ofOption, Outcome.bind], hA⟩
      | some f' =>
        right
        exact ⟨f', inputs, by simp [Outcome.ofOption, Outcome.bind], hlen, rfl,
          fun h => absurd h hA⟩
  | succ r ih =>
    intro index hidx fuel hfuel file inputs hlen
    have hne : index ≠ d := by omega
    have hil : index < inputs.length := by omega
    obtain ⟨f, rfl⟩ : ∃ f, fuel = f + 1 := ⟨fuel - 1, by omega⟩
    rw [variable_loop_node d m M s indices f hne, vecSet_some m hil]
    simp only [Outcome.ofOption, Outcome.bind]
    -- the loop over the values of coordinate `index`
    have hloop : ∀ (k t : ℕ), t + k = axisCount m M s → ∀ c, k + 1 ≤ c →
        ∀ (file0 : List (List ℚ)) (in0 : List ℚ), in0.length = d →
          in0.take index = inputs.take index → in0[index]? = some (m + t * s) →
          RunsTo d index (∀ ix ∈ indices, arity ix ≤ d) (inputs.take index)
            (file0 ++ ((axisValues m M s).drop t).flatMap fun x =>
              (grid (axisValues m M s) r).map
                fun w => rowOf indices ((inputs.take index ++ [x]) ++ w))
            (forWhile (coordinateInRange index M)
              (fun s1 => variable_loop d m M s indices f (index + 1) s1)
              (coordinateAdvance index s) c (file0, in0)) := by
      intro k
      induction k with
      | zero =>
        intro t ht c hc file0 in0 hl0 hp0 hv0
        obtain ⟨c', rfl⟩ : ∃ c', c = c' + 1 := ⟨c - 1, by omega⟩
        have hcond : coordinateInRange index M (file0, in0) = some false := by
          rw [coordinateInRange_eq (v := m + t * s) (by simpa using hv0)]
          have : ¬ m + (t : ℚ) * s ≤ M := by
            rw [axis_le_iff hs t]; omega
          simp [this]
        rw [forWhile_false hcond]
        right
        refine ⟨file0, in0, rfl, hl0, hp0, ?_⟩
        intro _
        rw [List.drop_eq_nil_of_le (by rw [axisValues_length]; omega)]
        simp
      | succ k ihk =>
        intro t ht c hc file0 in0 hl0 hp0 hv0
        obtain ⟨c', rfl⟩ : ∃ c', c = c' + 1 := ⟨c - 1, by omega⟩
        have htn : t < axisCount m M s := by omega
        have hcond : coordinateInRange index M (file0, in0) = some true := by
          rw [coordinateInRange_eq (v := m + t * s) (by simpa using hv0)]
          have : m + (t : ℚ) * s ≤ M := (axis_le_iff hs t).mpr htn
          simp [this]
        rw [forWhile_true hcond]
        have hp1 : in0.take (index + 1) = inputs.take index ++ [m + t * s] := by
          rw [take_succ_of_getElem? hv0, hp0]
        rcases ih (index + 1) (by omega) f (by omega) file0 in0 hl0 with
          ⟨hub, hnA⟩ | ⟨file1, in1, hdone, hl1, ht1, hrows1⟩
        · left
          refine ⟨?_, hnA⟩
          beta_reduce
          rw [hub]; rfl
        · rw [hdone]
          simp only [Outcome.bind]
          have hv1 : in1[index]? = some (m + t * s) := by
            have := congrArg (fun l => l[index]?) ht1
            simp only [List.getElem?_take_of_lt (Nat.lt_succ_self index)] at this
            rw [this, hv0]
          have hadv : coordinateAdvance index s (file1, in1)
              = some (file1, in1.set index (m + t * s + s)) := coordinateAdvance_eq s hv1
          rw [hadv]
          simp only [Outcome.ofOption]
          have hi1 : index < in1.length := lt_length_of_getElem? hv1
          have hv2 : (in1.set index (m + t * s + s))[index]? = some (m + ((t + 1 : ℕ) : ℚ) * s) := by
            rw [List.getElem?_set_self hi1]
            congr 1
            push_cast; ring
          have hp2 : (in1.set index (m + t * s + s)).take index = inputs.take index := by
            rw [take_set_self]
            have := congrArg (fun l => l.take index) ht1
            simp only [List.take_take, Nat.min_eq_left (Nat.le_succ index)] at this
            rw [this, hp0]
          rcases ihk (t + 1) (by omega) c' (by omega) file1 (in1.set index (m + t * s + s))
              (by simp [hl1]) hp2 hv2 with ⟨hub, hnA⟩ | ⟨file2, in2, hdone2, hl2, ht2, hrows2⟩
          · left; exact ⟨hub, hnA⟩
          · right
            refine ⟨file2, in2, hdone2, hl2, ht2, ?_⟩
            intro hA
            rw [hrows2 hA, hrows1 hA, hp1, drop_of_getElem? (axisValues_getElem? htn),
              List.flatMap_cons, List.append_assoc]
    have hstart := hloop (axisCount m M s) 0 (by omega) f (by omega) file (inputs.set index m)
      (by simp [hlen]) (take_set_self inputs index m)
      (by rw [List.getElem?_set_self hil]; simp)
    rw [List.drop_zero, ← grid_rows_succ] at hstart
    exact hstart

/-- Whatever the fuel, a run of `variable_loop` that returns has kept the length of
`inputs` and its coordinates before `index`. -/
theorem variable_loop_frame (d : ℕ) (m M s : ℚ) (indices : List ℤ) :
    ∀ (fuel index : ℕ) (st st' : List (List ℚ) × List ℚ),
      variable_loop d m M s indices fuel index st = .done st' →
        st'.2.length = st.2.length ∧ st'.2.take index = st.2.take index := by
  intro fuel
  induction fuel with
  | zero => intro index st st' h; simp [variable_loop] at h
  | succ f ih =>
    intro index st st' h
    by_cases hid : index = d
    · subst hid
      rw [variable_loop_leaf] at h
      cases ho : output st.1 indices st.2 with
      | none => simp [ho, Outcome.ofOption, Outcome.bind] at h
      | some f' =>
        simp only [ho, Outcome.ofOption, Outcome.bind, Outcome.done.injEq] at h
        rw [← h]
        exact ⟨rfl, rfl⟩
    · rw [variable_loop_node d m M s indices f hid] at h
      cases hv : vecSet st.2 index m with
      | none => simp [hv, Outcome.ofOption, Outcome.bind] at h
      | some in1 =>
        simp only [hv, Outcome.ofOption, Outcome.bind] at h
        have hl1 : in1.length = st.2.length := vecSet_length hv
        have hp1 : in1.take index = st.2.take index := by
          unfold vecSet at hv
          split_ifs at hv
          rw [← Option.some.inj hv, take_set_self]
        have hloop : ∀ (c : ℕ) (s0 : List (List ℚ) × List ℚ),
            forWhile (coordinateInRange index M)
              (fun s1 => variable_loop d m M s indices f (index + 1) s1)
              (coordinateAdvance index s) c s0 = .done st' →
            st'.2.length = s0.2.length ∧ st'.2.take index = s0.2.take index := by
          intro c
          induction c with
          | zero => intro s0 h0; simp [forWhile] at h0
          | succ c ihc =>
            intro s0 h0
            cases hc : coordinateInRange index M s0 with
            | none => simp [forWhile, hc] at h0
            | some b =>
              cases b with
              | false =>
                rw [forWhile_false hc] at h0
                simp only [Outcome.done.injEq] at h0
                rw [← h0]; exact ⟨rfl, rfl⟩
              | true =>
                rw [forWhile_true hc] at h0
                cases hb : variable_loop d m M s indices f (index + 1) s0 with
                | undefinedBehaviour => simp [hb, Outcome.bind] at h0
                | outOfFuel => simp [hb, Outcome.bind] at h0
                | done s1 =>
                  obtain ⟨hb1, hb2⟩ := ih (index + 1) s0 s1 hb
                  simp only [hb, Outcome.bind] at h0
                  cases ha : coordinateAdvance index s s1 with
                  | none => simp [ha, Outcome.ofOption] at h0
                  | some s2 =>
                    simp only [ha, Outcome.ofOption] at h0
                    obtain ⟨h1, h2⟩ := ihc s2 h0
                    have hs2 : s2.2.length = s1.2.length ∧ s2.2.take index = s1.2.take index := by
                      unfold coordinateAdvance at ha
                      cases hg : s1.2[index]? with
                      | none => simp [hg] at ha
                      | some v =>
                        simp only [hg, Option.some_bind] at ha
                        cases hw : vecSet s1.2 index (v + s) with
                        | none => simp [hw] at ha
                        | some in2 =>
                          simp only [hw, Option.some_bind, Option.some.injEq] at ha
                          rw [← ha]
                          refine ⟨vecSet_length hw, ?_⟩
                          unfold vecSet at hw
                          split_ifs at hw
                          rw [← Option.some.inj hw]
                          exact take_set_self _ _ _
                    have hb3 : s1.2.take index = s0.2.take index := by
                      have := congrArg (fun l => l.take index) hb2
                      simpa only [List.take_take, Nat.min_eq_left (Nat.le_succ index)] using this
                    exact ⟨by rw [h1, hs2.1, hb1], by rw [h2, hs2.2, hb3]⟩
        obtain ⟨h1, h2⟩ := hloop f (st.1, in1) h
        exact ⟨by rw [h1]; exact hl1, by rw [h2]; exact hp1⟩

/-- With at least one input, `min ≤ max` and a step that is not positive,
`variable_loop` never returns: coordinate `0` stays in the range. -/
theorem variable_loop_never_returns (d : ℕ) (m M s : ℚ) (indices : List ℤ) (hd : 1 ≤ d)
    (hmM : m ≤ M) (hs : ¬ 0 < s) (fuel : ℕ) (file : List (List ℚ)) (inputs : List ℚ)
    (hlen : inputs.length = d) (st' : List (List ℚ) × List ℚ) :
    variable_loop d m M s indices fuel 0 (file, inputs) ≠ .done st' := by
  cases fuel with
  | zero => simp [variable_loop]
  | succ f =>
    have hne : (0 : ℕ) ≠ d := by omega
    have h0 : 0 < inputs.length := by omega
    rw [variable_loop_node d m M s indices f hne, vecSet_some m h0]
    simp only [Outcome.ofOption, Outcome.bind]
    have hloop : ∀ (c : ℕ) (s0 : List (List ℚ) × List ℚ) (v : ℚ),
        s0.2[0]? = some v → v ≤ M →
        forWhile (coordinateInRange 0 M)
          (fun s1 => variable_loop d m M s indices f (0 + 1) s1)
          (coordinateAdvance 0 s) c s0 ≠ .done st' := by
      intro c
      induction c with
      | zero => intro s0 v _ _; simp [forWhile]
      | succ c ihc =>
        intro s0 v hv hle
        have hc : coordinateInRange 0 M s0 = some true := by
          rw [coordinateInRange_eq hv]; simp [hle]
        rw [forWhile_true hc]
        cases hb : variable_loop d m M s indices f (0 + 1) s0 with
        | undefinedBehaviour => simp [Outcome.bind]
        | outOfFuel => simp [Outcome.bind]
        | done s1 =>
          obtain ⟨_, hb2⟩ := variable_loop_frame d m M s indices f (0 + 1) s0 s1 hb
          have hv1 : s1.2[0]? = some v := by
            have := congrArg (fun l => l[0]?) hb2
            simp only [List.getElem?_take_of_lt (Nat.lt_succ_self 0)] at this
            rw [this, hv]
          simp only [Outcome.bind, coordinateAdvance_eq s hv1, Outcome.ofOption]
          apply ihc _ (v + s)
          · simp only
            rw [List.getElem?_set_self (lt_length_of_getElem? hv1)]
          · have : s ≤ 0 := not_lt.mp hs
            linarith
    exact hloop f (file, inputs.set 0 m) m (by simp [List.getElem?_set_self h0]) hmM

/-! ## Operations as operations on Mathlib matrices -/

theorem transpose_toQ {r c : ℕ} {m : Matrix} (hm : HasShape r c m) (hr : 0 < r) :
    ∃ t, m.transpose = some t ∧ HasShape c r t ∧ toQ c r t = (toQ r c m).transpose := by
  obtain ⟨t, ht, hs, he⟩ := transpose_spec hm hr
  refine ⟨t, ht, hs, ?_⟩
  ext j i
  rw [Matrix.transpose_apply, toQ_apply, toQ_apply, he i j i.2 j.2]

theorem multiply_toQ {r c p : ℕ} {a b : Matrix} (ha : HasShape r c a) (hb : HasShape c p b)
    (hc : 0 < c) :
    ∃ m, a.multiply b = some m ∧ HasShape r p m ∧ toQ r p m = toQ r c a * toQ c p b := by
  obtain ⟨m, hm, hs, he⟩ := multiply_spec ha hb (le_refl c) hc
  refine ⟨m, hm, hs, ?_⟩
  ext i j
  rw [toQ_apply, he i j i.2 j.2, dot_eq_mul]

theorem pos_of_row_zero {r c : ℕ} {m : Matrix} (hm : HasShape r c m) {t : Matrix}
    (ht : m.transpose = some t) : 0 < r := by
  rcases Nat.eq_zero_or_pos r with h | h
  · exfalso
    have hlen : m.data.length = 0 := by rw [hm.1, h]
    have : m.data = [] := List.length_eq_zero.mp hlen
    simp [Matrix.transpose, Matrix.row, this] at ht
  · exact h

/-- The estimator of `main` as a value: with a non-singular Gram matrix it is defined, of
shape `(P + 1) × Q`, and equals `G⁻¹ Xᵀ Y` for the left inverse `G⁻¹` found by `invert`. -/
theorem fit_toQ {N P Q : ℕ} {X Y G : Matrix} (hX : HasShape N (P + 1) X)
    (hY : HasShape N Q Y)
    (hG : (X.transpose.bind fun xt => xt.multiply X) = some G)
    (hns : Nonsingular (P + 1) G) :
    ∃ (B : Matrix) (J : QMat (P + 1) (P + 1)), fit X Y = some B ∧ HasShape (P + 1) Q B ∧
      0 < N ∧ J * ((toQ N (P + 1) X).transpose * toQ N (P + 1) X) = 1 ∧
      toQ (P + 1) Q B = J * (toQ N (P + 1) X).transpose * toQ N Q Y := by
  cases hxt : X.transpose with
  | none => simp [hxt] at hG
  | some xt =>
    have hN : 0 < N := pos_of_row_zero hX hxt
    obtain ⟨xt', hxt', hsxt, hqxt⟩ := transpose_toQ hX hN
    rw [hxt] at hxt'
    obtain rfl : xt = xt' := Option.some.inj hxt'
    obtain ⟨g, hg, hsg, hqg⟩ := multiply_toQ hsxt hX hN
    have hGg : G = g := by
      rw [hxt] at hG
      simp only [Option.some_bind] at hG
      rw [hg] at hG
      exact (Option.some.inj hG).symm
    subst hGg
    obtain ⟨gi, hgi, hsgi, hqgi⟩ := invert_spec hsg hns
    obtain ⟨m1, hm1, hsm1, hqm1⟩ := multiply_toQ hsgi hsxt (Nat.succ_pos P)
    obtain ⟨B, hB, hsB, hqB⟩ := multiply_toQ hsm1 hY hN
    refine ⟨B, toQ (P + 1) (P + 1) gi, ?_, hsB, hN, ?_, ?_⟩
    · simp [fit, hxt, hg, hgi, hm1, hB]
    · rw [← hqxt, ← hqg]; exact hqgi
    · rw [hqB, hqm1, hqxt]

/-- The squared residual error as a sum over the entries of a Mathlib matrix. -/
theorem sqError_eq {N Q : ℕ} (p y : Matrix) :
    sqError N Q p y = ∑ i : Fin N, ∑ j : Fin Q, ((toQ N Q p - toQ N Q y) i j) ^ 2 := by
  unfold sqError
  rw [← Fin.sum_univ_eq_sum_range
    (fun i => ∑ j in Finset.range Q, (entry p i j - entry y i j) ^ 2) N]
  apply Finset.sum_congr rfl
  intro i _
  rw [← Fin.sum_univ_eq_sum_range (fun j => (entry p i j - entry y i j) ^ 2) Q]
  rfl

/-- Least squares: a residual orthogonal to the columns of `A` is the shortest one. -/
theorem sum_sq_le_of_orthogonal {N P Q : ℕ} (A : QMat N P) (R : QMat N Q) (D : QMat P Q)
    (horth : A.transpose * R = 0) :
    ∑ i : Fin N, ∑ j : Fin Q, (R i j) ^ 2 ≤ ∑ i : Fin N, ∑ j : Fin Q, ((R + A * D) i j) ^ 2 := by
  have hcross : ∑ i : Fin N, ∑ j : Fin Q, R i j * (A * D) i j = 0 := by
    have h1 : ∀ (k : Fin P) (j : Fin Q), ∑ i : Fin N, A i k * R i j = 0 := by
      intro k j
      have := congrFun (congrFun horth k) j
      simpa [Matrix.mul_apply, Matrix.transpose_apply] using this
    calc ∑ i : Fin N, ∑ j : Fin Q, R i j * (A * D) i j
        = ∑ i : Fin N, ∑ j : Fin Q, ∑ k : Fin P, D k j * (A i k * R i j) := by
          apply Finset.sum_congr rfl; intro i _
          apply Finset.sum_congr rfl; intro j _
          rw [Matrix.mul_apply, Finset.mul_sum]
          apply Finset.sum_congr rfl; intro k _
          ring
      _ = ∑ j : Fin Q, ∑ k : Fin P, ∑ i : Fin N, D k j * (A i k * R i j) := by
          rw [Finset.sum_comm]
          apply Finset.sum_congr rfl; intro j _
          rw [Finset.sum_comm]
      _ = 0 := by
          apply Finset.sum_eq_zero; intro j _
          apply Finset.sum_eq_zero; intro k _
          rw [← Finset.mul_sum, h1 k j, mul_zero]
  have hexp : ∑ i : Fin N, ∑ j : Fin Q, ((R + A * D) i j) ^ 2
      = ∑ i : Fin N, ∑ j : Fin Q, (R i j) ^ 2
        + 2 * ∑ i : Fin N, ∑ j : Fin Q, R i j * (A * D) i j
        + ∑ i : Fin N, ∑ j : Fin Q, ((A * D) i j) ^ 2 := by
    rw [Finset.mul_sum, ← Finset.sum_add_distrib, ← Finset.sum_add_distrib]
    apply Finset.sum_congr rfl; intro i _
    rw [Finset.mul_sum, ← Finset.sum_add_distrib, ← Finset.sum_add_distrib]
    apply Finset.sum_congr rfl; intro j _
    rw [Matrix.add_apply]; ring
  rw [hexp, hcross]
  have : 0 ≤ ∑ i : Fin N, ∑ j : Fin Q, ((A * D) i j) ^ 2 :=
    Finset.sum_nonneg fun i _ => Finset.sum_nonneg fun j _ => sq_nonneg _
  linarith

/-- From `invert`'s left inverse to the two-sided statement used by the claims: the
product `M * invert M` and the double inverse, as Mathlib matrices. -/
theorem invert_two_sided {n : ℕ} {M : Matrix} (hM : HasShape n n M) (hdet : Nonsingular n M) :
    ∃ iv, M.invert = some iv ∧ HasShape n n iv ∧ Nonsingular n iv ∧
      toQ n n iv * toQ n n M = 1 ∧ toQ n n M * toQ n n iv = 1 := by
  obtain ⟨iv, hiv, hs, hq⟩ := invert_spec hM hdet
  refine ⟨iv, hiv, hs, ?_, hq, Matrix.mul_eq_one_comm.mp hq⟩
  intro h0
  have := congrArg Matrix.det hq
  rw [Matrix.det_mul, h0, zero_mul, Matrix.det_one] at this
  exact zero_ne_one this

/-- Recovery of the coefficients from noiseless data, the computation behind the
regression claims. -/
theorem fit_noiseless {N P Q : ℕ} {X B Y G : Matrix} (hX : HasShape N (P + 1) X)
    (hB : HasShape (P + 1) Q B)
    (hG : (X.transpose.bind fun xt => xt.multiply X) = some G)
    (hns : Nonsingular (P + 1) G) (hY : X.multiply B = some Y) : fit X Y = some B := by
  obtain ⟨Y', hY', hsY, hqY⟩ := multiply_toQ hX hB (Nat.succ_pos P)
  rw [hY] at hY'
  obtain rfl : Y = Y' := Option.some.inj hY'
  obtain ⟨B', J, hfit, hsB', _, hJ, hqB'⟩ := fit_toQ hX hsY hG hns
  have : B' = B := by
    apply toQ_injective hsB' hB
    rw [hqB', hqY, Matrix.mul_assoc, ← Matrix.mul_assoc (toQ N (P + 1) X).transpose,
      ← Matrix.mul_assoc, hJ, Matrix.one_mul]
  rw [hfit, this]

/-! ## The claims -/

/-- C1: for every `n ≥ 1` and every non-singular `n × n` matrix `M` (rational entries),
`M.invert()` returns a matrix and `M.multiply(M.invert())` is the `n × n` identity. -/
theorem C1_multiply_invert_is_identity (n : ℕ) (M : Matrix) (hn : 1 ≤ n)
    (hM : HasShape n n M) (hdet : Nonsingular n M) :
    ∃ iv, M.invert = some iv ∧ M.multiply iv = some (identity n) := by
  obtain ⟨iv, hiv, hs, _, _, hq⟩ := invert_two_sided hM hdet
  obtain ⟨m, hm, hsm, hqm⟩ := multiply_toQ hM hs hn
  refine ⟨iv, hiv, ?_⟩
  rw [hm]
  congr 1
  apply toQ_injective hsm (hasShape_identity n)
  rw [hqm, hq, toQ_identity]

/-- C1 at the matrix `[[2, 1], [1, 1]]`. -/
theorem C1_multiply_invert_is_identity_witness :
    HasShape 2 2 ⟨[[2, 1], [1, 1]]⟩ ∧ Nonsingular 2 ⟨[[2, 1], [1, 1]]⟩ ∧
      ∃ iv, (Matrix.mk [[2, 1], [1, 1]]).invert = some iv ∧
        (Matrix.mk [[2, 1], [1, 1]]).multiply iv = some (identity 2) :=
  have hs : HasShape 2 2 ⟨[[2, 1], [1, 1]]⟩ := by decide
  have hd : Nonsingular 2 ⟨[[2, 1], [1, 1]]⟩ := by
    unfold Nonsingular
    rw [Matrix.det_fin_two]
    decide!
  ⟨hs, hd, C1_multiply_invert_is_identity 2 ⟨[[2, 1], [1, 1]]⟩ (by decide) hs hd⟩

/-- C2: for every `N × (P + 1)` matrix `X` whose Gram matrix
`X.transpose().multiply(X)` is non-singular, every `(P + 1) × Q` matrix `B_true` and
`Y = X.multiply(B_true)`, the fit
`X.transpose().multiply(X).invert().multiply(X.transpose()).multiply(Y)` is `B_true`. -/
theorem C2_fit_recovers_coefficients (N P Q : ℕ) (X B_true Y G : Matrix)
    (hX : HasShape N (P + 1) X) (hB : HasShape (P + 1) Q B_true)
    (hG : (X.transpose.bind fun xt => xt.multiply X) = some G)
    (hns : Nonsingular (P + 1) G) (hY : X.multiply B_true = some Y) :
    fit X Y = some B_true :=
  fit_noiseless hX hB hG hns hY

/-- C2 at `X = [[1, 1], [1, 2], [1, 3]]` and `B_true = [[0], [2]]`. -/
theorem C2_fit_recovers_coefficients_witness :
    HasShape 3 2 ⟨[[1, 1], [1, 2], [1, 3]]⟩ ∧ HasShape 2 1 ⟨[[0], [2]]⟩ ∧
      ((Matrix.mk [[1, 1], [1, 2], [1, 3]]).transpose.bind fun xt =>
        xt.multiply ⟨[[1, 1], [1, 2], [1, 3]]⟩) = some ⟨[[3, 6], [6, 14]]⟩ ∧
      Nonsingular 2 ⟨[[3, 6], [6, 14]]⟩ ∧
      (Matrix.mk [[1, 1], [1, 2], [1, 3]]).multiply ⟨[[0], [2]]⟩ = some ⟨[[2], [4], [6]]⟩ ∧
      fit ⟨[[1, 1], [1, 2], [1, 3]]⟩ ⟨[[2], [4], [6]]⟩ = some ⟨[[0], [2]]⟩ :=
  have hX : HasShape 3 2 ⟨[[1, 1], [1, 2], [1, 3]]⟩ := by decide
  have hB : HasShape 2 1 ⟨[[0], [2]]⟩ := by decide
  have hG : ((Matrix.mk [[1, 1], [1, 2], [1, 3]]).transpose.bind fun xt =>
      xt.multiply ⟨[[1, 1], [1, 2], [1, 3]]⟩) = some ⟨[[3, 6], [6, 14]]⟩ := by decide!
  have hd : Nonsingular 2 ⟨[[3, 6], [6, 14]]⟩ := by
    unfold Nonsingular
    rw [Matrix.det_fin_two]
    decide!
  have hY : (Matrix.mk [[1, 1], [1, 2], [1, 3]]).multiply ⟨[[0], [2]]⟩
      = some ⟨[[2], [4], [6]]⟩ := by decide!
  ⟨hX, hB, hG, hd, hY, C2_fit_recovers_coefficients 3 1 1 _ _ _ _ hX hB hG hd hY⟩

/-- C3: for every `N × (P + 1)` matrix `X` with non-singular Gram matrix and every
`N × Q` matrix `Y`, the fitted `B` is defined and minimises the squared residual error:
the sum of the squares of the entries of `X.multiply(B) - Y` is at most that of
`X.multiply(B') - Y` for every `(P + 1) × Q` matrix `B'`. -/
theorem C3_fit_minimises_squared_error (N P Q : ℕ) (X Y G : Matrix)
    (hX : HasShape N (P + 1) X) (hY : HasShape N Q Y)
    (hG : (X.transpose.bind fun xt => xt.multiply X) = some G)
    (hns : Nonsingular (P + 1) G) :
    ∃ B XB, fit X Y = some B ∧ X.multiply B = some XB ∧
      ∀ B', HasShape (P + 1) Q B' →
        ∃ XB', X.multiply B' = some XB' ∧ sqError N Q XB Y ≤ sqError N Q XB' Y := by
  obtain ⟨B, J, hfit, hsB, _, hJ, hqB⟩ := fit_toQ hX hY hG hns
  obtain ⟨XB, hXB, hsXB, hqXB⟩ := multiply_toQ hX hsB (Nat.succ_pos P)
  refine ⟨B, XB, hfit, hXB, ?_⟩
  intro B' hsB'
  obtain ⟨XB', hXB', hsXB', hqXB'⟩ := multiply_toQ hX hsB' (Nat.succ_pos P)
  refine ⟨XB', hXB', ?_⟩
  rw [sqError_eq, sqError_eq, hqXB, hqXB']
  have hJ' := Matrix.mul_eq_one_comm.mp hJ
  have horth : (toQ N (P + 1) X).transpose *
      (toQ N (P + 1) X * toQ (P + 1) Q B - toQ N Q Y) = 0 := by
    rw [Matrix.mul_sub, ← Matrix.mul_assoc, hqB, ← Matrix.mul_assoc, ← Matrix.mul_assoc,
      hJ', Matrix.one_mul, sub_self]
  have hdecomp : toQ N (P + 1) X * toQ (P + 1) Q B' - toQ N Q Y
      = (toQ N (P + 1) X * toQ (P + 1) Q B - toQ N Q Y)
        + toQ N (P + 1) X * (toQ (P + 1) Q B' - toQ (P + 1) Q B) := by
    rw [Matrix.mul_sub]; abel
  rw [hdecomp]
  exact sum_sq_le_of_orthogonal _ _ _ horth

/-- C3 at `X = [[1, 1], [1, 2], [1, 3]]` and the targets `Y = [[1], [2], [2]]`, which
lie on no line. -/
theorem C3_fit_minimises_squared_error_witness :
    HasShape 3 2 ⟨[[1, 1], [1, 2], [1, 3]]⟩ ∧ HasShape 3 1 ⟨[[1], [2], [2]]⟩ ∧
      Nonsingular 2 ⟨[[3, 6], [6, 14]]⟩ ∧
      ∃ B XB, fit ⟨[[1, 1], [1, 2], [1, 3]]⟩ ⟨[[1], [2], [2]]⟩ = some B ∧
        (Matrix.mk [[1, 1], [1, 2], [1, 3]]).multiply B = some XB ∧
        ∀ B', HasShape 2 1 B' →
          ∃ XB', (Matrix.mk [[1, 1], [1, 2], [1, 3]]).multiply B' = some XB' ∧
            sqError 3 1 XB ⟨[[1], [2], [2]]⟩ ≤ sqError 3 1 XB' ⟨[[1], [2], [2]]⟩ :=
  have hX : HasShape 3 2 ⟨[[1, 1], [1, 2], [1, 3]]⟩ := by decide
  have hY : HasShape 3 1 ⟨[[1], [2], [2]]⟩ := by decide
  have hG : ((Matrix.mk [[1, 1], [1, 2], [1, 3]]).transpose.bind fun xt =>
      xt.multiply ⟨[[1, 1], [1, 2], [1, 3]]⟩) = some ⟨[[3, 6], [6, 14]]⟩ := by decide!
  have hd : Nonsingular 2 ⟨[[3, 6], [6, 14]]⟩ := by
    unfold Nonsingular
    rw [Matrix.det_fin_two]
    decide!
  ⟨hX, hY, hd, C3_fit_minimises_squared_error 3 1 1 _ _ _ hX hY hG hd⟩

/-- C5: for every rectangular matrix `M` with `r ≥ 1` rows and `c` columns,
`M.transpose()` has shape `(c, r)` and its entry `(j, i)` is `M[i][j]` for all `i < r`
and `j < c`. -/
theorem C5_transpose_entries (r c : ℕ) (M : Matrix) (hr : 1 ≤ r) (hM : HasShape r c M) :
    ∃ t, M.transpose = some t ∧ HasShape c r t ∧
      ∀ i j, i < r → j < c → t.get j i = M.get i j := by
  obtain ⟨t, ht, hs, he⟩ := transpose_spec hM hr
  refine ⟨t, ht, hs, ?_⟩
  intro i j hi hj
  rw [hs.get_eq hj hi, hM.get_eq hi hj, he i j hi hj]

/-- C5 at `M = [[1, 2, 3], [4, 5, 6]]`. -/
theorem C5_transpose_entries_witness :
    HasShape 2 3 ⟨[[1, 2, 3], [4, 5, 6]]⟩ ∧
      ∃ t, (Matrix.mk [[1, 2, 3], [4, 5, 6]]).transpose = some t ∧ HasShape 3 2 t ∧
        ∀ i j, i < 2 → j < 3 → t.get j i = (Matrix.mk [[1, 2, 3], [4, 5, 6]]).get i j :=
  ⟨by decide, C5_transpose_entries 2 3 _ (by decide) (by decide)⟩

/-- C6, as stated, fails: the matrix with one row and no column, `Matrix(1, 0)`, is
transposed to a matrix without rows, and transposing that one reads `data[0]` outside
the vector, so `M.transpose().transpose()` is not defined. -/
theorem C6_zero_columns_counterexample :
    HasShape 1 0 (Matrix.sized 1 0) ∧
      (Matrix.sized 1 0).transpose = some Matrix.empty ∧
      Matrix.empty.transpose = none ∧
      ((Matrix.sized 1 0).transpose.bind fun t => t.transpose) ≠ some (Matrix.sized 1 0) := by
  decide

/-- C6, amended: for every rectangular matrix `M` with at least one row and at least one
column, `M.transpose().transpose()` is defined and equals `M`, shape and entries. -/
theorem C6_transpose_involutive (r c : ℕ) (M : Matrix) (hr : 1 ≤ r) (hc : 1 ≤ c)
    (hM : HasShape r c M) : (M.transpose.bind fun t => t.transpose) = some M := by
  obtain ⟨t, ht, hs, he⟩ := transpose_spec hM hr
  obtain ⟨u, hu, hsu, heu⟩ := transpose_spec hs hc
  rw [ht, Option.some_bind, hu]
  congr 1
  apply hsu.ext hM
  intro i j hi hj
  rw [heu j i hj hi, he i j hi hj]

/-- C6, amended, at `M = [[1, 2, 3], [4, 5, 6]]`. -/
theorem C6_transpose_involutive_witness :
    HasShape 2 3 ⟨[[1, 2, 3], [4, 5, 6]]⟩ ∧
      ((Matrix.mk [[1, 2, 3], [4, 5, 6]]).transpose.bind fun t => t.transpose)
        = some ⟨[[1, 2, 3], [4, 5, 6]]⟩ :=
  ⟨by decide, C6_transpose_involutive 2 3 _ (by decide) (by decide) (by decide)⟩

/-- C7: for matrices `A` (`m × n`), `B` (`n × p`), `C` (`p × q`) with `m, n, p, q ≥ 1`,
both `(A.multiply(B)).multiply(C)` and `A.multiply(B.multiply(C))` are defined and they
are equal.  Of the four bounds only `n ≥ 1` and `p ≥ 1` are used. -/
theorem C7_multiply_associative (m n p q : ℕ) (A B C : Matrix) (hn : 1 ≤ n)
    (hp : 1 ≤ p) (hA : HasShape m n A) (hB : HasShape n p B) (hC : HasShape p q C) :
    ∃ R, ((A.multiply B).bind fun ab => ab.multiply C) = some R ∧
      ((B.multiply C).bind fun bc => A.multiply bc) = some R := by
  obtain ⟨ab, hab, hsab, hqab⟩ := multiply_toQ hA hB hn
  obtain ⟨l, hl, hsl, hql⟩ := multiply_toQ hsab hC hp
  obtain ⟨bc, hbc, hsbc, hqbc⟩ := multiply_toQ hB hC hp
  obtain ⟨rr, hrr, hsrr, hqrr⟩ := multiply_toQ hA hsbc hn
  refine ⟨l, by rw [hab, Option.some_bind, hl], ?_⟩
  rw [hbc, Option.some_bind, hrr]
  congr 1
  apply toQ_injective hsrr hsl
  rw [hqrr, hqbc, hql, hqab, Matrix.mul_assoc]

/-- C7 at `A = [[1, 2]]`, `B = [[3], [4]]`, `C = [[5, 6]]`. -/
theorem C7_multiply_associative_witness :
    HasShape 1 2 ⟨[[1, 2]]⟩ ∧ HasShape 2 1 ⟨[[3], [4]]⟩ ∧ HasShape 1 2 ⟨[[5, 6]]⟩ ∧
      ∃ R, (((Matrix.mk [[1, 2]]).multiply ⟨[[3], [4]]⟩).bind fun ab =>
          ab.multiply ⟨[[5, 6]]⟩) = some R ∧
        (((Matrix.mk [[3], [4]]).multiply ⟨[[5, 6]]⟩).bind fun bc =>
          (Matrix.mk [[1, 2]]).multiply bc) = some R :=
  ⟨by decide, by decide, by decide,
    C7_multiply_associative 1 2 1 2 _ _ _ (by decide) (by decide) (by decide) (by decide)
      (by decide)⟩

/-- C8: for every `n ≥ 1` and every non-singular `n × n` matrix `M` (rational entries),
`M.invert().invert()` is defined and equals `M`.  The bound `n ≥ 1` is not used. -/
theorem C8_invert_involutive (n : ℕ) (M : Matrix) (hM : HasShape n n M)
    (hdet : Nonsingular n M) : (M.invert.bind fun iv => iv.invert) = some M := by
  obtain ⟨iv, hiv, hs, hns, hq, _⟩ := invert_two_sided hM hdet
  obtain ⟨iv2, hiv2, hs2, _, hq2, _⟩ := invert_two_sided hs hns
  rw [hiv, Option.some_bind, hiv2]
  congr 1
  apply toQ_injective hs2 hM
  calc toQ n n iv2 = toQ n n iv2 * (toQ n n iv * toQ n n M) := by rw [hq, Matrix.mul_one]
    _ = toQ n n M := by rw [← Matrix.mul_assoc, hq2, Matrix.one_mul]

/-- C8 at the matrix `[[0, 1], [1, 1]]`, whose first pivot needs a row exchange. -/
theorem C8_invert_involutive_witness :
    HasShape 2 2 ⟨[[0, 1], [1, 1]]⟩ ∧ Nonsingular 2 ⟨[[0, 1], [1, 1]]⟩ ∧
      ((Matrix.mk [[0, 1], [1, 1]]).invert.bind fun iv => iv.invert)
        = some ⟨[[0, 1], [1, 1]]⟩ :=
  have hs : HasShape 2 2 ⟨[[0, 1], [1, 1]]⟩ := by decide
  have hd : Nonsingular 2 ⟨[[0, 1], [1, 1]]⟩ := by
    unfold Nonsingular
    rw [Matrix.det_fin_two]
    decide!
  ⟨hs, hd, C8_invert_involutive 2 _ hs hd⟩

/-- C9: on the data file `3 1 1 / 1 2 / 2 4 / 3 6 / 1 / 4`, `main` builds the design
matrix `[[1, 1], [1, 2], [1, 3]]` (a constant `1` before each input) and the targets
`[[2], [4], [6]]`, fits `B = [[0], [2]]`, builds the prediction row `[[1, 4]]` and
prints `[[8]]`; and so do the estimator and the prediction on these matrices. -/
theorem C9_end_to_end_scenario :
    main [3, 1, 1, 1, 2, 2, 4, 3, 6, 1, 4]
        = some ⟨⟨[[1, 1], [1, 2], [1, 3]]⟩, ⟨[[2], [4], [6]]⟩, ⟨[[0], [2]]⟩, ⟨[[1, 4]]⟩,
            ⟨[[8]]⟩⟩ ∧
      fit ⟨[[1, 1], [1, 2], [1, 3]]⟩ ⟨[[2], [4], [6]]⟩ = some ⟨[[0], [2]]⟩ ∧
      predict ⟨[[1, 4]]⟩ ⟨[[0], [2]]⟩ = some ⟨[[8]]⟩ := by
  decide!

/-- C10, as stated, fails: with `A = [[1, 2]]` (2 columns) and `B = [[1], [1], [1]]`
(3 rows), `A.multiply(B)` returns the matrix `[[3]]`. -/
theorem C10_mismatch_counterexample :
    HasShape 1 2 ⟨[[1, 2]]⟩ ∧ HasShape 3 1 ⟨[[1], [1], [1]]⟩ ∧
      (Matrix.mk [[1, 2]]).multiply ⟨[[1], [1], [1]]⟩ = some ⟨[[3]]⟩ := by
  decide!

/-- C11: for every `n ≥ 1` and every `n × n` matrix `M`, singular ones included,
`M.invert()` stays inside its vectors, takes no error branch (there is none) and returns
an `n × n` matrix.  The bound `n ≥ 1` is not used. -/
theorem C11_invert_ignores_singularity (n : ℕ) (M : Matrix) (hM : HasShape n n M) :
    ∃ iv, M.invert = some iv ∧ HasShape n n iv :=
  invert_total hM

/-- C11 at the singular matrix `[[1, 2], [0, 0]]`, which has a zero row. -/
theorem C11_invert_ignores_singularity_witness :
    HasShape 2 2 ⟨[[1, 2], [0, 0]]⟩ ∧ ¬ Nonsingular 2 ⟨[[1, 2], [0, 0]]⟩ ∧
      ∃ iv, (Matrix.mk [[1, 2], [0, 0]]).invert = some iv ∧ HasShape 2 2 iv :=
  have hs : HasShape 2 2 ⟨[[1, 2], [0, 0]]⟩ := by decide
  have hd : ¬ Nonsingular 2 ⟨[[1, 2], [0, 0]]⟩ := by
    unfold Nonsingular
    rw [Matrix.det_fin_two]
    decide!
  ⟨hs, hd, C11_invert_ignores_singularity 2 _ hs⟩

/-- C13: for every `N ≥ 1` and every `N × (P + 1)` matrix `X` and `N × Q` matrix `Y`,
whether the Gram matrix is singular or not, the fitted `B` is defined and rectangular of
shape `(P + 1) × Q`, and for every `K × (P + 1)` matrix `PX` the prediction
`PX.multiply(B)` has shape `K × Q`.  The bounds `Q ≥ 1` and `K ≥ 1` are not used. -/
theorem C13_pipeline_shapes (N P Q : ℕ) (X Y : Matrix) (hN : 1 ≤ N)
    (hX : HasShape N (P + 1) X) (hY : HasShape N Q Y) :
    ∃ B, fit X Y = some B ∧ HasShape (P + 1) Q B ∧
      ∀ K PX, HasShape K (P + 1) PX → ∃ PY, predict PX B = some PY ∧ HasShape K Q PY := by
  obtain ⟨xt, hxt, hsxt, _⟩ := transpose_spec hX hN
  obtain ⟨g, hg, hsg, _⟩ := multiply_spec hsxt hX (le_refl N) hN
  obtain ⟨gi, hgi, hsgi⟩ := invert_total hsg
  obtain ⟨m1, hm1, hsm1, _⟩ := multiply_spec hsgi hsxt (le_refl _) (Nat.succ_pos P)
  obtain ⟨B, hB, hsB, _⟩ := multiply_spec hsm1 hY (le_refl N) hN
  refine ⟨B, by simp [fit, hxt, hg, hgi, hm1, hB], hsB, ?_⟩
  intro K PX hPX
  obtain ⟨PY, hPY, hsPY, _⟩ := multiply_spec hPX hsB (le_refl _) (Nat.succ_pos P)
  exact ⟨PY, hPY, hsPY⟩

/-- C13 at `X = [[1, 1], [1, 1]]`, whose Gram matrix is singular, and `Y = [[1], [2]]`. -/
theorem C13_pipeline_shapes_witness :
    HasShape 2 2 ⟨[[1, 1], [1, 1]]⟩ ∧ HasShape 2 1 ⟨[[1], [2]]⟩ ∧
      ∃ B, fit ⟨[[1, 1], [1, 1]]⟩ ⟨[[1], [2]]⟩ = some B ∧ HasShape 2 1 B ∧
        ∀ K PX, HasShape K 2 PX → ∃ PY, predict PX B = some PY ∧ HasShape K 1 PY :=
  ⟨by decide, by decide, C13_pipeline_shapes 2 1 1 _ _ (by decide) (by decide) (by decide)⟩

/-- C17: for every `N × (P + 1)` matrix `X` with non-singular Gram matrix
`G = X.transpose().multiply(X)` and every `N × Q` matrix `Y`, the fitted `B` satisfies the
normal equations: `G.multiply(B)` and `X.transpose().multiply(Y)` are defined and
equal. -/
theorem C17_normal_equations (N P Q : ℕ) (X Y G : Matrix)
    (hX : HasShape N (P + 1) X) (hY : HasShape N Q Y)
    (hG : (X.transpose.bind fun xt => xt.multiply X) = some G)
    (hns : Nonsingular (P + 1) G) :
    ∃ B R, fit X Y = some B ∧ G.multiply B = some R ∧
      (X.transpose.bind fun xt => xt.multiply Y) = some R := by
  obtain ⟨B, J, hfit, hsB, hN, hJ, hqB⟩ := fit_toQ hX hY hG hns
  obtain ⟨xt, hxt, hsxt, hqxt⟩ := transpose_toQ hX hN
  obtain ⟨g, hg, hsg, hqg⟩ := multiply_toQ hsxt hX hN
  have hGg : G = g := by
    rw [hxt, Option.some_bind, hg] at hG
    exact (Option.some.inj hG).symm
  subst hGg
  obtain ⟨R, hR, hsR, hqR⟩ := multiply_toQ hsg hsB (Nat.succ_pos P)
  obtain ⟨R', hR', hsR', hqR'⟩ := multiply_toQ hsxt hY hN
  refine ⟨B, R, hfit, hR, ?_⟩
  rw [hxt, Option.some_bind, hR']
  congr 1
  apply toQ_injective hsR' hsR
  have hJ' := Matrix.mul_eq_one_comm.mp hJ
  rw [hqR, hqR', hqB, hqg, hqxt, ← Matrix.mul_assoc, ← Matrix.mul_assoc, hJ', Matrix.one_mul]

/-- C17 at `X = [[1, 1], [1, 2], [1, 3]]` and `Y = [[1], [2], [2]]`. -/
theorem C17_normal_equations_witness :
    HasShape 3 2 ⟨[[1, 1], [1, 2], [1, 3]]⟩ ∧ HasShape 3 1 ⟨[[1], [2], [2]]⟩ ∧
      Nonsingular 2 ⟨[[3, 6], [6, 14]]⟩ ∧
      ∃ B R, fit ⟨[[1, 1], [1, 2], [1, 3]]⟩ ⟨[[1], [2], [2]]⟩ = some B ∧
        (Matrix.mk [[3, 6], [6, 14]]).multiply B = some R ∧
        ((Matrix.mk [[1, 1], [1, 2], [1, 3]]).transpose.bind fun xt =>
          xt.multiply ⟨[[1], [2], [2]]⟩) = some R :=
  have hX : HasShape 3 2 ⟨[[1, 1], [1, 2], [1, 3]]⟩ := by decide
  have hY : HasShape 3 1 ⟨[[1], [2], [2]]⟩ := by decide
  have hG : ((Matrix.mk [[1, 1], [1, 2], [1, 3]]).transpose.bind fun xt =>
      xt.multiply ⟨[[1, 1], [1, 2], [1, 3]]⟩) = some ⟨[[3, 6], [6, 14]]⟩ := by decide!
  have hd : Nonsingular 2 ⟨[[3, 6], [6, 14]]⟩ := by
    unfold Nonsingular
    rw [Matrix.det_fin_two]
    decide!
  ⟨hX, hY, hd, C17_normal_equations 3 1 1 _ _ _ hX hY hG hd⟩

/-- C18: for every `n ≥ 1` and every `n × n` matrix `M`, singular or not, after each
number `k ≤ n` of iterations of the forward elimination, started on the copy of `M` and
the identity, the accumulated `I` and the working copy `C` satisfy
`I.multiply(M) == C`, and every entry of `C` strictly below the diagonal in the columns
`j < k` already processed is zero. -/
theorem C18_forward_elimination_invariant (n : ℕ) (M : Matrix) (hn : 1 ≤ n)
    (hM : HasShape n n M) (k : ℕ) (hk : k ≤ n) :
    ∃ I0 h C I, Matrix.identityInit n = some I0 ∧
      forwardIters n k M I0 = some (h, C, I) ∧ I.multiply M = some C ∧
      ∀ i j, j < k → j < i → i < n → C.get i j = some 0 := by
  obtain ⟨i0, hi0, hsi0, hei0⟩ := identityInit_spec n
  have hid : toQ n n i0 = 1 := by
    ext a b
    rw [toQ_apply, hei0 a b a.2, Matrix.one_apply]; simp only [Fin.ext_iff]
  obtain ⟨⟨h, C, I⟩, hst, _, ⟨hsC, hsI, hmul⟩, hlow⟩ := forwardIters_echelon hM hsi0 hid k hk
  simp only at hsC hsI hmul hlow
  obtain ⟨m, hm, hsm, hqm⟩ := multiply_toQ hsI hM hn
  refine ⟨i0, h, C, I, hi0, hst, ?_, ?_⟩
  · rw [hm]
    congr 1
    apply toQ_injective hsm hsC
    rw [hqm, hmul]
  · intro i j hj hji hi
    rw [hsC.get_eq hi (by omega), hlow i j hj hi (Or.inr hji)]

/-- C18 at the singular matrix `M = [[0, 1], [0, 2]]` after both iterations. -/
theorem C18_forward_elimination_invariant_witness :
    HasShape 2 2 ⟨[[0, 1], [0, 2]]⟩ ∧ ¬ Nonsingular 2 ⟨[[0, 1], [0, 2]]⟩ ∧
      ∃ I0 h C I, Matrix.identityInit 2 = some I0 ∧
        forwardIters 2 2 ⟨[[0, 1], [0, 2]]⟩ I0 = some (h, C, I) ∧
        I.multiply ⟨[[0, 1], [0, 2]]⟩ = some C ∧
        ∀ i j, j < 2 → j < i → i < 2 → C.get i j = some 0 :=
  have hs : HasShape 2 2 ⟨[[0, 1], [0, 2]]⟩ := by decide
  have hd : ¬ Nonsingular 2 ⟨[[0, 1], [0, 2]]⟩ := by
    unfold Nonsingular
    rw [Matrix.det_fin_two]
    decide!
  ⟨hs, hd, C18_forward_elimination_invariant 2 _ (by decide) hs 2 (by decide)⟩

/-- C19: in the prediction phase of `main`, with the shared buffer `inputs` of length
`entry_count * input_count` (`input_count ≥ 1` after its increment), every index
`i * input_count + j` with `i < prediction_count` and `j < input_count` lies inside the
buffer if and only if `prediction_count ≤ entry_count`.  On the code: when
`prediction_count ≤ entry_count` (and the file holds the predictions) the prediction loop
and the `Matrix` constructor stay inside the buffer and build a
`prediction_count × input_count` matrix; when `prediction_count > entry_count` the loop
writes outside the buffer. -/
theorem C19_prediction_buffer_safety (entry_count input_count prediction_count : ℕ)
    (inputs : List ℚ) (hic : 1 ≤ input_count)
    (hlen : inputs.length = entry_count * input_count) :
    ((∀ i j, i < prediction_count → j < input_count →
        i * input_count + j < inputs.length) ↔ prediction_count ≤ entry_count) ∧
    (prediction_count ≤ entry_count → ∀ file : List ℚ,
      prediction_count * (input_count - 1) ≤ file.length →
      ∃ st px, readPredictions prediction_count input_count (file, inputs) = some st ∧
        Matrix.ofValues prediction_count input_count st.2 = some px ∧
        HasShape prediction_count input_count px) ∧
    (entry_count < prediction_count → ∀ file : List ℚ,
      readPredictions prediction_count input_count (file, inputs) = none) := by
  refine ⟨⟨?_, ?_⟩, ?_, ?_⟩
  · intro h
    by_contra hlt
    have := h entry_count 0 (by omega) (by omega)
    rw [hlen] at this
    omega
  · intro hpc i j hi hj
    rw [hlen]
    exact index_lt_of_lt (by omega) hj
  · intro hpc file hfile
    obtain ⟨st, hst, hl⟩ := readPredictions_spec hic hlen hpc hfile
    obtain ⟨px, hpx, hs, _⟩ := ofValues_spec prediction_count input_count st.2
      (by rw [hl]; exact Nat.mul_le_mul_right input_count hpc)
    exact ⟨st, px, hst, hpx, hs⟩
  · intro hpc file
    exact readPredictions_overflow hlen hpc

/-- C19 with three entries of one input (`input_count = 2`), one prediction and a zeroed
buffer. -/
theorem C19_prediction_buffer_safety_witness :
    1 ≤ 2 ∧ (List.replicate 6 (0 : ℚ)).length = 3 * 2 ∧
      ((∀ i j, i < 1 → j < 2 → i * 2 + j < (List.replicate 6 (0 : ℚ)).length) ↔ 1 ≤ 3) ∧
      (1 ≤ 3 → ∀ file : List ℚ, 1 * (2 - 1) ≤ file.length →
        ∃ st px, readPredictions 1 2 (file, List.replicate 6 (0 : ℚ)) = some st ∧
          Matrix.ofValues 1 2 st.2 = some px ∧ HasShape 1 2 px) ∧
      (3 < 1 → ∀ file : List ℚ,
        readPredictions 1 2 (file, List.replicate 6 (0 : ℚ)) = none) :=
  ⟨by decide, by decide,
    C19_prediction_buffer_safety 3 2 1 (List.replicate 6 (0 : ℚ)) (by decide) (by decide)⟩

/-- C12: for `d ≥ 1` inputs, a step `s > 0` and requested functions whose arities do not
exceed `d`, `variable_loop` (with enough fuel, from any file and any vector `inputs` of
length `d`) returns and has appended to the file exactly the lines
`rowOf indices v`, the coordinates of `v` followed by the value of each requested
function in order, for the vectors `v` of `grid (axisValues m M s) d` in that order.
The points of `axisValues m M s` are exactly the `m + i * s ≤ M`, in increasing order;
the vectors of the grid are exactly the vectors of `d` such points, in strictly
increasing lexicographic order, so each occurs once; and the function values in the
lines are those returned by `function`. -/
theorem C12_generator_rows (d : ℕ) (m M s : ℚ) (indices : List ℤ) (hd : 1 ≤ d)
    (hs : 0 < s) (hA : ∀ index ∈ indices, arity index ≤ d) :
    (∀ x, x ∈ axisValues m M s ↔ ∃ i : ℕ, x = m + i * s ∧ x ≤ M) ∧
    (axisValues m M s).Pairwise (· < ·) ∧
    (∀ v, v ∈ grid (axisValues m M s) d ↔
      v.length = d ∧ ∀ x ∈ v, x ∈ axisValues m M s) ∧
    (grid (axisValues m M s) d).Pairwise (List.Lex (· < ·)) ∧
    (∀ v ∈ grid (axisValues m M s) d, ∀ index ∈ indices,
      function index v = some ((function index v).getD 0)) ∧
    ∃ F, ∀ fuel, F ≤ fuel → ∀ (file : List (List ℚ)) (inputs : List ℚ),
      inputs.length = d →
        ∃ inputs', variable_loop d m M s indices fuel 0 (file, inputs)
          = .done (file ++ (grid (axisValues m M s) d).map (rowOf indices), inputs') := by
  refine ⟨mem_axisValues hs, axisValues_increasing hs, mem_grid _ d,
    grid_lex_increasing (axisValues_increasing hs) d hd, ?_, axisCount m M s + 1 + d, ?_⟩
  · intro v hv index hi
    apply function_defined
    rw [((mem_grid _ d v).mp hv).1]
    exact hA index hi
  · intro fuel hfuel file inputs hlen
    rcases variable_loop_spec d m M s indices hs d 0 (by omega) fuel hfuel file inputs hlen with
      ⟨_, hn⟩ | ⟨file', inputs', hdone, _, _, hrows⟩
    · exact absurd hA hn
    · refine ⟨inputs', ?_⟩
      rw [hdone, hrows hA]
      simp

/-- C12 at `d = 1`, `m = 0`, `M = 2`, `s = 1` and function `0`: the lines are `0 0`,
`1 1`, `2 2`. -/
theorem C12_generator_rows_witness :
    (grid (axisValues 0 2 1) 1).map (rowOf [0]) = [[0, 0], [1, 1], [2, 2]] ∧
      generate 1 0 2 1 [0] 5 = .done ([[0, 0], [1, 1], [2, 2]], [3]) ∧
      ∃ F, ∀ fuel, F ≤ fuel → ∀ (file : List (List ℚ)) (inputs : List ℚ),
        inputs.length = 1 →
          ∃ inputs', variable_loop 1 0 2 1 [0] fuel 0 (file, inputs)
            = .done (file ++ (grid (axisValues 0 2 1) 1).map (rowOf [0]), inputs') :=
  ⟨by decide!, by decide!,
    (C12_generator_rows 1 0 2 1 [0] (by decide) (by norm_num)
      (by intro index hi; rw [List.mem_singleton.mp hi]; decide)).2.2.2.2.2⟩

/-- C20: for every input count `d`, minimum `m`, maximum `M` and vector `inputs` of
length `d`: when the step `s` is positive, `variable_loop` ends with enough fuel (it
returns when every requested function finds its inputs, and otherwise stops at a read
outside `inputs`); and for `d ≥ 1` and `m ≤ M` it returns, for whatever fuel, only if
`s > 0`. -/
theorem C20_generator_termination (d : ℕ) (m M s : ℚ) (indices : List ℤ)
    (file : List (List ℚ)) (inputs : List ℚ) (hlen : inputs.length = d) :
    (0 < s → ∃ F, ∀ fuel, F ≤ fuel →
      variable_loop d m M s indices fuel 0 (file, inputs) ≠ .outOfFuel ∧
      ((∀ index ∈ indices, arity index ≤ d) →
        ∃ st', variable_loop d m M s indices fuel 0 (file, inputs) = .done st')) ∧
    (1 ≤ d → m ≤ M →
      (∃ fuel st', variable_loop d m M s indices fuel 0 (file, inputs) = .done st') →
      0 < s) := by
  constructor
  · intro hs
    refine ⟨axisCount m M s + 1 + d, ?_⟩
    intro fuel hfuel
    rcases variable_loop_spec d m M s indices hs d 0 (by omega) fuel hfuel file inputs hlen with
      ⟨hub, hn⟩ | ⟨file', inputs', hdone, _, _, _⟩
    · exact ⟨by rw [hub]; simp, fun hA => absurd hA hn⟩
    · exact ⟨by rw [hdone]; simp, fun _ => ⟨_, hdone⟩⟩
  · intro hd hmM ⟨fuel, st', hdone⟩
    by_contra hs
    exact variable_loop_never_returns d m M s indices hd hmM hs fuel file inputs hlen st' hdone

/-- C20 at `d = 1`, `m = 0`, `M = 2`, function `0` and the steps `1` and `0`: with step
`1` five units of fuel suffice, with step `0` no fuel does. -/
theorem C20_generator_termination_witness :
    ([0] : List ℚ).length = 1 ∧
      variable_loop 1 0 2 1 [0] 5 0 ([], [0]) = .done ([[0, 0], [1, 1], [2, 2]], [3]) ∧
      variable_loop 1 0 2 0 [0] 50 0 ([], [0]) = .outOfFuel ∧
      (1 ≤ 1 → (0 : ℚ) ≤ 2 →
        (∃ fuel st', variable_loop 1 0 2 0 [0] fuel 0 ([], [0]) = .done st') →
        (0 : ℚ) < 0) :=
  ⟨by decide, by decide!, by decide!,
    (C20_generator_termination 1 0 2 0 [0] [] [0] (by decide)).2⟩

/-! ## The class over an arbitrary arithmetic: shapes and entries -/

theorem over_shape_row {D : Type} {r c : ℕ} {m : MatrixOver D}
    (hm : MatrixOver.HasShape r c m) {i : ℕ} (hi : i < r) :
    ∃ ri, m.row i = some ri ∧ ri.length = c := by
  obtain ⟨h1, h2⟩ := hm
  have hlt : i < m.data.length := by omega
  refine ⟨m.data[i], ?_, h2 _ (List.getElem_mem _)⟩
  simp [MatrixOver.row, List.getElem?_eq_getElem hlt]

theorem over_shape_get {D : Type} (ar : Arith D) {r c : ℕ} {m : MatrixOver D}
    (hm : MatrixOver.HasShape r c m) {i j : ℕ} (hi : i < r) (hj : j < c) :
    m.get i j = some (MatrixOver.entry ar m i j) := by
  obtain ⟨ri, hri, hlen⟩ := over_shape_row hm hi
  have hlt : j < ri.length := by omega
  simp [MatrixOver.entry, MatrixOver.get, hri, List.getElem?_eq_getElem hlt]

theorem over_entry_of_row {D : Type} (ar : Arith D) {m : MatrixOver D} {i : ℕ} {ri : List D}
    (h : m.row i = some ri) (j : ℕ) : MatrixOver.entry ar m i j = ri.getD j ar.zero := by
  simp [MatrixOver.entry, MatrixOver.get, h, List.getD_eq_getElem?_getD]

theorem over_shape_setRow {D : Type} {r c : ℕ} {m : MatrixOver D}
    (hm : MatrixOver.HasShape r c m) {i : ℕ} (hi : i < r) (row : List D)
    (hrow : row.length = c) :
    ∃ m', m.setRow i row = some m' ∧ MatrixOver.HasShape r c m' ∧ m'.row i = some row ∧
      ∀ a, a ≠ i → m'.row a = m.row a := by
  obtain ⟨h1, h2⟩ := hm
  have hlt : i < m.data.length := by omega
  refine ⟨⟨m.data.set i row⟩, by simp [MatrixOver.setRow, hlt], ⟨by simp [h1], ?_⟩, ?_, ?_⟩
  · intro x hx
    rcases List.mem_or_eq_of_mem_set hx with h | h
    · exact h2 x h
    · rw [h]; exact hrow
  · simp [MatrixOver.row, hlt]
  · intro a ha
    simp [MatrixOver.row, List.getElem?_set_ne (Ne.symm ha)]

theorem over_shape_set {D : Type} (ar : Arith D) {r c : ℕ} {m : MatrixOver D}
    (hm : MatrixOver.HasShape r c m) {i j : ℕ} (hi : i < r) (hj : j < c) (v : D) :
    ∃ m', m.set i j v = some m' ∧ MatrixOver.HasShape r c m' ∧
      ∀ a b, MatrixOver.entry ar m' a b
        = if a = i ∧ b = j then v else MatrixOver.entry ar m a b := by
  obtain ⟨ri, hri, hlen⟩ := over_shape_row hm hi
  have hlt : j < ri.length := by omega
  obtain ⟨m', hm', hs, hrow, hoth⟩ := over_shape_setRow hm hi (ri.set j v) (by simp [hlen])
  refine ⟨m', by simp [MatrixOver.set, hri, hlt, hm'], hs, ?_⟩
  intro a b
  by_cases ha : a = i
  · subst ha
    rw [over_entry_of_row ar hrow, over_entry_of_row ar hri]
    by_cases hb : b = j
    · subst hb; simp [List.getD_eq_getElem?_getD, hlt]
    · simp [List.getD_eq_getElem?_getD, hb, List.getElem?_set_ne (Ne.symm hb)]
  · simp only [ha, false_and, if_false]
    simp [MatrixOver.entry, MatrixOver.get, hoth a ha]

theorem over_shape_sized {D : Type} (ar : Arith D) (r c : ℕ) :
    MatrixOver.HasShape r c (MatrixOver.sized ar r c) := by
  refine ⟨by simp [MatrixOver.sized], ?_⟩
  intro x hx
  simp [MatrixOver.sized] at hx
  rw [hx.2]; simp

theorem over_entry_sized {D : Type} (ar : Arith D) (r c i j : ℕ) :
    MatrixOver.entry ar (MatrixOver.sized ar r c) i j = ar.zero := by
  simp only [MatrixOver.entry, MatrixOver.get, MatrixOver.row, MatrixOver.sized]
  by_cases hi : i < r
  · by_cases hj : j < c
    · simp [List.getElem?_replicate, hi, hj]
    · simp [List.getElem?_replicate, hi, hj]
  · simp [List.getElem?_replicate, hi]

theorem accumulate_succ {D : Type} (ar : Arith D) (a b : MatrixOver D) (c i j : ℕ) :
    MatrixOver.accumulate ar a b (c + 1) i j
      = ar.add (MatrixOver.accumulate ar a b c i j)
          (ar.mul (MatrixOver.entry ar a i c) (MatrixOver.entry ar b c j)) := by
  simp [MatrixOver.accumulate, List.range_succ, List.foldl_append]

/-- With exact arithmetic the accumulated value is the sum of the products. -/
theorem accumulate_exact (a b : MatrixOver ℚ) (c i j : ℕ) :
    MatrixOver.accumulate exactArith a b c i j
      = ∑ k in Finset.range c,
          MatrixOver.entry exactArith a i k * MatrixOver.entry exactArith b k j := by
  induction c with
  | zero => simp [MatrixOver.accumulate, exactArith]
  | succ c ih =>
    rw [accumulate_succ, ih, Finset.sum_range_succ]
    rfl

/-- When the left operand has no more columns than the right operand has rows,
`multiply` returns the matrix of the accumulated values. -/
theorem over_multiply_spec {D : Type} (ar : Arith D) {r c c' p : ℕ} {a b : MatrixOver D}
    (ha : MatrixOver.HasShape r c a) (hb : MatrixOver.HasShape c' p b) (hcc : c ≤ c')
    (hc : 0 < c') :
    ∃ m, MatrixOver.multiply ar a b = some m ∧ MatrixOver.HasShape r p m ∧
      ∀ i j, i < r → j < p →
        MatrixOver.entry ar m i j = MatrixOver.accumulate ar a b c i j := by
  obtain ⟨row0, hrow0, hlen0⟩ := over_shape_row hb hc
  have hlen : a.data.length = r := ha.1
  obtain ⟨m, hm, hsh, hent⟩ := forRange_inv
    (fun i m => MatrixOver.HasShape r p m ∧
      (∀ x y, x < i → y < p →
        MatrixOver.entry ar m x y = MatrixOver.accumulate ar a b c x y) ∧
      ∀ x y, i ≤ x → MatrixOver.entry ar m x y = ar.zero)
    (fun i m => forRange p m fun j m => (a.row i).bind fun ri =>
      forRange ri.length m fun k m => (m.get i j).bind fun acc =>
        (a.get i k).bind fun u => (b.get k j).bind fun v =>
          m.set i j (ar.add acc (ar.mul u v)))
    r (MatrixOver.sized ar r p)
    ⟨over_shape_sized ar r p, fun x y hx _ => absurd hx (Nat.not_lt_zero _),
      fun x y _ => over_entry_sized ar r p x y⟩
    (by
      intro i m hi ⟨hsh, hdone, hzero⟩
      obtain ⟨ri, hri, hleni⟩ := over_shape_row ha hi
      obtain ⟨m', hm', hsh', hdone', hrow', hzero'⟩ := forRange_inv
        (fun j m => MatrixOver.HasShape r p m ∧
          (∀ x y, x < i → y < p →
            MatrixOver.entry ar m x y = MatrixOver.accumulate ar a b c x y) ∧
          (∀ y, y < j → MatrixOver.entry ar m i y = MatrixOver.accumulate ar a b c i y) ∧
          ∀ x y, (i < x ∨ (x = i ∧ j ≤ y)) → MatrixOver.entry ar m x y = ar.zero)
        (fun j m => (a.row i).bind fun ri =>
          forRange ri.length m fun k m => (m.get i j).bind fun acc =>
            (a.get i k).bind fun u => (b.get k j).bind fun v =>
              m.set i j (ar.add acc (ar.mul u v)))
        p m ⟨hsh, hdone, fun y hy => absurd hy (Nat.not_lt_zero _),
          fun x y hxy => hzero x y (by omega)⟩
        (by
          intro j m1 hj ⟨hsh1, hdone1, hrow1, hzero1⟩
          obtain ⟨m2, hm2, hsh2, hacc2, hoth2⟩ := forRange_inv
            (fun k m => MatrixOver.HasShape r p m ∧
              MatrixOver.entry ar m i j = MatrixOver.accumulate ar a b k i j ∧
              ∀ x y, ¬ (x = i ∧ y = j) →
                MatrixOver.entry ar m x y = MatrixOver.entry ar m1 x y)
            (fun k m => (m.get i j).bind fun acc =>
              (a.get i k).bind fun u => (b.get k j).bind fun v =>
                m.set i j (ar.add acc (ar.mul u v)))
            c m1
            ⟨hsh1, by
              rw [hzero1 i j (Or.inr ⟨rfl, le_refl _⟩)]
              simp [MatrixOver.accumulate], fun _ _ _ => rfl⟩
            (by
              intro k m3 hk ⟨hsh3, hacc3, hoth3⟩
              obtain ⟨m4, hm4, hsh4, hent4⟩ := over_shape_set ar hsh3 hi hj
                (ar.add (MatrixOver.entry ar m3 i j)
                  (ar.mul (MatrixOver.entry ar a i k) (MatrixOver.entry ar b k j)))
              refine ⟨m4, by simp [over_shape_get ar hsh3 hi hj, over_shape_get ar ha hi hk,
                over_shape_get ar hb (lt_of_lt_of_le hk hcc) hj, hm4],
                hsh4, ?_, ?_⟩
              · rw [hent4, accumulate_succ, hacc3]; simp
              · intro x y hxy
                rw [hent4, if_neg hxy]; exact hoth3 x y hxy)
          refine ⟨m2, by simp [hri, hleni, hm2], hsh2, ?_, ?_, ?_⟩
          · intro x y hx hy
            rw [hoth2 x y (by omega)]; exact hdone1 x y hx hy
          · intro y hy
            by_cases hyj : y = j
            · subst hyj; exact hacc2
            · rw [hoth2 i y (by simp [hyj])]; exact hrow1 y (by omega)
          · intro x y hxy
            rw [hoth2 x y (by omega)]; exact hzero1 x y (by omega))
      refine ⟨m', hm', hsh', ?_, ?_⟩
      · intro x y hx hy
        by_cases hxi : x = i
        · subst hxi; exact hrow' y hy
        · exact hdone' x y (by omega) hy
      · intro x y hx
        exact hzero' x y (by omega))
  exact ⟨m, by simp [MatrixOver.multiply, hrow0, hlen0, hlen, hm], hsh, hent.1⟩

/-- With more columns on the left than rows on the right, `multiply` reads outside the
right operand. -/
theorem over_multiply_out_of_bounds {D : Type} (ar : Arith D) {r c c' p : ℕ}
    {a b : MatrixOver D} (ha : MatrixOver.HasShape r c a) (hb : MatrixOver.HasShape c' p b)
    (hcc : c' < c) (hr : 0 < r) (hp : 0 < p) :
    MatrixOver.multiply ar a b = none := by
  rcases Nat.eq_zero_or_pos c' with h0 | hc'
  · have hlen : b.data.length = 0 := by rw [hb.1, h0]
    have : b.data = [] := List.length_eq_zero.mp hlen
    simp [MatrixOver.multiply, MatrixOver.row, this]
  obtain ⟨row0, hrow0, hlen0⟩ := over_shape_row hb hc'
  obtain ⟨r0, hr0, hlenr0⟩ := over_shape_row ha hr
  have hnone : b.get c' 0 = none := by
    have : b.data[c']? = none := List.getElem?_eq_none (by rw [hb.1])
    simp [MatrixOver.get, MatrixOver.row, this]
  have hk : ∀ s, MatrixOver.HasShape r p s →
      (forRange c s fun k m => (m.get 0 0).bind fun acc =>
        (a.get 0 k).bind fun u => (b.get k 0).bind fun v =>
          m.set 0 0 (ar.add acc (ar.mul u v))) = none := by
    intro s hs
    apply forFrom_fail (fun _ m => MatrixOver.HasShape r p m) _ 0 c c' s (Nat.zero_le _) hcc hs
    · intro k m _ hk hm
      obtain ⟨m', hm', hs', _⟩ := over_shape_set ar hm hr hp
        (ar.add (MatrixOver.entry ar m 0 0)
          (ar.mul (MatrixOver.entry ar a 0 k) (MatrixOver.entry ar b k 0)))
      exact ⟨m', by simp [over_shape_get ar hm hr hp,
        over_shape_get ar ha hr (show k < c by omega), over_shape_get ar hb hk hp, hm'], hs'⟩
    · intro m hm
      simp [over_shape_get ar hm hr hp, over_shape_get ar ha hr hcc, hnone]
  have hj : ∀ s, MatrixOver.HasShape r p s →
      (forRange p s fun j m => (a.row 0).bind fun ri =>
        forRange ri.length m fun k m => (m.get 0 j).bind fun acc =>
          (a.get 0 k).bind fun u => (b.get k j).bind fun v =>
            m.set 0 j (ar.add acc (ar.mul u v))) = none := by
    intro s hs
    apply forFrom_fail (fun _ m => MatrixOver.HasShape r p m) _ 0 p 0 s (le_refl _) hp hs
    · intro k m _ hk; omega
    · intro m hm
      simp only [hr0, Option.some_bind, hlenr0]
      exact hk m hm
  have hi : (forRange r (MatrixOver.sized ar r p) fun i m => forRange p m fun j m =>
      (a.row i).bind fun ri => forRange ri.length m fun k m => (m.get i j).bind fun acc =>
        (a.get i k).bind fun u => (b.get k j).bind fun v =>
          m.set i j (ar.add acc (ar.mul u v))) = none := by
    apply forFrom_fail (fun _ m => MatrixOver.HasShape r p m) _ 0 r 0 _ (le_refl _) hr
      (over_shape_sized ar r p)
    · intro k m _ hk; omega
    · intro m hm
      exact hj m hm
  simp [MatrixOver.multiply, hrow0, hlen0, ha.1, hi]

/-! ## The pivot search over an arbitrary arithmetic -/

/-- The pivot search returns the first row of `h..r-1` whose entry in column `k` is
greatest in the order of a key, provided that the comparison `|a| < |b|` of the code
decides the strict order of the keys on that part of the column. -/
theorem over_findPivot_spec {D α : Type} [LinearOrder α] (ar : Arith D) (key : D → α)
    {r c : ℕ} {m : MatrixOver D} (hm : MatrixOver.HasShape r c m) {h k : ℕ}
    (hh : h < r) (hk : k < c)
    (hkey : ∀ s t, h ≤ s → s < r → h ≤ t → t < r →
      (ar.lt (ar.abs (MatrixOver.entry ar m s k)) (ar.abs (MatrixOver.entry ar m t k)) = true
        ↔ key (MatrixOver.entry ar m s k) < key (MatrixOver.entry ar m t k))) :
    ∃ i_max, MatrixOver.findPivot ar r h k m = some i_max ∧ h ≤ i_max ∧ i_max < r ∧
      (∀ t, h ≤ t → t < r →
        key (MatrixOver.entry ar m t k) ≤ key (MatrixOver.entry ar m i_max k)) ∧
      (∀ t, h ≤ t → t < i_max →
        key (MatrixOver.entry ar m t k) < key (MatrixOver.entry ar m i_max k)) := by
  obtain ⟨x, hx, h1, h2, h3, h4⟩ := forFrom_inv
    (fun i x => h ≤ x ∧ x < i ∧
      (∀ t, h ≤ t → t < i →
        key (MatrixOver.entry ar m t k) ≤ key (MatrixOver.entry ar m x k)) ∧
      (∀ t, h ≤ t → t < x →
        key (MatrixOver.entry ar m t k) < key (MatrixOver.entry ar m x k)))
    (fun i i_max => (m.get i_max k).bind fun a => (m.get i k).bind fun b =>
      some (if ar.lt (ar.abs a) (ar.abs b) = true then i else i_max))
    (h + 1) r h (by omega)
    ⟨le_refl _, by omega, fun t h1 h2 => by
      have : t = h := by omega
      rw [this], fun t h1 h2 => by omega⟩
    (by
      intro i x hlo hhi ⟨h1, h2, h3, h4⟩
      have hxr : x < r := by omega
      refine ⟨if ar.lt (ar.abs (MatrixOver.entry ar m x k))
          (ar.abs (MatrixOver.entry ar m i k)) = true then i else x,
        by simp [over_shape_get ar hm hxr hk, over_shape_get ar hm hhi hk], ?_⟩
      have hiff := hkey x i h1 hxr (by omega) hhi
      by_cases hlt : ar.lt (ar.abs (MatrixOver.entry ar m x k))
          (ar.abs (MatrixOver.entry ar m i k)) = true
      · have hlt' := hiff.mp hlt
        rw [if_pos hlt]
        refine ⟨by omega, by omega, ?_, ?_⟩
        · intro t ht1 ht2
          by_cases hti : t = i
          · rw [hti]
          · exact le_trans (h3 t ht1 (by omega)) (le_of_lt hlt')
        · intro t ht1 ht2
          exact lt_of_le_of_lt (h3 t ht1 ht2) hlt'
      · have hlt' : ¬ key (MatrixOver.entry ar m x k) < key (MatrixOver.entry ar m i k) :=
          fun hc => hlt (hiff.mpr hc)
        rw [if_neg hlt]
        refine ⟨h1, by omega, ?_, h4⟩
        intro t ht1 ht2
        by_cases hti : t = i
        · rw [hti]; exact not_lt.mp hlt'
        · exact h3 t ht1 (by omega))
  exact ⟨x, hx, h1, h2, h3, h4⟩

/-- The pivot search stays inside the matrix and so always returns a row of `h..r-1`. -/
theorem over_findPivot_total {D : Type} (ar : Arith D) {r c : ℕ} {m : MatrixOver D}
    (hm : MatrixOver.HasShape r c m) {h k : ℕ} (hh : h < r) (hk : k < c) :
    ∃ i_max, MatrixOver.findPivot ar r h k m = some i_max ∧ h ≤ i_max ∧ i_max < r := by
  obtain ⟨x, hx, h1, h2⟩ := forFrom_inv
    (fun i x => h ≤ x ∧ x < i)
    (fun i i_max => (m.get i_max k).bind fun a => (m.get i k).bind fun b =>
      some (if ar.lt (ar.abs a) (ar.abs b) = true then i else i_max))
    (h + 1) r h (by omega) ⟨le_refl _, by omega⟩
    (by
      intro i x hlo hhi ⟨h1, h2⟩
      have hxr : x < r := by omega
      refine ⟨if ar.lt (ar.abs (MatrixOver.entry ar m x k))
          (ar.abs (MatrixOver.entry ar m i k)) = true then i else x,
        by simp [over_shape_get ar hm hxr hk, over_shape_get ar hm hhi hk], ?_⟩
      by_cases hlt : ar.lt (ar.abs (MatrixOver.entry ar m x k))
          (ar.abs (MatrixOver.entry ar m i k)) = true
      · rw [if_pos hlt]
        exact ⟨by omega, by omega⟩
      · rw [if_neg hlt]
        exact ⟨h1, by omega⟩)
  exact ⟨x, hx, h1, h2⟩

/-- An iteration of the forward elimination whose selected pivot entry fails the test
`if (clone.data[i_max][k])` returns the state it was given. -/
theorem over_forwardStep_skip {D : Type} (ar : Arith D) {n h k i_max : ℕ}
    {cl iv : MatrixOver D} (hcl : MatrixOver.HasShape n n cl) (hk : k < n)
    (hpiv : MatrixOver.findPivot ar n h k cl = some i_max) (hlt : i_max < n)
    (hz : ar.truthy (MatrixOver.entry ar cl i_max k) = false) :
    MatrixOver.forwardStep ar n k (h, cl, iv) = some (h, cl, iv) := by
  simp [MatrixOver.forwardStep, hpiv, over_shape_get ar hcl hlt hk, hz]

/-! ## The order of `double` values -/

theorem Dbl.abs_lt_iff_mag {a b : Dbl} (ha : a ≠ Dbl.nan) (hb : b ≠ Dbl.nan) :
    Dbl.lt (Dbl.abs a) (Dbl.abs b) = true ↔ Dbl.mag a < Dbl.mag b := by
  cases a <;> cases b <;>
    simp_all [Dbl.lt, Dbl.abs, Dbl.mag, Dbl.val, WithTop.coe_lt_top]

theorem Dbl.abs_le_iff_mag {a b : Dbl} (ha : a ≠ Dbl.nan) (hb : b ≠ Dbl.nan) :
    Dbl.le (Dbl.abs a) (Dbl.abs b) = true ↔ Dbl.mag a ≤ Dbl.mag b := by
  cases a <;> cases b <;>
    simp_all [Dbl.le, Dbl.abs, Dbl.mag, Dbl.val]

theorem Dbl.isZero_iff_mag {a : Dbl} (ha : a ≠ Dbl.nan) :
    Dbl.isZero a = true ↔ Dbl.mag a = ((0 : ℚ) : WithTop ℚ) := by
  cases a <;> simp_all [Dbl.isZero, Dbl.mag]

theorem Dbl.mag_nonneg (a : Dbl) : ((0 : ℚ) : WithTop ℚ) ≤ Dbl.mag a := by
  cases a <;> simp [Dbl.mag]

/-- The inner loop of the backward pass for row `i` is the off-diagonal branch for the
columns right of `i` followed by the diagonal branch. -/
theorem over_backRow_eq {D : Type} (ar : Arith D) (n i : ℕ) :
    ∀ (count : ℕ) (st : MatrixOver D × MatrixOver D), i < count →
      MatrixOver.backRow ar n i count st
        = (MatrixOver.elimColumns ar n i count st).bind
            fun st' => MatrixOver.diagStep ar n i i st' := by
  intro count
  induction count with
  | zero => intro st h; omega
  | succ j ih =>
    intro st h
    by_cases hji : j = i
    · subst hji
      simp [MatrixOver.backRow, MatrixOver.elimColumns]
    · have hlt : i < j := by omega
      have hle : ¬ j ≤ i := by omega
      simp only [MatrixOver.backRow, MatrixOver.elimColumns, if_neg hji, if_neg hle]
      cases hst : MatrixOver.elimStep ar n i j st with
      | none => rfl
      | some st' => simpa using ih st' hlt

/-- The backward pass down to row `0` is the pass down to row `lo` followed by the pass
over the rows below `lo`. -/
theorem over_backwardRows_split {D : Type} (ar : Arith D) (n lo : ℕ) :
    ∀ (count : ℕ) (st : MatrixOver D × MatrixOver D), lo ≤ count →
      MatrixOver.backwardRows ar n 0 count st
        = (MatrixOver.backwardRows ar n lo count st).bind
            fun st' => MatrixOver.backwardRows ar n 0 lo st' := by
  intro count
  induction count with
  | zero =>
    intro st h
    have : lo = 0 := by omega
    subst this
    simp [MatrixOver.backwardRows]
  | succ c ih =>
    intro st h
    by_cases hc : c < lo
    · have : lo = c + 1 := by omega
      subst this
      simp [MatrixOver.backwardRows]
    · have h0 : ¬ c < 0 := by omega
      simp only [MatrixOver.backwardRows, if_neg hc, if_neg h0]
      cases hst : MatrixOver.backRow ar n c n st with
      | none => rfl
      | some st' => simpa using ih st' (by omega)

/-- The run of `invert` passes through the diagonal branch of every row `i`: it enters
the branch with the working pair `diagEntry`, and the rows below `i` follow. -/
theorem over_invert_through_diagEntry {D : Type} (ar : Arith D) (self : MatrixOver D)
    (i : ℕ) (hi : i < self.data.length) :
    MatrixOver.invert ar self
      = (MatrixOver.diagEntry ar self i).bind fun st =>
          (MatrixOver.diagStep ar self.data.length i i st).bind fun st' =>
            (MatrixOver.backwardRows ar self.data.length 0 i st').bind fun st'' =>
              some st''.2 := by
  simp only [MatrixOver.invert, MatrixOver.diagEntry]
  cases hf : MatrixOver.forwardState ar self self.data.length with
  | none => rfl
  | some st =>
    simp only [Option.some_bind]
    rw [over_backwardRows_split ar self.data.length (i + 1) self.data.length _ (by omega)]
    cases hb : MatrixOver.backwardRows ar self.data.length (i + 1) self.data.length
        (st.2.1, st.2.2) with
    | none => rfl
    | some st1 =>
      have h0 : ¬ i < 0 := by omega
      simp only [Option.some_bind, MatrixOver.backwardRows, if_neg h0]
      rw [over_backRow_eq ar self.data.length i self.data.length st1 hi]
      cases he : MatrixOver.elimColumns ar self.data.length i self.data.length st1 with
      | none => rfl
      | some st2 =>
        simp only [Option.some_bind]
        cases hd : MatrixOver.diagStep ar self.data.length i i st2 with
        | none => rfl
        | some st3 => rfl

/-! ## The embedding with rational entries is the instance at the exact arithmetic -/

/-- Two loops whose bodies correspond under a map of the states correspond. -/
theorem forFrom_map {σ τ : Type} (f : σ → τ) (body : ℕ → σ → Option σ)
    (body' : ℕ → τ → Option τ) (h : ∀ i s, body' i (f s) = (body i s).map f)
    (lo hi : ℕ) (init : σ) :
    forFrom lo hi (f init) body' = (forFrom lo hi init body).map f := by
  unfold forFrom
  generalize List.range' lo (hi - lo) = l
  induction l generalizing init with
  | nil => rfl
  | cons x xs ih =>
    simp only [List.foldlM_cons, Option.bind_eq_bind, h]
    cases hb : body x init with
    | none => rfl
    | some s => simpa using ih s

theorem forRange_map {σ τ : Type} (f : σ → τ) (body : ℕ → σ → Option σ)
    (body' : ℕ → τ → Option τ) (h : ∀ i s, body' i (f s) = (body i s).map f)
    (n : ℕ) (init : σ) :
    forRange n (f init) body' = (forRange n init body).map f :=
  forFrom_map f body body' h 0 n init

theorem over_row_eq (m : Matrix) (i : ℕ) : m.over.row i = m.row i := rfl

theorem over_get_eq (m : Matrix) (i j : ℕ) : m.over.get i j = m.get i j := rfl

theorem over_setRow_eq (m : Matrix) (i : ℕ) (r : List ℚ) :
    m.over.setRow i r = (m.setRow i r).map Matrix.over := by
  unfold MatrixOver.setRow Matrix.setRow
  by_cases h : i < m.data.length
  · simp [h, Matrix.over]
  · simp [h, Matrix.over]

theorem over_set_eq (m : Matrix) (i j : ℕ) (v : ℚ) :
    m.over.set i j v = (m.set i j v).map Matrix.over := by
  unfold MatrixOver.set Matrix.set
  rw [over_row_eq]
  cases hr : m.row i with
  | none => rfl
  | some r =>
    simp only [Option.some_bind]
    by_cases h : j < r.length
    · simp only [h, if_true]; exact over_setRow_eq m i _
    · simp [h]

/-- The method `multiply` on rationals is `multiply` over the exact arithmetic. -/
theorem multiply_over (a b : Matrix) :
    MatrixOver.multiply exactArith a.over b.over = (a.multiply b).map Matrix.over := by
  unfold MatrixOver.multiply Matrix.multiply
  rw [over_row_eq]
  cases hr : b.row 0 with
  | none => rfl
  | some row0 =>
    simp only [Option.some_bind]
    have e : MatrixOver.sized exactArith a.over.data.length row0.length
        = (Matrix.sized a.data.length row0.length).over := rfl
    rw [e]
    apply forRange_map
    intro i s
    apply forRange_map
    intro j s
    rw [over_row_eq]
    cases hri : a.row i with
    | none => rfl
    | some ri =>
      simp only [Option.some_bind]
      apply forRange_map
      intro k s
      simp only [over_get_eq]
      cases s.get i j with
      | none => rfl
      | some acc =>
        cases a.get i k with
        | none => rfl
        | some u =>
          cases b.get k j with
          | none => rfl
          | some v => exact over_set_eq s i j _

/-- The pivot search on rationals is the pivot search over the exact arithmetic. -/
theorem findPivot_over (n h k : ℕ) (m : Matrix) :
    MatrixOver.findPivot exactArith n h k m.over = Matrix.findPivot n h k m := by
  unfold MatrixOver.findPivot Matrix.findPivot
  congr 1
  funext i i_max
  simp only [over_get_eq]
  cases m.get i_max k with
  | none => rfl
  | some a =>
    cases m.get i k with
    | none => rfl
    | some b => simp [exactArith]

theorem swapRows_over (m : Matrix) (h i : ℕ) :
    MatrixOver.swapRows m.over h i = (Matrix.swapRows m h i).map Matrix.over := by
  unfold MatrixOver.swapRows Matrix.swapRows
  simp only [over_row_eq]
  cases m.row h with
  | none => rfl
  | some temp =>
    cases m.row i with
    | none => rfl
    | some r =>
      simp only [Option.some_bind, over_setRow_eq]
      cases m.setRow h r with
      | none => rfl
      | some m1 => simpa using over_setRow_eq m1 i temp

theorem reduceRow_over (n h k i : ℕ) (st : Matrix × Matrix) :
    MatrixOver.reduceRow exactArith n h k i (Matrix.overPair st)
      = (Matrix.reduceRow n h k i st).map Matrix.overPair := by
  unfold MatrixOver.reduceRow Matrix.reduceRow
  simp only [Matrix.overPair, over_get_eq]
  cases st.1.get i k with
  | none => rfl
  | some a =>
    cases st.1.get h k with
    | none => rfl
    | some b =>
      simp only [Option.some_bind]
      apply forRange_map Matrix.overPair
      intro j s
      simp only [Matrix.overPair, over_get_eq]
      cases s.1.get i j with
      | none => rfl
      | some c =>
        cases s.1.get h j with
        | none => rfl
        | some ch =>
          simp only [Option.some_bind]
          rw [show MatrixOver.set s.1.over i j (exactArith.sub c (exactArith.mul ch
            (exactArith.div a b))) = (s.1.set i j (c - ch * (a / b))).map Matrix.over from
            over_set_eq s.1 i j _]
          cases s.1.set i j (c - ch * (a / b)) with
          | none => rfl
          | some cl =>
            simp only [Option.map_some', Option.some_bind]
            cases s.2.get i j with
            | none => rfl
            | some v =>
              cases s.2.get h j with
              | none => rfl
              | some vh =>
                simp only [Option.some_bind]
                rw [show MatrixOver.set s.2.over i j (exactArith.sub v (exactArith.mul vh
                  (exactArith.div a b))) = (s.2.set i j (v - vh * (a / b))).map Matrix.over
                  from over_set_eq s.2 i j _]
                cases s.2.set i j (v - vh * (a / b)) with
                | none => rfl
                | some iv => rfl

/-- An iteration of the forward elimination on rationals is the iteration over the
exact arithmetic. -/
theorem forwardStep_over (n k : ℕ) (st : ℕ × Matrix × Matrix) :
    MatrixOver.forwardStep exactArith n k (Matrix.overState st)
      = (Matrix.forwardStep n k st).map Matrix.overState := by
  obtain ⟨h, cl, iv⟩ := st
  unfold MatrixOver.forwardStep Matrix.forwardStep
  simp only [Matrix.overState, findPivot_over, over_get_eq]
  cases Matrix.findPivot n h k cl with
  | none => rfl
  | some i_max =>
    simp only [Option.some_bind]
    cases cl.get i_max k with
    | none => rfl
    | some p =>
      simp only [Option.some_bind]
      by_cases hp : p = 0
      · simp [hp, exactArith, Matrix.overState]
      · have ht : exactArith.truthy p = true := by simp [exactArith, hp]
        simp only [ht, if_true, ne_eq, hp, not_false_eq_true, swapRows_over]
        cases Matrix.swapRows cl h i_max with
        | none => rfl
        | some cl1 =>
          cases Matrix.swapRows iv h i_max with
          | none => rfl
          | some iv1 =>
            simp only [Option.map_some', Option.some_bind]
            have e := forFrom_map Matrix.overPair
              (fun i st => Matrix.reduceRow n h k i st)
              (fun i st => MatrixOver.reduceRow exactArith n h k i st)
              (fun i s => reduceRow_over n h k i s) (h + 1) n (cl1, iv1)
            simp only [Matrix.overPair] at e
            rw [e]
            cases forFrom (h + 1) n (cl1, iv1) fun i st => Matrix.reduceRow n h k i st with
            | none => rfl
            | some s => rfl

/-- The forward elimination on rationals is the forward elimination over the exact
arithmetic. -/
theorem forwardIters_over (n iters : ℕ) (cl iv : Matrix) :
    MatrixOver.forwardIters exactArith n iters cl.over iv.over
      = (forwardIters n iters cl iv).map Matrix.overState := by
  unfold MatrixOver.forwardIters forwardIters
  exact forRange_map Matrix.overState
    (fun k st => if st.1 < n then Matrix.forwardStep n k st else some st)
    (fun k st => if st.1 < n then MatrixOver.forwardStep exactArith n k st else some st)
    (by
      intro k s
      by_cases hs : s.1 < n
      · simp only [Matrix.overState, hs, if_true]
        exact forwardStep_over n k s
      · simp [Matrix.overState, hs]) iters (0, cl, iv)

theorem identityInit_over (n : ℕ) :
    MatrixOver.identityInit exactArith n = (Matrix.identityInit n).map Matrix.over := by
  unfold MatrixOver.identityInit Matrix.identityInit
  have e : MatrixOver.sized exactArith n n = (Matrix.sized n n).over := rfl
  rw [e]
  apply forRange_map
  intro i s
  exact over_set_eq s i i 1

/-- The diagonal branch on rationals is the diagonal branch over the exact arithmetic. -/
theorem diagStep_over (n i j : ℕ) (st : Matrix × Matrix) :
    MatrixOver.diagStep exactArith n i j (Matrix.overPair st)
      = (Matrix.diagStep n i j st).map Matrix.overPair := by
  unfold MatrixOver.diagStep Matrix.diagStep
  have e1 := forRange_map Matrix.over
    (fun k inverse => (st.1.get i j).bind fun d =>
      (inverse.get i k).bind fun v => inverse.set i k (v / d))
    (fun k inverse => ((Matrix.overPair st).1.get i j).bind fun d =>
      (inverse.get i k).bind fun v => inverse.set i k (exactArith.div v d))
    (by
      intro k s
      simp only [Matrix.overPair, over_get_eq]
      cases st.1.get i j with
      | none => rfl
      | some d =>
        cases s.get i k with
        | none => rfl
        | some v => exact over_set_eq s i k _) n st.2
  have e2 := forRange_map Matrix.over
    (fun k clone => (clone.get i j).bind fun d =>
      (clone.get i k).bind fun v => clone.set i k (v / d))
    (fun k clone => (clone.get i j).bind fun d =>
      (clone.get i k).bind fun v => clone.set i k (exactArith.div v d))
    (by
      intro k s
      simp only [over_get_eq]
      cases s.get i j with
      | none => rfl
      | some d =>
        cases s.get i k with
        | none => rfl
        | some v => exact over_set_eq s i k _) n st.1
  simp only [Matrix.overPair] at e1 e2 ⊢
  rw [e1, e2]
  cases forRange n st.2 fun k inverse => (st.1.get i j).bind fun d =>
      (inverse.get i k).bind fun v => inverse.set i k (v / d) with
  | none => rfl
  | some iv =>
    cases forRange n st.1 fun k clone => (clone.get i j).bind fun d =>
        (clone.get i k).bind fun v => clone.set i k (v / d) with
    | none => rfl
    | some cl => rfl

/-- The off-diagonal branch on rationals is the branch over the exact arithmetic. -/
theorem elimStep_over (n i j : ℕ) (st : Matrix × Matrix) :
    MatrixOver.elimStep exactArith n i j (Matrix.overPair st)
      = (Matrix.elimStep n i j st).map Matrix.overPair := by
  unfold MatrixOver.elimStep Matrix.elimStep
  have e1 := forRange_map Matrix.over
    (fun k inverse => (st.1.get i j).bind fun c => (inverse.get j k).bind fun w =>
      (inverse.get i k).bind fun v => inverse.set i k (v - c * w))
    (fun k inverse => ((Matrix.overPair st).1.get i j).bind fun c =>
      (inverse.get j k).bind fun w =>
        (inverse.get i k).bind fun v =>
          inverse.set i k (exactArith.sub v (exactArith.mul c w)))
    (by
      intro k s
      simp only [Matrix.overPair, over_get_eq]
      cases st.1.get i j with
      | none => rfl
      | some c =>
        cases s.get j k with
        | none => rfl
        | some w =>
          cases s.get i k with
          | none => rfl
          | some v => exact over_set_eq s i k _) n st.2
  have e2 := forRange_map Matrix.over
    (fun k clone => (clone.get i j).bind fun c => (clone.get j k).bind fun w =>
      (clone.get i k).bind fun v => clone.set i k (v - c * w))
    (fun k clone => (clone.get i j).bind fun c => (clone.get j k).bind fun w =>
      (clone.get i k).bind fun v => clone.set i k (exactArith.sub v (exactArith.mul c w)))
    (by
      intro k s
      simp only [over_get_eq]
      cases s.get i j with
      | none => rfl
      | some c =>
        cases s.get j k with
        | none => rfl
        | some w =>
          cases s.get i k with
          | none => rfl
          | some v => exact over_set_eq s i k _) n st.1
  simp only [Matrix.overPair] at e1 e2 ⊢
  rw [e1, e2]
  cases forRange n st.2 fun k inverse => (st.1.get i j).bind fun c =>
      (inverse.get j k).bind fun w =>
        (inverse.get i k).bind fun v => inverse.set i k (v - c * w) with
  | none => rfl
  | some iv =>
    cases forRange n st.1 fun k clone => (clone.get i j).bind fun c =>
        (clone.get j k).bind fun w =>
          (clone.get i k).bind fun v => clone.set i k (v - c * w) with
    | none => rfl
    | some cl => rfl

theorem backRow_over (n i : ℕ) :
    ∀ (count : ℕ) (st : Matrix × Matrix),
      MatrixOver.backRow exactArith n i count (Matrix.overPair st)
        = (Matrix.backRow n i count st).map Matrix.overPair := by
  intro count
  induction count with
  | zero => intro st; rfl
  | succ j ih =>
    intro st
    by_cases hji : j = i
    · simp only [MatrixOver.backRow, Matrix.backRow, hji, if_true]
      exact diagStep_over n i i st
    · simp only [MatrixOver.backRow, Matrix.backRow, hji, if_false, elimStep_over]
      cases Matrix.elimStep n i j st with
      | none => rfl
      | some st' => simpa using ih st'

theorem backwardLoop_over (n : ℕ) :
    ∀ (count : ℕ) (st : Matrix × Matrix),
      MatrixOver.backwardRows exactArith n 0 count (Matrix.overPair st)
        = (forDown count st fun i st => Matrix.backRow n i n st).map Matrix.overPair := by
  intro count
  induction count with
  | zero => intro st; rfl
  | succ c ih =>
    intro st
    have h0 : ¬ c < 0 := by omega
    simp only [MatrixOver.backwardRows, forDown, if_neg h0, backRow_over]
    cases Matrix.backRow n c n st with
    | none => rfl
    | some st' => simpa using ih st'

/-- The method `invert` on rationals is `invert` over the exact arithmetic. -/
theorem invert_over (m : Matrix) :
    MatrixOver.invert exactArith m.over = (m.invert).map Matrix.over := by
  unfold MatrixOver.invert MatrixOver.forwardState Matrix.invert Matrix.forwardLoop
  have e : m.over.data.length = m.data.length := rfl
  simp only [e, identityInit_over]
  cases Matrix.identityInit m.data.length with
  | none => rfl
  | some iv =>
    simp only [Option.map_some', Option.some_bind]
    have e2 := forwardIters_over m.data.length m.data.length m iv
    unfold forwardIters at e2
    rw [e2]
    cases forRange m.data.length (0, m, iv) fun k st =>
        if st.1 < m.data.length then Matrix.forwardStep m.data.length k st else some st with
    | none => rfl
    | some st =>
      simp only [Option.map_some', Option.some_bind, Matrix.overState]
      have e3 := backwardLoop_over m.data.length m.data.length (st.2.1, st.2.2)
      simp only [Matrix.overPair] at e3
      rw [e3]
      unfold Matrix.backwardLoop
      cases forDown m.data.length (st.2.1, st.2.2) fun i st =>
          Matrix.backRow m.data.length i m.data.length st with
      | none => rfl
      | some st' => rfl

/-! ## The claims about the code as it runs on `double` -/

theorem Dbl.ne_nan_of_isNaN {a : Dbl} (h : Dbl.isNaN a = false) : a ≠ Dbl.nan := by
  intro e
  rw [e] at h
  exact absurd h (by decide)

/-- C4, as stated, fails: the entries are `double`s and every product and every sum is
rounded.  `94906267` is a `double`, and with `A = B = [[94906267]]` the code returns
`[[9007199515875288]]`, whereas the sum over `k` of `A[0][k] * B[k][0]` is
`94906267 * 94906267 = 9007199515875289`. -/
theorem C4_rounded_product_counterexample :
    MatrixOver.ofRats [[94906267]] = ⟨[[Dbl.num 94906267]]⟩ ∧
      MatrixOver.multiply doubleArith (MatrixOver.ofRats [[94906267]])
          (MatrixOver.ofRats [[94906267]])
        = some ⟨[[Dbl.num 9007199515875288]]⟩ ∧
      (94906267 : ℚ) * 94906267 = 9007199515875289 ∧
      Dbl.num 9007199515875288 ≠ Dbl.num 9007199515875289 := by
  refine ⟨by decide!, by decide!, by norm_num, by decide!⟩

/-- C4, amended: in every arithmetic of the entries, that of `double` included, for an
`r × c` matrix `A` and a `c × p` matrix `B` with `r, c, p ≥ 1`, `A.multiply(B)` is a
rectangular matrix with `r` rows and `p` columns whose entry `(i, j)` is the value that
`acc += A[i][k] * B[k][j]` accumulates from zero for `k = 0, ..., c - 1` in this order,
each product and each sum being rounded by the arithmetic; with exact arithmetic that
value is the sum over `k < c` of `A[i][k] * B[k][j]`.  Of the three bounds only `c ≥ 1`
is used. -/
theorem C4_multiply_accumulates {D : Type} (ar : Arith D) (r c p : ℕ) (A B : MatrixOver D)
    (hc : 1 ≤ c) (hA : MatrixOver.HasShape r c A) (hB : MatrixOver.HasShape c p B) :
    (∃ m, MatrixOver.multiply ar A B = some m ∧ MatrixOver.HasShape r p m ∧
      ∀ i j, i < r → j < p → m.get i j = some (MatrixOver.accumulate ar A B c i j)) ∧
    ∀ (A' B' : MatrixOver ℚ) (i j : ℕ),
      MatrixOver.accumulate exactArith A' B' c i j
        = ∑ k in Finset.range c,
            MatrixOver.entry exactArith A' i k * MatrixOver.entry exactArith B' k j := by
  refine ⟨?_, fun A' B' i j => accumulate_exact A' B' c i j⟩
  obtain ⟨m, hm, hs, he⟩ := over_multiply_spec ar hA hB (le_refl c) hc
  refine ⟨m, hm, hs, ?_⟩
  intro i j hi hj
  rw [over_shape_get ar hs hi hj, he i j hi hj]

/-- C4, amended, in `double` arithmetic at `A = [[1, 2], [3, 4]]` and
`B = [[5, 6], [7, 8]]`. -/
theorem C4_multiply_accumulates_witness :
    MatrixOver.HasShape 2 2 (MatrixOver.ofRats [[1, 2], [3, 4]]) ∧
      MatrixOver.HasShape 2 2 (MatrixOver.ofRats [[5, 6], [7, 8]]) ∧
      (∃ m, MatrixOver.multiply doubleArith (MatrixOver.ofRats [[1, 2], [3, 4]])
          (MatrixOver.ofRats [[5, 6], [7, 8]]) = some m ∧ MatrixOver.HasShape 2 2 m ∧
        ∀ i j, i < 2 → j < 2 → m.get i j = some (MatrixOver.accumulate doubleArith
          (MatrixOver.ofRats [[1, 2], [3, 4]]) (MatrixOver.ofRats [[5, 6], [7, 8]]) 2 i j)) ∧
      ∀ (A' B' : MatrixOver ℚ) (i j : ℕ),
        MatrixOver.accumulate exactArith A' B' 2 i j
          = ∑ k in Finset.range 2,
              MatrixOver.entry exactArith A' i k * MatrixOver.entry exactArith B' k j :=
  ⟨by decide!, by decide!,
    C4_multiply_accumulates doubleArith 2 2 2 _ _ (by decide) (by decide!) (by decide!)⟩

/-- C10, amended: `multiply` checks no dimension and has no error to report, in every
arithmetic of the entries.  For `A` of shape `r × c` and `B` of shape `c' × p` with
`c ≠ c'`: when `c < c'` it returns a matrix with `r` rows and `p` columns; when `c > c'`
(and `r, p ≥ 1`) it reads outside `B`, which is undefined behaviour. -/
theorem C10_multiply_checks_no_dimension {D : Type} (ar : Arith D) (r c c' p : ℕ)
    (A B : MatrixOver D) (hA : MatrixOver.HasShape r c A)
    (hB : MatrixOver.HasShape c' p B) :
    (c < c' → ∃ m, MatrixOver.multiply ar A B = some m ∧ MatrixOver.HasShape r p m) ∧
    (c' < c → 1 ≤ r → 1 ≤ p → MatrixOver.multiply ar A B = none) := by
  constructor
  · intro hlt
    obtain ⟨m, hm, hs, _⟩ := over_multiply_spec ar hA hB (le_of_lt hlt) (by omega)
    exact ⟨m, hm, hs⟩
  · intro hlt hr hp
    exact over_multiply_out_of_bounds ar hA hB hlt hr hp

/-- C10, amended, in `double` arithmetic at `A = [[1, 2]]` and `B = [[1], [1], [1]]`,
where the code returns `[[3]]`, and at `A = [[1, 2]]` and `B = [[1]]`, where it reads
outside `B`. -/
theorem C10_multiply_checks_no_dimension_witness :
    MatrixOver.HasShape 1 2 (MatrixOver.ofRats [[1, 2]]) ∧
      MatrixOver.HasShape 3 1 (MatrixOver.ofRats [[1], [1], [1]]) ∧
      MatrixOver.HasShape 1 1 (MatrixOver.ofRats [[1]]) ∧
      MatrixOver.multiply doubleArith (MatrixOver.ofRats [[1, 2]])
          (MatrixOver.ofRats [[1], [1], [1]]) = some ⟨[[Dbl.num 3]]⟩ ∧
      (∃ m, MatrixOver.multiply doubleArith (MatrixOver.ofRats [[1, 2]])
          (MatrixOver.ofRats [[1], [1], [1]]) = some m ∧ MatrixOver.HasShape 1 1 m) ∧
      MatrixOver.multiply doubleArith (MatrixOver.ofRats [[1, 2]])
          (MatrixOver.ofRats [[1]]) = none :=
  ⟨by decide!, by decide!, by decide!, by decide!,
    (C10_multiply_checks_no_dimension doubleArith 1 2 3 1 _ _ (by decide!) (by decide!)).1
      (by decide),
    (C10_multiply_checks_no_dimension doubleArith 1 2 1 1 _ _ (by decide!) (by decide!)).2
      (by decide) (by decide) (by decide)⟩

/-- C14, as stated, fails on a column that holds a NaN.  On the finite input
`[[1, 1e308, 0, 0], [1, -1e308, 0, 0], [1, -1e308, 0, 0], [0, 1, 5, 0]]` the first two
iterations of the forward elimination overflow and leave the row pointer `h = 2` and
column `2` with the entries `NaN` (row 2) and `5` (row 3).  The iteration `h = k = 2`
selects `i_max = 2`, because `|NaN| < |5|` is false, although `|NaN| >= |5|` is false
too. -/
theorem C14_nan_pivot_counterexample :
    (MatrixOver.forwardState doubleArith (MatrixOver.ofRats
        [[1, 1e308, 0, 0], [1, -1e308, 0, 0], [1, -1e308, 0, 0], [0, 1, 5, 0]]) 2).map
        (fun st => st.1) = some 2 ∧
      (MatrixOver.forwardState doubleArith (MatrixOver.ofRats
        [[1, 1e308, 0, 0], [1, -1e308, 0, 0], [1, -1e308, 0, 0], [0, 1, 5, 0]]) 2).bind
        (fun st => MatrixOver.findPivot doubleArith 4 st.1 2 st.2.1) = some 2 ∧
      (MatrixOver.forwardState doubleArith (MatrixOver.ofRats
        [[1, 1e308, 0, 0], [1, -1e308, 0, 0], [1, -1e308, 0, 0], [0, 1, 5, 0]]) 2).bind
        (fun st => st.2.1.get 2 2) = some Dbl.nan ∧
      (MatrixOver.forwardState doubleArith (MatrixOver.ofRats
        [[1, 1e308, 0, 0], [1, -1e308, 0, 0], [1, -1e308, 0, 0], [0, 1, 5, 0]]) 2).bind
        (fun st => st.2.1.get 3 2) = some (Dbl.num 5) ∧
      Dbl.le (Dbl.abs (Dbl.num 5)) (Dbl.abs Dbl.nan) = false := by
  refine ⟨by decide!, by decide!, by decide!, by decide!, by decide!⟩

/-- C14, amended: in an iteration of the forward elimination with row pointer `h` and
column `k` on the working copy `C` of `double` entries, if no entry of column `k` in the
rows `h .. n - 1` is NaN, the pivot search returns the smallest row index `i_max` in
`h .. n - 1` with `|C[i_max][k]| >= |C[i][k]|` for every row `i` in `h .. n - 1`. -/
theorem C14_pivot_first_maximum_without_nan (n h k : ℕ) (C : MatrixOver Dbl)
    (hC : MatrixOver.HasShape n n C) (hh : h < n) (hk : k < n)
    (hnan : ∀ i, i < n → h ≤ i → Dbl.isNaN (MatrixOver.entry doubleArith C i k) = false) :
    ∃ i_max, MatrixOver.findPivot doubleArith n h k C = some i_max ∧ h ≤ i_max ∧ i_max < n ∧
      (∀ i, h ≤ i → i < n →
        Dbl.le (Dbl.abs (MatrixOver.entry doubleArith C i k))
          (Dbl.abs (MatrixOver.entry doubleArith C i_max k)) = true) ∧
      ∀ t, h ≤ t → t < n →
        (∀ i, h ≤ i → i < n →
          Dbl.le (Dbl.abs (MatrixOver.entry doubleArith C i k))
            (Dbl.abs (MatrixOver.entry doubleArith C t k)) = true) →
        i_max ≤ t := by
  have hne : ∀ i, h ≤ i → i < n → MatrixOver.entry doubleArith C i k ≠ Dbl.nan :=
    fun i h1 h2 => Dbl.ne_nan_of_isNaN (hnan i h2 h1)
  obtain ⟨i_max, hp, h1, h2, h3, h4⟩ := over_findPivot_spec doubleArith Dbl.mag hC hh hk
    (fun s t hs1 hs2 ht1 ht2 => Dbl.abs_lt_iff_mag (hne s hs1 hs2) (hne t ht1 ht2))
  refine ⟨i_max, hp, h1, h2, ?_, ?_⟩
  · intro i hi1 hi2
    exact (Dbl.abs_le_iff_mag (hne i hi1 hi2) (hne i_max h1 h2)).mpr (h3 i hi1 hi2)
  · intro t ht1 ht2 hall
    by_contra hlt
    have hlt' := h4 t ht1 (by omega)
    have hle := (Dbl.abs_le_iff_mag (hne i_max h1 h2) (hne t ht1 ht2)).mp (hall i_max h1 h2)
    exact absurd hle (not_le.mpr hlt')

/-- C14, amended, at `C = [[1, 0, 0], [-3, 1, 0], [3, 0, 1]]`, `h = 0`, `k = 0`: rows `1`
and `2` tie and row `1` is selected. -/
theorem C14_pivot_first_maximum_without_nan_witness :
    MatrixOver.HasShape 3 3 (MatrixOver.ofRats [[1, 0, 0], [-3, 1, 0], [3, 0, 1]]) ∧
      MatrixOver.findPivot doubleArith 3 0 0
        (MatrixOver.ofRats [[1, 0, 0], [-3, 1, 0], [3, 0, 1]]) = some 1 ∧
      ∃ i_max, MatrixOver.findPivot doubleArith 3 0 0
          (MatrixOver.ofRats [[1, 0, 0], [-3, 1, 0], [3, 0, 1]]) = some i_max ∧
        0 ≤ i_max ∧ i_max < 3 ∧
        (∀ i, 0 ≤ i → i < 3 →
          Dbl.le (Dbl.abs (MatrixOver.entry doubleArith
              (MatrixOver.ofRats [[1, 0, 0], [-3, 1, 0], [3, 0, 1]]) i 0))
            (Dbl.abs (MatrixOver.entry doubleArith
              (MatrixOver.ofRats [[1, 0, 0], [-3, 1, 0], [3, 0, 1]]) i_max 0)) = true) ∧
        ∀ t, 0 ≤ t → t < 3 →
          (∀ i, 0 ≤ i → i < 3 →
            Dbl.le (Dbl.abs (MatrixOver.entry doubleArith
                (MatrixOver.ofRats [[1, 0, 0], [-3, 1, 0], [3, 0, 1]]) i 0))
              (Dbl.abs (MatrixOver.entry doubleArith
                (MatrixOver.ofRats [[1, 0, 0], [-3, 1, 0], [3, 0, 1]]) t 0)) = true) →
          i_max ≤ t :=
  ⟨by decide!, by decide!,
    C14_pivot_first_maximum_without_nan 3 0 0 _ (by decide!) (by decide) (by decide)
      (by decide!)⟩

/-- C15, as stated, fails on a column that holds a NaN: a zero pivot does not mean a
zero column.  On the finite input
`[[1, 1e308, 0, 0], [1, -1e308, 0, 0], [0, 1, 0, 0], [1, -1e308, 0, 0]]` the first two
iterations of the forward elimination overflow and leave the row pointer `h = 2` and
column `2` with the entries `0` (row 2) and `NaN` (row 3).  The iteration `h = k = 2`
selects `i_max = 2`, whose entry is exactly zero, and skips the column (the state
after three iterations is the state after two), although the entry of row 3 is not
zero. -/
theorem C15_zero_pivot_above_nan_counterexample :
    (MatrixOver.forwardState doubleArith (MatrixOver.ofRats
        [[1, 1e308, 0, 0], [1, -1e308, 0, 0], [0, 1, 0, 0], [1, -1e308, 0, 0]]) 2).map
        (fun st => st.1) = some 2 ∧
      (MatrixOver.forwardState doubleArith (MatrixOver.ofRats
        [[1, 1e308, 0, 0], [1, -1e308, 0, 0], [0, 1, 0, 0], [1, -1e308, 0, 0]]) 2).bind
        (fun st => MatrixOver.findPivot doubleArith 4 st.1 2 st.2.1) = some 2 ∧
      (MatrixOver.forwardState doubleArith (MatrixOver.ofRats
        [[1, 1e308, 0, 0], [1, -1e308, 0, 0], [0, 1, 0, 0], [1, -1e308, 0, 0]]) 2).bind
        (fun st => st.2.1.get 2 2) = some (Dbl.num 0) ∧
      (MatrixOver.forwardState doubleArith (MatrixOver.ofRats
        [[1, 1e308, 0, 0], [1, -1e308, 0, 0], [0, 1, 0, 0], [1, -1e308, 0, 0]]) 2).bind
        (fun st => st.2.1.get 3 2) = some Dbl.nan ∧
      Dbl.isZero Dbl.nan = false ∧
      MatrixOver.forwardState doubleArith (MatrixOver.ofRats
        [[1, 1e308, 0, 0], [1, -1e308, 0, 0], [0, 1, 0, 0], [1, -1e308, 0, 0]]) 3
        = MatrixOver.forwardState doubleArith (MatrixOver.ofRats
        [[1, 1e308, 0, 0], [1, -1e308, 0, 0], [0, 1, 0, 0], [1, -1e308, 0, 0]]) 2 := by
  refine ⟨by decide!, by decide!, by decide!, by decide!, by decide!, by decide!⟩

/-- C15, amended: in an iteration of the forward elimination with row pointer `h` and
column `k` on `double` entries, if the selected pivot entry `C[i_max][k]` is exactly zero
then the iteration leaves the working copy `C`, the accumulated `I` and the row pointer
`h` unchanged (the loop itself advances `k`); and if no entry of column `k` in the rows
`h .. n - 1` is NaN, the selected pivot entry is zero exactly when every entry of column
`k` in the rows `h .. n - 1` is zero. -/
theorem C15_zero_pivot_column_skipped_without_nan (n h k : ℕ) (C I : MatrixOver Dbl)
    (hC : MatrixOver.HasShape n n C) (hh : h < n) (hk : k < n) :
    ∃ i_max, MatrixOver.findPivot doubleArith n h k C = some i_max ∧
      (Dbl.isZero (MatrixOver.entry doubleArith C i_max k) = true →
        MatrixOver.forwardStep doubleArith n k (h, C, I) = some (h, C, I)) ∧
      ((∀ i, i < n → h ≤ i → Dbl.isNaN (MatrixOver.entry doubleArith C i k) = false) →
        (Dbl.isZero (MatrixOver.entry doubleArith C i_max k) = true ↔
          ∀ i, h ≤ i → i < n → Dbl.isZero (MatrixOver.entry doubleArith C i k) = true)) := by
  obtain ⟨i_max, hp, h1, h2⟩ := over_findPivot_total doubleArith hC hh hk
  refine ⟨i_max, hp, ?_, ?_⟩
  · intro h0
    apply over_forwardStep_skip doubleArith hC hk hp h2
    show Dbl.truthy _ = false
    simp [Dbl.truthy, h0]
  · intro hnan
    have hne : ∀ i, h ≤ i → i < n → MatrixOver.entry doubleArith C i k ≠ Dbl.nan :=
      fun i h1 h2 => Dbl.ne_nan_of_isNaN (hnan i h2 h1)
    obtain ⟨x, hx, _, _, h3, _⟩ := over_findPivot_spec doubleArith Dbl.mag hC hh hk
      (fun s t hs1 hs2 ht1 ht2 => Dbl.abs_lt_iff_mag (hne s hs1 hs2) (hne t ht1 ht2))
    have hxi : x = i_max := by
      rw [hp] at hx
      exact (Option.some.inj hx).symm
    subst hxi
    refine ⟨?_, fun hall => hall x h1 h2⟩
    intro h0 i hi1 hi2
    have hm := (Dbl.isZero_iff_mag (hne x h1 h2)).mp h0
    have hle := h3 i hi1 hi2
    rw [hm] at hle
    exact (Dbl.isZero_iff_mag (hne i hi1 hi2)).mpr
      (le_antisymm hle (Dbl.mag_nonneg _))

/-- C15, amended, at `C = [[1, 2], [0, 0]]`, `I = [[1, 0], [0, 1]]`, `h = 1`, `k = 1`. -/
theorem C15_zero_pivot_column_skipped_without_nan_witness :
    MatrixOver.HasShape 2 2 (MatrixOver.ofRats [[1, 2], [0, 0]]) ∧
      MatrixOver.forwardStep doubleArith 2 1
          (1, MatrixOver.ofRats [[1, 2], [0, 0]], MatrixOver.ofRats [[1, 0], [0, 1]])
        = some (1, MatrixOver.ofRats [[1, 2], [0, 0]], MatrixOver.ofRats [[1, 0], [0, 1]]) ∧
      ∃ i_max, MatrixOver.findPivot doubleArith 2 1 1 (MatrixOver.ofRats [[1, 2], [0, 0]])
          = some i_max ∧
        (Dbl.isZero (MatrixOver.entry doubleArith (MatrixOver.ofRats [[1, 2], [0, 0]])
            i_max 1) = true →
          MatrixOver.forwardStep doubleArith 2 1
              (1, MatrixOver.ofRats [[1, 2], [0, 0]], MatrixOver.ofRats [[1, 0], [0, 1]])
            = some (1, MatrixOver.ofRats [[1, 2], [0, 0]],
                MatrixOver.ofRats [[1, 0], [0, 1]])) ∧
        ((∀ i, i < 2 → 1 ≤ i → Dbl.isNaN (MatrixOver.entry doubleArith
            (MatrixOver.ofRats [[1, 2], [0, 0]]) i 1) = false) →
          (Dbl.isZero (MatrixOver.entry doubleArith (MatrixOver.ofRats [[1, 2], [0, 0]])
              i_max 1) = true ↔
            ∀ i, 1 ≤ i → i < 2 → Dbl.isZero (MatrixOver.entry doubleArith
              (MatrixOver.ofRats [[1, 2], [0, 0]]) i 1) = true)) :=
  ⟨by decide!, by decide!,
    C15_zero_pivot_column_skipped_without_nan 2 1 1 _ _ (by decide!) (by decide)
      (by decide)⟩

end Learn
